import Mathlib

/-!
# A verification development for the chained hash table (`src/hashtable.c`)

The C code is embedded shallowly:

* pointers (`void *`) are natural numbers (addresses), `NULL` is `0`;
* `unsigned int` fields are natural numbers, every increment, decrement and
  doubling is taken modulo `2 ^ 32`;
* the `float` comparison of the growth test is evaluated with IEEE-754
  binary32 rounding (round to nearest, ties to even), on scaled integers;
* the heap-allocated bucket array is a list of optional chains (`none` is a
  `NULL` slot);
* the recursion `hashtable_put -> resize -> hashtable_put` carries a fuel
  argument that bounds the nesting depth of rehashes; `none` means that the
  fuel ran out.
-/

namespace Hashtable

/-! ## Constants and entries -/

/-- The constant `INITIAL_BUCKETS` of `hashtable.c`. -/
def INITIAL_BUCKETS : Nat := 64

/-- The constant `MAX_BUCKETS` of `hashtable.c`, `1 << 30`. -/
def MAX_BUCKETS : Nat := 2 ^ 30

/-- Range of `unsigned int`: arithmetic on the counters wraps modulo this. -/
def UINT_RANGE : Nat := 2 ^ 32

/-- The data in each chain entry (`struct kv`): a key and a value pointer. -/
structure kv where
  k : Nat
  v : Nat
deriving DecidableEq

/-! ## The chain collaborator -/

/-- Modelled from the spec: the Chain (`struct linkedlist`, declared in
`linkedlist.h`, which is not among the sources) is "an ordered, mutable
sequence of opaque entry pointers supporting append, forward iteration,
removal of the current iteration element, size query". It is a list of
entries in iteration order. -/
abbrev linkedlist := List kv

/-- Modelled from the spec: `linkedlist_alloc` gives an empty chain. -/
def linkedlist_alloc : linkedlist := []

/-- Modelled from the spec: `linkedlist_push` appends an entry, so that chain
order is insertion order. -/
def linkedlist_push (l : linkedlist) (e : kv) : linkedlist := l ++ [e]

/-- Modelled from the spec: `linkedlist_size` is the number of entries. -/
def linkedlist_size (l : linkedlist) : Nat := l.length

/-! ## The table -/

/-- The `struct hashtable`. The field `load_factor` is not stored: it is set
to `0.75` by `hashtable_alloc` and never written again. -/
structure hashtable where
  buckets : List (Option linkedlist)
  hash : Nat → Nat
  keycmp : Nat → Nat → Bool
  num_buckets : Nat
  num_used : Nat
  size : Nat

/-- The helper `alloc_buckets`: `calloc` gives `num_buckets` slots, all `NULL`. -/
def alloc_buckets (num_buckets : Nat) : List (Option linkedlist) :=
  List.replicate num_buckets none

/-- The function `hashtable_alloc`. -/
def hashtable_alloc (hash : Nat → Nat) (keycmp : Nat → Nat → Bool) : hashtable :=
  { buckets := alloc_buckets INITIAL_BUCKETS
    hash := hash
    keycmp := keycmp
    num_buckets := INITIAL_BUCKETS
    num_used := 0
    size := 0 }

/-! ## The growth test in binary32 arithmetic -/

/-- Number of low bits that do not fit a 24-bit significand: the least `e`
with `n < 2 ^ (24 + e)` (for `n < 2 ^ (24 + fuel)`). -/
def f32_shift : Nat → Nat → Nat
  | 0, _ => 0
  | fuel + 1, n => if n < 2 ^ 24 then 0 else f32_shift fuel (n / 2) + 1

/-- Rounding of `n` to a multiple of `2 ^ e`, to nearest, ties to the even
multiple. -/
def round_at (e n : Nat) : Nat :=
  let q := n / 2 ^ e
  let r := n % 2 ^ e
  if 2 ^ e < 2 * r ∨ (2 * r = 2 ^ e ∧ q % 2 = 1) then (q + 1) * 2 ^ e else q * 2 ^ e

/-- Conversion of a natural number to `float`: the nearest number with a
24-bit significand, ties to even. Operands here are below `2 ^ 34`. -/
def f32_round (n : Nat) : Nat := round_at (f32_shift 64 n) n

/-- The test `ht->num_used > ht->load_factor * ht->num_buckets` with
`load_factor = 0.75f`. Both integers are converted to `float`; the product
`0.75f * x` is the rounding of `3 * x / 4`, and rounding commutes with the
scaling by `4`, so that the test reads `4 * float(nu) > float(3 * float(nb))`. -/
def load_exceeded (num_used num_buckets : Nat) : Bool :=
  decide (f32_round (3 * f32_round num_buckets) < 4 * f32_round num_used)

/-! ## Lookup -/

/-- The scan of `get_entry` over a chain: the first entry `e` of the chain
with `keycmp(key, e->k)`. -/
def chain_find (keycmp : Nat → Nat → Bool) (key : Nat) : linkedlist → Option kv
  | [] => none
  | e :: rest => if !keycmp key e.k then chain_find keycmp key rest else some e

/-- Effect of `lliter_remove` at the entry where the scan of `get_entry`
stops: the first matching entry leaves the chain. -/
def chain_remove (keycmp : Nat → Nat → Bool) (key : Nat) : linkedlist → linkedlist
  | [] => []
  | e :: rest => if !keycmp key e.k then e :: chain_remove keycmp key rest else rest

/-- Effect of `entry->v = newvalue` on the entry that the scan of `get_entry`
returns: the first matching entry gets the new value, its key stays. -/
def chain_set (keycmp : Nat → Nat → Bool) (key newvalue : Nat) : linkedlist → linkedlist
  | [] => []
  | e :: rest =>
    if !keycmp key e.k then e :: chain_set keycmp key newvalue rest
    else { k := e.k, v := newvalue } :: rest

/-- Read of `ht->buckets[i]`. -/
def bucket_at (ht : hashtable) (i : Nat) : Option linkedlist :=
  ht.buckets.getD i none

/-- The helper `get_entry`: the entry found (or `none` for `NULL`) and the
table afterwards (changed only when `remove` is set and the key is found). -/
def get_entry (ht : hashtable) (key : Nat) (remove : Bool) : Option kv × hashtable :=
  let ihash := ht.hash key % ht.num_buckets
  match bucket_at ht ihash with
  | none => (none, ht)
  | some bucket =>
    match chain_find ht.keycmp key bucket with
    | none => (none, ht)
    | some e =>
      if remove then
        let bucket1 := chain_remove ht.keycmp key bucket
        let size1 := (ht.size + UINT_RANGE - 1) % UINT_RANGE
        if linkedlist_size bucket1 = 0 then
          (some e, { ht with
            size := size1
            num_used := (ht.num_used + UINT_RANGE - 1) % UINT_RANGE
            buckets := ht.buckets.set ihash none })
        else
          (some e, { ht with
            size := size1
            buckets := ht.buckets.set ihash (some bucket1) })
      else (some e, ht)

/-- The function `hashtable_get`: the value of the entry, `0` (`NULL`) when
there is no entry. -/
def hashtable_get (ht : hashtable) (key : Nat) : Nat :=
  match (get_entry ht key false).1 with
  | none => 0
  | some entry => entry.v

/-- The function `hashtable_contains`. -/
def hashtable_contains (ht : hashtable) (key : Nat) : Bool :=
  (get_entry ht key false).1.isSome

/-- The function `hashtable_size`. -/
def hashtable_size (ht : hashtable) : Nat := ht.size

/-! ## Insertion and rehash -/

/-- Result of `hashtable_put`: the table afterwards, the returned flag, and
the content of the cell `*oldvalue` afterwards (`none` when the caller passed
`NULL` for `oldvalue`). -/
structure put_result where
  ht : hashtable
  replaced : Bool
  oldvalue : Option Nat

/-- The loop of `resize` over one old chain: every entry is put into the
table, in chain order, through the given insertion routine. -/
def rehash_chain (put : hashtable → Nat → Nat → Option Nat → Option put_result) :
    hashtable → linkedlist → Option hashtable
  | ht, [] => some ht
  | ht, e :: rest =>
    match put ht e.k e.v none with
    | none => none
    | some r => rehash_chain put r.ht rest

/-- The loop of `resize` over the old bucket array, in bucket order; `NULL`
slots are skipped. -/
def rehash_buckets (put : hashtable → Nat → Nat → Option Nat → Option put_result) :
    hashtable → List (Option linkedlist) → Option hashtable
  | ht, [] => some ht
  | ht, none :: rest => rehash_buckets put ht rest
  | ht, some ll :: rest =>
    match rehash_chain put ht ll with
    | none => none
    | some ht1 => rehash_buckets put ht1 rest

/-- The body of `resize`, with the insertion routine it calls as a parameter.
The old bucket array is read up to index `oldnb`. The final `free_buckets` of
the old array releases memory only and is left out. -/
def resize_with (put : hashtable → Nat → Nat → Option Nat → Option put_result)
    (ht : hashtable) (num_buckets : Nat) : Option hashtable :=
  let num_buckets := if num_buckets = 0 then 1 else num_buckets
  let oldnb := ht.num_buckets
  let oldbuckets := ht.buckets
  let newbuckets := alloc_buckets num_buckets
  let ht1 : hashtable :=
    { ht with buckets := newbuckets, num_buckets := num_buckets, num_used := 0, size := 0 }
  rehash_buckets put ht1 (oldbuckets.take oldnb)

/-- The function `hashtable_put`. The argument `oldvalue` is the content of
the cell the pointer `oldvalue` refers to, `none` for a `NULL` pointer. With
fuel `n` the call may nest `n` rehashes; `none` is returned when a further
one would be needed. The diagnostic `printf` of the replacement branch has no
effect on the table and is left out. -/
def hashtable_put : Nat → hashtable → Nat → Nat → Option Nat → Option put_result
  | fuel, ht, key, newvalue, oldvalue =>
    match (get_entry ht key false).1 with
    | some entry =>
      let ihash := ht.hash key % ht.num_buckets
      let bucket := (bucket_at ht ihash).getD []
      some { ht := { ht with buckets :=
                      ht.buckets.set ihash (some (chain_set ht.keycmp key newvalue bucket)) }
             replaced := true
             oldvalue := oldvalue.map (fun _ => entry.v) }
    | none =>
      let ihash := ht.hash key % ht.num_buckets
      let bucket0 := match bucket_at ht ihash with
        | none => linkedlist_alloc
        | some b => b
      let bucket := linkedlist_push bucket0 { k := key, v := newvalue }
      let ht1 : hashtable :=
        { ht with buckets := ht.buckets.set ihash (some bucket)
                  size := (ht.size + 1) % UINT_RANGE }
      if linkedlist_size bucket = 1 then
        let ht2 : hashtable := { ht1 with num_used := (ht1.num_used + 1) % UINT_RANGE }
        if load_exceeded ht2.num_used ht2.num_buckets then
          let newnb := (ht2.num_buckets * 2) % UINT_RANGE
          match fuel with
          | 0 => none
          | fuel + 1 =>
            match resize_with (hashtable_put fuel) ht2
                (if newnb < MAX_BUCKETS then newnb else MAX_BUCKETS) with
            | none => none
            | some ht3 => some { ht := ht3, replaced := false, oldvalue := oldvalue }
        else some { ht := ht2, replaced := false, oldvalue := oldvalue }
      else some { ht := ht1, replaced := false, oldvalue := oldvalue }

/-- The helper `resize`, calling `hashtable_put` with the given fuel. -/
def resize (fuel : Nat) (ht : hashtable) (num_buckets : Nat) : Option hashtable :=
  resize_with (hashtable_put fuel) ht num_buckets

/-! ## Removal -/

/-- Result of `hashtable_remove`: the table afterwards, the returned value,
and the keys handed to the callback `kfree`. -/
structure remove_result where
  ht : hashtable
  data : Nat
  freed : List Nat

/-- The function `hashtable_remove`. The flag `kfree` says whether a
callback was passed. A failed `assert` is the error result; it carries the
table as it is when the assertion fires. -/
def hashtable_remove (ht : hashtable) (key : Nat) (kfree : Bool) :
    Except hashtable remove_result :=
  match get_entry ht key false with
  | (none, ht0) => Except.error ht0
  | (some _, ht0) =>
    match get_entry ht0 key true with
    | (some entry, ht1) =>
      Except.ok { ht := ht1, data := entry.v, freed := if kfree then [entry.k] else [] }
    | (none, ht1) => Except.error ht1

/-! ## Entries of a bucket array -/

/-- All entries held by a bucket array, in bucket order then chain order. -/
def entries : List (Option linkedlist) → List kv
  | [] => []
  | none :: rest => entries rest
  | some c :: rest => c ++ entries rest

/-- Number of slots of a bucket array that hold a chain. -/
def used_slots : List (Option linkedlist) → Nat
  | [] => 0
  | none :: rest => used_slots rest
  | some _ :: rest => used_slots rest + 1

/-- The chain behind a slot, empty for a `NULL` slot. -/
def chain_of : Option linkedlist → linkedlist
  | none => []
  | some c => c

/-- The laws the callbacks are assumed to obey: `keycmp` is an equivalence
and equal keys have equal hashes. -/
structure KeyLaws (hash : Nat → Nat) (keycmp : Nat → Nat → Bool) : Prop where
  refl : ∀ a, keycmp a a = true
  symm : ∀ a b, keycmp a b = true → keycmp b a = true
  trans : ∀ a b c, keycmp a b = true → keycmp b c = true → keycmp a c = true
  hash_eq : ∀ a b, keycmp a b = true → hash a = hash b

/-- No two entries of the list have equal keys. -/
def DistinctKeys (keycmp : Nat → Nat → Bool) (l : List kv) : Prop :=
  l.Pairwise (fun a b => keycmp a.k b.k = false)

/-! ## The representation invariant -/

/-- The representation invariant of a table: the bucket array has
`num_buckets` slots, every chain held is non-empty and holds only entries
that hash to its slot, no two entries have equal keys, and the counters agree
with the bucket array (`size` modulo the range of `unsigned int`). -/
structure Inv (ht : hashtable) : Prop where
  len : ht.buckets.length = ht.num_buckets
  pos : 0 < ht.num_buckets
  lt : ht.num_buckets < UINT_RANGE
  place : ∀ i c, bucket_at ht i = some c →
    c ≠ [] ∧ ∀ e ∈ c, ht.hash e.k % ht.num_buckets = i
  distinct : DistinctKeys ht.keycmp (entries ht.buckets)
  used : ht.num_used = used_slots ht.buckets
  size_eq : ht.size = (entries ht.buckets).length % UINT_RANGE

/-- The entry `get_entry` finds without removal. -/
def lookup (ht : hashtable) (key : Nat) : Option kv := (get_entry ht key false).1

/-! ## The branches of `hashtable_put` -/

/-- The table after the replacement branch of `hashtable_put`. -/
def tbl_replace (ht : hashtable) (key newvalue : Nat) : hashtable :=
  let ihash := ht.hash key % ht.num_buckets
  let bucket := (bucket_at ht ihash).getD []
  { ht with buckets := ht.buckets.set ihash (some (chain_set ht.keycmp key newvalue bucket)) }

/-- The chain of the key after the insertion branch pushed the new entry. -/
def ins_chain (ht : hashtable) (key newvalue : Nat) : linkedlist :=
  chain_of (bucket_at ht (ht.hash key % ht.num_buckets)) ++ [{ k := key, v := newvalue }]

/-- The table after the insertion branch of `hashtable_put`, before any
rehash. -/
def tbl_insert (ht : hashtable) (key newvalue : Nat) : hashtable :=
  { ht with
    buckets := ht.buckets.set (ht.hash key % ht.num_buckets) (some (ins_chain ht key newvalue))
    size := (ht.size + 1) % UINT_RANGE
    num_used :=
      if (ins_chain ht key newvalue).length = 1 then (ht.num_used + 1) % UINT_RANGE
      else ht.num_used }

/-- The bucket count `hashtable_put` asks `resize` for. -/
def grow_target (num_buckets : Nat) : Nat :=
  if (num_buckets * 2) % UINT_RANGE < MAX_BUCKETS then (num_buckets * 2) % UINT_RANGE
  else MAX_BUCKETS

/-- The insertion branch of `hashtable_put` calls `resize`. -/
def must_grow (ht : hashtable) (key newvalue : Nat) : Prop :=
  (ins_chain ht key newvalue).length = 1 ∧
    load_exceeded ((ht.num_used + 1) % UINT_RANGE) ht.num_buckets = true

instance (ht : hashtable) (key newvalue : Nat) : Decidable (must_grow ht key newvalue) := by
  unfold must_grow
  infer_instance

/-! ## The removal branch of `get_entry` -/

/-- The table after `get_entry` removed the entry of a key that is present. -/
def tbl_remove (ht : hashtable) (key : Nat) : hashtable :=
  let ihash := ht.hash key % ht.num_buckets
  let bucket1 := chain_remove ht.keycmp key (chain_of (bucket_at ht ihash))
  if linkedlist_size bucket1 = 0 then
    { ht with
      size := (ht.size + UINT_RANGE - 1) % UINT_RANGE
      num_used := (ht.num_used + UINT_RANGE - 1) % UINT_RANGE
      buckets := ht.buckets.set ihash none }
  else
    { ht with
      size := (ht.size + UINT_RANGE - 1) % UINT_RANGE
      buckets := ht.buckets.set ihash (some bucket1) }

/-! ## Specification of `hashtable_put` and `resize` -/

/-- The growth test fails for every occupancy up to the current one. -/
def LoadOK (ht : hashtable) : Prop :=
  ∀ m, m ≤ ht.num_used → load_exceeded m ht.num_buckets = false

/-- The bucket count is a power of two not above `MAX_BUCKETS`. -/
def PowOK (ht : hashtable) : Prop := ∃ j, j ≤ 30 ∧ ht.num_buckets = 2 ^ j

/-- What a returning call `hashtable_put(ht, key, newvalue, oldvalue)` with
result `r` guarantees. -/
structure PutPost (ht : hashtable) (key newvalue : Nat) (oldvalue : Option Nat)
    (r : put_result) : Prop where
  inv : Inv r.ht
  hash_eq : r.ht.hash = ht.hash
  keycmp_eq : r.ht.keycmp = ht.keycmp
  found : ∀ e, lookup ht key = some e →
    r.replaced = true ∧ r.oldvalue = oldvalue.map (fun _ => e.v) ∧
    r.ht.num_buckets = ht.num_buckets ∧ r.ht.num_used = ht.num_used ∧ r.ht.size = ht.size ∧
    ∃ others, (entries ht.buckets).Perm (e :: others) ∧
      (entries r.ht.buckets).Perm ({ k := e.k, v := newvalue } :: others)
  fresh : lookup ht key = none →
    r.replaced = false ∧ r.oldvalue = oldvalue ∧
    (entries r.ht.buckets).Perm ({ k := key, v := newvalue } :: entries ht.buckets)
  load : LoadOK ht → LoadOK r.ht
  pow : PowOK ht → PowOK r.ht ∧ ht.num_buckets ≤ r.ht.num_buckets

/-- An insertion routine meets the specification of `hashtable_put`. -/
def PutSpec (put : hashtable → Nat → Nat → Option Nat → Option put_result) : Prop :=
  ∀ ht key newvalue oldvalue r, KeyLaws ht.hash ht.keycmp → Inv ht →
    put ht key newvalue oldvalue = some r → PutPost ht key newvalue oldvalue r

/-- What a returning call `resize(ht, n)` with result `ht2` guarantees. -/
structure ResizePost (ht : hashtable) (n : Nat) (ht2 : hashtable) : Prop where
  inv : Inv ht2
  hash_eq : ht2.hash = ht.hash
  keycmp_eq : ht2.keycmp = ht.keycmp
  perm : (entries ht2.buckets).Perm (entries ht.buckets)
  load : LoadOK ht2
  pow : (∃ j, j ≤ 30 ∧ n = 2 ^ j) → PowOK ht2 ∧ n ≤ ht2.num_buckets

/-! ## Reachable tables -/

/-- Tables reachable from `hashtable_alloc hash keycmp` by returning calls of
`hashtable_put` and `hashtable_remove`. -/
inductive Reachable (hash : Nat → Nat) (keycmp : Nat → Nat → Bool) : hashtable → Prop
  | alloc : Reachable hash keycmp (hashtable_alloc hash keycmp)
  | put {ht : hashtable} {fuel key newvalue : Nat} {oldvalue : Option Nat} {r : put_result} :
      Reachable hash keycmp ht → hashtable_put fuel ht key newvalue oldvalue = some r →
      Reachable hash keycmp r.ht
  | remove {ht : hashtable} {key : Nat} {kfree : Bool} {r : remove_result} :
      Reachable hash keycmp ht → hashtable_remove ht key kfree = Except.ok r →
      Reachable hash keycmp r.ht

/-- Facts that hold of every reachable table. -/
structure Good (hash : Nat → Nat) (keycmp : Nat → Nat → Bool) (ht : hashtable) : Prop where
  inv : Inv ht
  hash_eq : ht.hash = hash
  keycmp_eq : ht.keycmp = keycmp
  load : LoadOK ht
  pow : PowOK ht
  nb_ge : INITIAL_BUCKETS ≤ ht.num_buckets

/-- Number of entries below which no rehash at the largest bucket count can
be asked for: `0.75 * 2 ^ 30`. -/
def CAP_ENTRIES : Nat := 3 * 2 ^ 28

/-- The bucket count is a power of two from which at most `d` doublings lead
to `MAX_BUCKETS`. -/
def Within (d : Nat) (ht : hashtable) : Prop :=
  PowOK ht ∧ MAX_BUCKETS ≤ ht.num_buckets * 2 ^ d

/-! ## Sequences of calls -/

/-- A call issued on a table: `hashtable_put(key, newvalue, oldvalue)` or
`hashtable_remove(key, kfree)`. -/
inductive call where
  | put (key newvalue : Nat) (oldvalue : Option Nat)
  | remove (key : Nat) (kfree : Bool)

/-- The table after a sequence of calls, `none` when a call does not return
within the fuel or an assertion fails. -/
def run_calls (fuel : Nat) : hashtable → List call → Option hashtable
  | ht, [] => some ht
  | ht, call.put key newvalue oldvalue :: rest =>
    match hashtable_put fuel ht key newvalue oldvalue with
    | none => none
    | some r => run_calls fuel r.ht rest
  | ht, call.remove key kfree :: rest =>
    match hashtable_remove ht key kfree with
    | Except.error _ => none
    | Except.ok r => run_calls fuel r.ht rest

/-- One step of the bookkeeping of `live_keys`. -/
def live_step (keycmp : Nat → Nat → Bool) (live : List Nat) : call → List Nat
  | call.put key _ _ => if live.any (fun x => keycmp key x) then live else key :: live
  | call.remove key _ => live.filter (fun x => !keycmp key x)

/-- Written after the words of the spec: the keys that have been put and not
subsequently removed, one for each class of equal keys. A put of a key equal
to a live one adds nothing, a remove drops the live key equal to its
argument. -/
def live_keys (keycmp : Nat → Nat → Bool) (calls : List call) : List Nat :=
  calls.foldl (live_step keycmp) []

/-- Written after the words of the spec: the sum of the entry counts of all
chains. -/
def chain_total : List (Option linkedlist) → Nat
  | [] => 0
  | none :: rest => chain_total rest
  | some c :: rest => linkedlist_size c + chain_total rest

/-- The keys stored in a table. -/
def stored_keys (ht : hashtable) : List Nat := (entries ht.buckets).map kv.k

/-! ## The callbacks of the test program and a crowded table -/

/-- The hash callback `identity_hash` of `test_hashtable.c`. -/
def identity_hash (v : Nat) : Nat := v

/-- The comparison callback `keycmp_int` of `test_hashtable.c`: pointer
equality. -/
def keycmp_int (ka kb : Nat) : Bool := decide (ka = kb)

/-- A hash callback that sends every key to bucket `0`. -/
def zero_hash (_ : Nat) : Nat := 0

/-- The chain holding the keys `0 .. n - 1` in ascending order, key `i` with
value `i`. -/
def chain_upto (n : Nat) : linkedlist := (List.range n).map (fun i => { k := i, v := i })

/-- The table holding the keys `0 .. n` in the chain of bucket `0`: it is the
table after `hashtable_put(i, i)` for `i = 0 .. n` on a fresh table with the
callbacks `zero_hash` and `keycmp_int`. -/
def crowded (n : Nat) : hashtable :=
  { buckets := some (chain_upto (n + 1)) :: List.replicate 63 none
    hash := zero_hash
    keycmp := keycmp_int
    num_buckets := 64
    num_used := 1
    size := (n + 1) % UINT_RANGE }

/-- The result of the first round of `test_resize`: `hashtable_put(0, 0)` on
the fresh table. -/
def first_round : put_result :=
  { ht := tbl_insert (hashtable_alloc identity_hash keycmp_int) 0 0
    replaced := false
    oldvalue := none }

/-- The condition of C7 on a key and a sequence of calls: no call puts an
equal key, or a call removes an equal key and no later call puts one. -/
def never_put_or_removed (keycmp : Nat → Nat → Bool) (key : Nat) (calls : List call) : Prop :=
  (∀ k v old, call.put k v old ∈ calls → keycmp key k = false) ∨
  (∃ before k kfree after, calls = before ++ call.remove k kfree :: after ∧
    keycmp key k = true ∧ ∀ k2 v old, call.put k2 v old ∈ after → keycmp key k2 = false)

/-! ## The scenario of `test_resize` -/

/-- The table after the first `n` rounds of the first loop of `test_resize`:
the keys `0 .. n - 1` are put in ascending order, key `i` with value `i`;
`none` when a put does not return within the fuel. -/
def put_range (fuel : Nat) (ht : hashtable) : Nat → Option hashtable
  | 0 => some ht
  | n + 1 =>
    match put_range fuel ht n with
    | none => none
    | some t =>
      match hashtable_put fuel t n n none with
      | none => none
      | some r => some r.ht

/-- The three assertions of the first loop of `test_resize` after round `i`,
and the exact form of the third. -/
def round_ok (i : Nat) : Bool :=
  match put_range 1 (hashtable_alloc identity_hash keycmp_int) (i + 1) with
  | none => false
  | some t =>
    decide (hashtable_size t = i + 1) && decide (t.num_used = i + 1) &&
      !load_exceeded t.num_used t.num_buckets &&
      decide (4 * t.num_used ≤ 3 * t.num_buckets)

/-- The assertion of the second loop of `test_resize` for key `i`. -/
def read_ok (i : Nat) : Bool :=
  match put_range 1 (hashtable_alloc identity_hash keycmp_int) 128 with
  | none => false
  | some t => decide (hashtable_get t i = i)

/-! ## Growth happens only when the growth test asks for it -/

/-- The bucket count is still `n0`, or the growth test succeeded at half the
current bucket count for an occupancy that the stored entries can account
for. -/
def TightFrom (n0 : Nat) (t : hashtable) : Prop :=
  t.num_buckets = n0 ∨
    ∃ m, m ≤ (entries t.buckets).length ∧ load_exceeded m (t.num_buckets / 2) = true

/-- The table `resize` starts to fill: `n` empty slots, zeroed counters. -/
def fresh_tbl (ht : hashtable) (n : Nat) : hashtable :=
  { ht with buckets := alloc_buckets n, num_buckets := n, num_used := 0, size := 0 }


/-! ## Termination of every table below the last growth threshold -/

/-- Largest number of stored entries for which a `hashtable_put` is shown to
return: with `2 ^ 30` buckets or more the growth test first succeeds at
`3 * 2 ^ 28 + 33` used buckets, the first value whose `float` is above
`0.75 * 2 ^ 30`. -/
def CAP_USED : Nat := 3 * 2 ^ 28 + 32

/-- A table of the test program's callbacks at the largest bucket count, all
of whose keys are below the bucket count: every entry has a bucket of its
own. -/
structure Spread (t : hashtable) : Prop where
  inv : Inv t
  hash_eq : t.hash = identity_hash
  keycmp_eq : t.keycmp = keycmp_int
  nb_eq : t.num_buckets = MAX_BUCKETS
  small : ∀ e ∈ entries t.buckets, e.k < MAX_BUCKETS

/-! ## A put whose rehash nests -/

/-- Calls that fill 48 buckets of a fresh table of the test program with two
keys each: the keys `0 .. 47`, then the keys `64 .. 111`. -/
def paired_calls : List call :=
  (List.range 48).map (fun i => call.put i i none) ++
    (List.range 48).map (fun i => call.put (i + 64) i none)

/-- The check behind the counterexample to C11: after `paired_calls` the
table has 64 buckets, key `48` is absent and hashes to an empty bucket, the
growth test succeeds for one more used bucket, and the put of key `48`
returns with 256 buckets. -/
def nested_growth_check : Bool :=
  match run_calls 0 (hashtable_alloc identity_hash keycmp_int) paired_calls with
  | none => false
  | some t =>
    decide (t.num_buckets = 64) && !hashtable_contains t 48 &&
      (bucket_at t (t.hash 48 % t.num_buckets)).isNone &&
      load_exceeded (t.num_used + 1) t.num_buckets &&
      match hashtable_put 2 t 48 48 none with
      | none => false
      | some r => decide (r.ht.num_buckets = 256)

/-! ## Tables for the witnesses -/

/-- The table of the test program after the puts of the keys `0 .. 47`: 64
buckets, 48 of them used, so that one more used bucket asks for a rehash. -/
def half_full : hashtable :=
  match put_range 0 (hashtable_alloc identity_hash keycmp_int) 48 with
  | some t => t
  | none => hashtable_alloc identity_hash keycmp_int

/-- A hash callback that looks at the three low bits of a key only. -/
def low_hash (k : Nat) : Nat := k % 8

/-- A comparison callback that calls two keys equal when their three low
bits agree, so that distinct key pointers can be equal keys. -/
def keycmp_low (ka kb : Nat) : Bool := decide (ka % 8 = kb % 8)

/-- The result of `hashtable_put(1, 10)` on a fresh table with the callbacks
`low_hash` and `keycmp_low`. -/
def keyed_once : put_result :=
  { ht := tbl_insert (hashtable_alloc low_hash keycmp_low) 1 10
    replaced := false
    oldvalue := none }

/-! ## Release of a table -/

/-- The calls `kvfree(e->k, e->v)` that the inner loop of `free_buckets`
makes on one chain, in chain order; none when the callback is `NULL`. -/
def free_chain (kvfree : Bool) : linkedlist → List (Nat × Nat)
  | [] => []
  | e :: rest => (if kvfree then [(e.k, e.v)] else []) ++ free_chain kvfree rest

/-- The calls of the callback over the slots that the outer loop of
`free_buckets` visits; `NULL` slots are skipped. -/
def free_slots (kvfree : Bool) : List (Option linkedlist) → List (Nat × Nat)
  | [] => []
  | none :: rest => free_slots kvfree rest
  | some ll :: rest => free_chain kvfree ll ++ free_slots kvfree rest

/-- The helper `free_buckets`, as the list of the calls it makes to the
callback `kvfree` (the flag says whether one was passed). The parameter
`num_buckets` is an `int`: a count of `2 ^ 31` or more arrives negative and
the loop does not run. The memory it releases is not modelled. -/
def free_buckets (buckets : List (Option linkedlist)) (num_buckets : Nat) (kvfree : Bool) :
    List (Nat × Nat) :=
  free_slots kvfree (buckets.take (if num_buckets < 2 ^ 31 then num_buckets else 0))

/-- The function `hashtable_free`, as the list of the calls it makes to the
callback `fn`. -/
def hashtable_free (ht : hashtable) (fn : Bool) : List (Nat × Nat) :=
  free_buckets ht.buckets ht.num_buckets fn

/-! ## The slots that entries occupy at a bucket count -/

/-- Number of bucket slots that the entries of `l` occupy in an array of `n`
buckets: the number of distinct values of `hash(key) % n`. -/
def slots_taken (hash : Nat → Nat) (n : Nat) (l : List kv) : Nat :=
  ((l.map (fun e => hash e.k % n)).dedup).length

/-- The bucket count is still `n0`, or the growth test succeeded at `n0`
buckets for an occupancy that the stored entries reach there. -/
def GrewFrom (n0 : Nat) (t : hashtable) : Prop :=
  t.num_buckets = n0 ∨
    ∃ m, m ≤ slots_taken t.hash n0 (entries t.buckets) ∧ load_exceeded m n0 = true
/-! # Theorems -/

/-! ## Entries of a bucket array -/

theorem entries_append (a b : List (Option linkedlist)) :
    entries (a ++ b) = entries a ++ entries b := by
  induction a with
  | nil => rfl
  | cons x r ih => cases x <;> simp [entries, ih]

theorem entries_replicate_none (n : Nat) : entries (List.replicate n none) = [] := by
  induction n with
  | zero => rfl
  | succ n ih => simpa [List.replicate_succ, entries] using ih

theorem used_slots_replicate_none (n : Nat) : used_slots (List.replicate n none) = 0 := by
  induction n with
  | zero => rfl
  | succ n ih => simpa [List.replicate_succ, used_slots] using ih

theorem getD_replicate_none (n i : Nat) :
    (List.replicate n (none : Option linkedlist)).getD i none = none := by
  induction n generalizing i with
  | zero => simp
  | succ n ih => cases i <;> simp [List.replicate_succ, ih]

theorem used_slots_le (bs : List (Option linkedlist)) : used_slots bs ≤ bs.length := by
  induction bs with
  | nil => simp [used_slots]
  | cons x r ih => cases x <;> simp [used_slots] <;> omega

/-- Splitting a bucket array at a valid index. -/
theorem split_at (bs : List (Option linkedlist)) (i : Nat) (h : i < bs.length) :
    ∃ l1 l2, bs = l1 ++ bs.getD i none :: l2 ∧ l1.length = i ∧
      ∀ x, bs.set i x = l1 ++ x :: l2 := by
  induction bs generalizing i with
  | nil => simp at h
  | cons b r ih =>
    cases i with
    | zero => exact ⟨[], r, by simp, rfl, fun x => by simp⟩
    | succ i =>
      obtain ⟨l1, l2, h1, h2, h3⟩ := ih i (by simpa using h)
      refine ⟨b :: l1, l2, ?_, by simp [h2], fun x => by simp [h3]⟩
      simp only [List.getD_cons_succ, List.cons_append]
      exact congrArg _ h1

theorem getD_set_self (bs : List (Option linkedlist)) (i : Nat) (x : Option linkedlist)
    (h : i < bs.length) : (bs.set i x).getD i none = x := by
  induction bs generalizing i with
  | nil => simp at h
  | cons b r ih =>
    cases i with
    | zero => simp
    | succ i => simpa using ih i (by simpa using h)

theorem getD_set_other (bs : List (Option linkedlist)) (i j : Nat) (x : Option linkedlist)
    (h : j ≠ i) : (bs.set i x).getD j none = bs.getD j none := by
  induction bs generalizing i j with
  | nil => simp
  | cons b r ih =>
    cases i with
    | zero =>
      cases j with
      | zero => exact absurd rfl h
      | succ j => simp
    | succ i =>
      cases j with
      | zero => simp
      | succ j => simpa using ih i j (by omega)

theorem entries_cons (b : Option linkedlist) (r : List (Option linkedlist)) :
    entries (b :: r) = chain_of b ++ entries r := by
  cases b <;> simp [entries, chain_of]

theorem used_slots_cons (b : Option linkedlist) (r : List (Option linkedlist)) :
    used_slots (b :: r) = used_slots r + (if b.isSome then 1 else 0) := by
  cases b <;> simp [used_slots]

theorem used_slots_append (a b : List (Option linkedlist)) :
    used_slots (a ++ b) = used_slots a + used_slots b := by
  induction a with
  | nil => simp [used_slots]
  | cons x r ih => cases x <;> simp [used_slots, ih]; omega

/-- Members of `entries` are the members of the chains. -/
theorem mem_entries {bs : List (Option linkedlist)} {e : kv} :
    e ∈ entries bs ↔ ∃ i c, bs.getD i none = some c ∧ e ∈ c := by
  induction bs with
  | nil => simp [entries]
  | cons b r ih =>
    rw [entries_cons, List.mem_append, ih]
    constructor
    · rintro (h | ⟨i, c, h1, h2⟩)
      · cases b with
        | none => simp [chain_of] at h
        | some c => exact ⟨0, c, by simp, h⟩
      · exact ⟨i + 1, c, by simpa using h1, h2⟩
    · rintro ⟨i, c, h1, h2⟩
      cases i with
      | zero =>
        left
        simp at h1
        subst h1
        exact h2
      | succ i => exact Or.inr ⟨i, c, by simpa using h1, h2⟩

/-- Effect of writing one slot on the entries, as a permutation. -/
theorem entries_set_perm (bs : List (Option linkedlist)) (i : Nat) (x : Option linkedlist)
    (h : i < bs.length) :
    (entries (bs.set i x) ++ chain_of (bs.getD i none)).Perm (chain_of x ++ entries bs) := by
  obtain ⟨l1, l2, h1, _, h3⟩ := split_at bs i h
  rw [h3 x]
  conv_rhs => rw [h1]
  simp only [entries_append, entries_cons]
  generalize entries l1 = A
  generalize entries l2 = B
  generalize chain_of (bs.getD i none) = C
  generalize chain_of x = X
  have e1 : (A ++ (X ++ B) ++ C).Perm (X ++ (A ++ (C ++ B))) := by
    refine List.perm_iff_count.mpr fun a => ?_
    simp only [List.count_append]
    omega
  exact e1

/-- Effect of writing one slot on the number of used slots. -/
theorem used_slots_set (bs : List (Option linkedlist)) (i : Nat) (x : Option linkedlist)
    (h : i < bs.length) :
    used_slots (bs.set i x) + (if (bs.getD i none).isSome then 1 else 0) =
      used_slots bs + (if x.isSome then 1 else 0) := by
  obtain ⟨l1, l2, h1, _, h3⟩ := split_at bs i h
  rw [h3 x]
  conv_rhs => rw [h1]
  simp only [used_slots_append, used_slots_cons]
  omega

/-! ## Facts on the chain scan -/

theorem chain_find_some {keycmp : Nat → Nat → Bool} {key : Nat} {c : linkedlist} {e : kv}
    (h : chain_find keycmp key c = some e) : e ∈ c ∧ keycmp key e.k = true := by
  induction c with
  | nil => simp [chain_find] at h
  | cons x r ih =>
    unfold chain_find at h
    by_cases hx : keycmp key x.k = true
    · simp [hx] at h
      subst h
      exact ⟨List.mem_cons_self _ _, hx⟩
    · simp [hx] at h
      exact ⟨List.mem_cons_of_mem _ (ih h).1, (ih h).2⟩

theorem chain_find_none {keycmp : Nat → Nat → Bool} {key : Nat} {c : linkedlist} :
    chain_find keycmp key c = none ↔ ∀ e ∈ c, keycmp key e.k = false := by
  induction c with
  | nil => simp [chain_find]
  | cons x r ih =>
    unfold chain_find
    by_cases hx : keycmp key x.k = true
    · simp [hx]
    · simp [hx, ih]

theorem distinct_symm {hash : Nat → Nat} {keycmp : Nat → Nat → Bool}
    (laws : KeyLaws hash keycmp) :
    Symmetric (fun a b : kv => keycmp a.k b.k = false) := by
  intro a b hab
  cases hba : keycmp b.k a.k with
  | false => rfl
  | true => rw [laws.symm _ _ hba] at hab; exact absurd hab (by simp)

/-- In a chain without equal keys the scan finds the one entry with a
matching key. -/
theorem chain_find_of_mem {hash : Nat → Nat} {keycmp : Nat → Nat → Bool}
    (laws : KeyLaws hash keycmp) {key : Nat} {c : linkedlist} {e : kv}
    (hd : DistinctKeys keycmp c) (hm : e ∈ c) (hk : keycmp key e.k = true) :
    chain_find keycmp key c = some e := by
  cases hf : chain_find keycmp key c with
  | none =>
    have := chain_find_none.mp hf e hm
    simp [hk] at this
  | some x =>
    obtain ⟨hx, hkx⟩ := chain_find_some hf
    by_cases hxe : x = e
    · rw [hxe]
    · exfalso
      have hxk : keycmp x.k e.k = true := laws.trans _ _ _ (laws.symm _ _ hkx) hk
      have hex : keycmp e.k x.k = true := laws.symm _ _ hxk
      have hrel := List.Pairwise.forall (distinct_symm laws) hd hm hx (Ne.symm hxe)
      simp [hex] at hrel

/-- Shape of a chain around the entry the scan finds. -/
theorem chain_find_split {keycmp : Nat → Nat → Bool} {key : Nat} {c : linkedlist} {e : kv}
    (h : chain_find keycmp key c = some e) :
    ∃ l1 l2, c = l1 ++ e :: l2 ∧ (∀ x ∈ l1, keycmp key x.k = false) ∧
      chain_remove keycmp key c = l1 ++ l2 ∧
      ∀ v, chain_set keycmp key v c = l1 ++ { k := e.k, v := v } :: l2 := by
  induction c with
  | nil => simp [chain_find] at h
  | cons x r ih =>
    unfold chain_find at h
    by_cases hx : keycmp key x.k = true
    · simp [hx] at h
      subst h
      exact ⟨[], r, rfl, by simp, by simp [chain_remove, hx], fun v => by simp [chain_set, hx]⟩
    · simp [hx] at h
      obtain ⟨l1, l2, h1, h2, h3, h4⟩ := ih h
      refine ⟨x :: l1, l2, by simp [h1], ?_, by simp [chain_remove, hx, h3],
        fun v => by simp [chain_set, hx, h4]⟩
      intro y hy
      rcases List.mem_cons.mp hy with rfl | hy
      · simpa using hx
      · exact h2 y hy

/-! ## Lookup under the invariant -/

theorem get_entry_false_snd (ht : hashtable) (key : Nat) : (get_entry ht key false).2 = ht := by
  unfold get_entry
  dsimp only
  cases bucket_at ht (ht.hash key % ht.num_buckets) with
  | none => rfl
  | some c => cases h : chain_find ht.keycmp key c <;> simp [h]

theorem lookup_eq (ht : hashtable) (key : Nat) :
    lookup ht key =
      chain_find ht.keycmp key (chain_of (bucket_at ht (ht.hash key % ht.num_buckets))) := by
  unfold lookup get_entry
  dsimp only
  cases bucket_at ht (ht.hash key % ht.num_buckets) with
  | none => rfl
  | some c => cases h : chain_find ht.keycmp key c <;> simp [chain_of, h]

theorem chain_sublist {bs : List (Option linkedlist)} {i : Nat} {c : linkedlist}
    (h : bs.getD i none = some c) : c.Sublist (entries bs) := by
  induction bs generalizing i with
  | nil => simp at h
  | cons b r ih =>
    rw [entries_cons]
    cases i with
    | zero =>
      simp at h
      subst h
      exact List.sublist_append_left _ _
    | succ i =>
      exact (ih (by simpa using h)).trans (List.sublist_append_right _ _)

theorem index_lt {ht : hashtable} (inv : Inv ht) (key : Nat) :
    ht.hash key % ht.num_buckets < ht.buckets.length := by
  rw [inv.len]
  exact Nat.mod_lt _ inv.pos

theorem lookup_some_iff {ht : hashtable} (laws : KeyLaws ht.hash ht.keycmp) (inv : Inv ht)
    {key : Nat} {e : kv} :
    lookup ht key = some e ↔ e ∈ entries ht.buckets ∧ ht.keycmp key e.k = true := by
  rw [lookup_eq]
  constructor
  · intro h
    obtain ⟨h1, h2⟩ := chain_find_some h
    refine ⟨?_, h2⟩
    cases hb : bucket_at ht (ht.hash key % ht.num_buckets) with
    | none => simp [hb, chain_of] at h1
    | some c =>
      rw [hb] at h1
      exact mem_entries.mpr ⟨_, c, hb, h1⟩
  · rintro ⟨h1, h2⟩
    obtain ⟨j, c, hj, hc⟩ := mem_entries.mp h1
    have hp := (inv.place j c hj).2 e hc
    rw [← laws.hash_eq _ _ h2] at hp
    rw [hp]
    have hj2 : bucket_at ht j = some c := hj
    rw [hj2]
    exact chain_find_of_mem laws (List.Pairwise.sublist (chain_sublist hj) inv.distinct) hc h2

theorem lookup_none_iff {ht : hashtable} (laws : KeyLaws ht.hash ht.keycmp) (inv : Inv ht)
    {key : Nat} :
    lookup ht key = none ↔ ∀ e ∈ entries ht.buckets, ht.keycmp key e.k = false := by
  constructor
  · intro h e he
    cases hk : ht.keycmp key e.k with
    | false => rfl
    | true =>
      have := (lookup_some_iff laws inv).mpr ⟨he, hk⟩
      rw [h] at this
      exact absurd this (by simp)
  · intro h
    cases hl : lookup ht key with
    | none => rfl
    | some e =>
      obtain ⟨h1, h2⟩ := (lookup_some_iff laws inv).mp hl
      rw [h e h1] at h2
      exact absurd h2 (by simp)

/-- A lookup depends only on the members of `entries`. -/
theorem lookup_congr {ht ht2 : hashtable} (laws : KeyLaws ht.hash ht.keycmp)
    (inv : Inv ht) (inv2 : Inv ht2) (hh : ht2.hash = ht.hash) (hc : ht2.keycmp = ht.keycmp)
    (hp : (entries ht2.buckets).Perm (entries ht.buckets)) (key : Nat) :
    lookup ht2 key = lookup ht key := by
  have laws2 : KeyLaws ht2.hash ht2.keycmp := by rw [hh, hc]; exact laws
  cases hl : lookup ht key with
  | none =>
    rw [lookup_none_iff laws inv] at hl
    rw [lookup_none_iff laws2 inv2]
    intro e he
    rw [hc]
    exact hl e (hp.mem_iff.mp he)
  | some e =>
    rw [lookup_some_iff laws inv] at hl
    rw [lookup_some_iff laws2 inv2, hc]
    exact ⟨hp.mem_iff.mpr hl.1, hl.2⟩

theorem hashtable_get_eq (ht : hashtable) (key : Nat) :
    hashtable_get ht key = match lookup ht key with
      | none => 0
      | some entry => entry.v := rfl

theorem hashtable_contains_eq (ht : hashtable) (key : Nat) :
    hashtable_contains ht key = (lookup ht key).isSome := rfl

/-! ## The branches of `hashtable_put` -/

theorem put_eq_found {fuel : Nat} {ht : hashtable} {key newvalue : Nat} {oldvalue : Option Nat}
    {entry : kv} (h : lookup ht key = some entry) :
    hashtable_put fuel ht key newvalue oldvalue =
      some { ht := tbl_replace ht key newvalue, replaced := true,
             oldvalue := oldvalue.map (fun _ => entry.v) } := by
  unfold lookup at h
  cases fuel <;> simp [hashtable_put, h, tbl_replace]

theorem ins_chain_eq (ht : hashtable) (key newvalue : Nat) :
    linkedlist_push
      (match bucket_at ht (ht.hash key % ht.num_buckets) with
        | none => linkedlist_alloc
        | some b => b) { k := key, v := newvalue } = ins_chain ht key newvalue := by
  unfold ins_chain linkedlist_push linkedlist_alloc chain_of
  cases bucket_at ht (ht.hash key % ht.num_buckets) <;> rfl

theorem put_eq_plain {fuel : Nat} {ht : hashtable} {key newvalue : Nat} {oldvalue : Option Nat}
    (h : lookup ht key = none) (hg : ¬ must_grow ht key newvalue) :
    hashtable_put fuel ht key newvalue oldvalue =
      some { ht := tbl_insert ht key newvalue, replaced := false, oldvalue := oldvalue } := by
  unfold lookup at h
  unfold must_grow at hg
  cases fuel <;>
    (simp only [hashtable_put, h, ins_chain_eq, linkedlist_size]
     unfold tbl_insert
     split_ifs <;> simp_all)

theorem put_eq_grow_zero {ht : hashtable} {key newvalue : Nat} {oldvalue : Option Nat}
    (h : lookup ht key = none) (hg : must_grow ht key newvalue) :
    hashtable_put 0 ht key newvalue oldvalue = none := by
  unfold lookup at h
  unfold must_grow at hg
  simp only [hashtable_put, h, ins_chain_eq, linkedlist_size]
  simp [hg.1, hg.2]

theorem put_eq_grow_succ {fuel : Nat} {ht : hashtable} {key newvalue : Nat}
    {oldvalue : Option Nat}
    (h : lookup ht key = none) (hg : must_grow ht key newvalue) :
    hashtable_put (fuel + 1) ht key newvalue oldvalue =
      match resize fuel (tbl_insert ht key newvalue) (grow_target ht.num_buckets) with
      | none => none
      | some ht3 => some { ht := ht3, replaced := false, oldvalue := oldvalue } := by
  unfold lookup at h
  unfold must_grow at hg
  simp only [hashtable_put, h, ins_chain_eq, linkedlist_size]
  simp only [hg.1, hg.2, if_true]
  unfold resize tbl_insert grow_target
  simp only [hg.1, if_true]

/-! ## The insertion branch keeps the invariant -/

theorem uint_range_eq : UINT_RANGE = 4294967296 := by
  unfold UINT_RANGE
  norm_num

theorem max_buckets_eq : MAX_BUCKETS = 1073741824 := by
  unfold MAX_BUCKETS
  norm_num

theorem distinct_perm {hash : Nat → Nat} {keycmp : Nat → Nat → Bool}
    (laws : KeyLaws hash keycmp) {l1 l2 : List kv} (hp : l1.Perm l2)
    (hd : DistinctKeys keycmp l1) : DistinctKeys keycmp l2 :=
  (hp.pairwise_iff (fun {_ _} h => distinct_symm laws h)).mp hd

theorem tbl_insert_perm {ht : hashtable} (inv : Inv ht) (key newvalue : Nat) :
    (entries (tbl_insert ht key newvalue).buckets).Perm
      ({ k := key, v := newvalue } :: entries ht.buckets) := by
  have hp := entries_set_perm ht.buckets (ht.hash key % ht.num_buckets)
    (some (ins_chain ht key newvalue)) (index_lt inv key)
  unfold tbl_insert
  simp only
  refine List.perm_iff_count.mpr fun a => ?_
  have hc := List.perm_iff_count.mp hp a
  simp only [List.count_append, chain_of, ins_chain, bucket_at, List.count_cons,
    List.count_nil] at hc ⊢
  omega

theorem ins_chain_length_one {ht : hashtable} (inv : Inv ht) (key newvalue : Nat) :
    (ins_chain ht key newvalue).length = 1 ↔
      bucket_at ht (ht.hash key % ht.num_buckets) = none := by
  unfold ins_chain
  cases hb : bucket_at ht (ht.hash key % ht.num_buckets) with
  | none => simp [chain_of]
  | some c =>
    have := (inv.place _ c hb).1
    simpa [chain_of] using this

theorem inv_tbl_insert {ht : hashtable} (laws : KeyLaws ht.hash ht.keycmp) (inv : Inv ht)
    {key : Nat} (newvalue : Nat) (hl : lookup ht key = none) :
    Inv (tbl_insert ht key newvalue) := by
  have hi := index_lt inv key
  have hperm := tbl_insert_perm inv key newvalue
  have hone := ins_chain_length_one inv key newvalue
  have hused := used_slots_set ht.buckets (ht.hash key % ht.num_buckets)
    (some (ins_chain ht key newvalue)) hi
  have hule := used_slots_le (ht.buckets.set (ht.hash key % ht.num_buckets)
    (some (ins_chain ht key newvalue)))
  have hlen := hperm.length_eq
  have h1 := inv.len
  have h2 := inv.lt
  have h3 := inv.used
  have h4 := inv.size_eq
  refine ⟨?_, ?_, ?_, ?_, ?_, ?_, ?_⟩
  · simpa [tbl_insert] using inv.len
  · exact inv.pos
  · exact inv.lt
  · intro j c hj
    by_cases hji : j = ht.hash key % ht.num_buckets
    · subst hji
      have hc : c = ins_chain ht key newvalue := by
        have := getD_set_self ht.buckets _ (some (ins_chain ht key newvalue)) hi
        unfold bucket_at tbl_insert at hj
        simp only at hj
        rw [this] at hj
        exact (Option.some.inj hj).symm
      subst hc
      refine ⟨by simp [ins_chain], ?_⟩
      intro e he
      unfold ins_chain at he
      rcases List.mem_append.mp he with he | he
      · cases hb : bucket_at ht (ht.hash key % ht.num_buckets) with
        | none => simp [hb, chain_of] at he
        | some c0 =>
          rw [hb] at he
          exact (inv.place _ c0 hb).2 e he
      · simp at he
        subst he
        rfl
    · have : bucket_at ht j = some c := by
        have := getD_set_other ht.buckets _ j (some (ins_chain ht key newvalue)) hji
        unfold bucket_at tbl_insert at hj
        simp only at hj
        rw [this] at hj
        exact hj
      exact inv.place j c this
  · have hd : DistinctKeys ht.keycmp ({ k := key, v := newvalue } :: entries ht.buckets) := by
      unfold DistinctKeys
      rw [List.pairwise_cons]
      exact ⟨(lookup_none_iff laws inv).mp hl, inv.distinct⟩
    exact distinct_perm laws hperm.symm hd
  · show (if (ins_chain ht key newvalue).length = 1 then (ht.num_used + 1) % UINT_RANGE
      else ht.num_used) = used_slots (ht.buckets.set _ _)
    rw [uint_range_eq] at *
    simp only [List.length_set] at hule
    by_cases hb : bucket_at ht (ht.hash key % ht.num_buckets) = none
    · have hb2 : ht.buckets.getD (ht.hash key % ht.num_buckets) none = none := hb
      rw [if_pos (hone.mpr hb)]
      simp only [hb2, Option.isSome_none, Option.isSome_some] at hused
      simp at hused
      omega
    · have hb2 : (ht.buckets.getD (ht.hash key % ht.num_buckets) none).isSome = true := by
        cases h : ht.buckets.getD (ht.hash key % ht.num_buckets) none with
        | none => exact absurd h hb
        | some c => rfl
      rw [if_neg (fun h => hb (hone.mp h))]
      simp only [hb2, Option.isSome_some] at hused
      simp at hused
      omega
  · show (ht.size + 1) % UINT_RANGE = (entries (tbl_insert ht key newvalue).buckets).length % _
    rw [hlen, uint_range_eq] at *
    simp only [List.length_cons]
    omega

/-! ## The replacement branch keeps the invariant -/

/-- The slot and the shape of the chain in which a lookup succeeds. -/
theorem lookup_shape {ht : hashtable} {key : Nat} {e : kv} (hl : lookup ht key = some e) :
    ∃ c l1 l2, bucket_at ht (ht.hash key % ht.num_buckets) = some c ∧ c = l1 ++ e :: l2 ∧
      chain_remove ht.keycmp key c = l1 ++ l2 ∧
      ∀ v, chain_set ht.keycmp key v c = l1 ++ { k := e.k, v := v } :: l2 := by
  rw [lookup_eq] at hl
  cases hb : bucket_at ht (ht.hash key % ht.num_buckets) with
  | none => simp [hb, chain_of, chain_find] at hl
  | some c =>
    rw [hb] at hl
    obtain ⟨l1, l2, h1, _, h3, h4⟩ := chain_find_split hl
    exact ⟨c, l1, l2, rfl, h1, h3, h4⟩

theorem tbl_replace_perm {ht : hashtable} (inv : Inv ht) {key : Nat} {e : kv}
    (newvalue : Nat) (hl : lookup ht key = some e) :
    ∃ others, (entries ht.buckets).Perm (e :: others) ∧
      (entries (tbl_replace ht key newvalue).buckets).Perm
        ({ k := e.k, v := newvalue } :: others) := by
  obtain ⟨c, l1, l2, hb, hc, _, hset⟩ := lookup_shape hl
  obtain ⟨b1, b2, hs1, _, hs3⟩ := split_at ht.buckets _ (index_lt inv key)
  have hb2 : ht.buckets.getD (ht.hash key % ht.num_buckets) none = some c := hb
  rw [hb2] at hs1
  refine ⟨entries b1 ++ (l1 ++ l2) ++ entries b2, ?_, ?_⟩
  · rw [hs1, entries_append, entries_cons, hc]
    refine List.perm_iff_count.mpr fun a => ?_
    simp only [List.count_append, chain_of, List.count_cons]
    omega
  · unfold tbl_replace
    simp only [hb, Option.getD_some, hs3, hset, entries_append, entries_cons]
    refine List.perm_iff_count.mpr fun a => ?_
    simp only [List.count_append, chain_of, List.count_cons]
    omega

theorem inv_tbl_replace {ht : hashtable} (laws : KeyLaws ht.hash ht.keycmp) (inv : Inv ht)
    {key : Nat} {e : kv} (newvalue : Nat) (hl : lookup ht key = some e) :
    Inv (tbl_replace ht key newvalue) := by
  have hi := index_lt inv key
  obtain ⟨others, hp1, hp2⟩ := tbl_replace_perm inv newvalue hl
  obtain ⟨c, l1, l2, hb, hc, _, hset⟩ := lookup_shape hl
  have hb2 : ht.buckets.getD (ht.hash key % ht.num_buckets) none = some c := hb
  have hbk : (tbl_replace ht key newvalue).buckets =
      ht.buckets.set (ht.hash key % ht.num_buckets)
        (some (l1 ++ { k := e.k, v := newvalue } :: l2)) := by
    unfold tbl_replace
    simp only [hb, Option.getD_some, hset]
  have hused := used_slots_set ht.buckets (ht.hash key % ht.num_buckets)
    (some (l1 ++ { k := e.k, v := newvalue } :: l2)) hi
  refine ⟨?_, inv.pos, inv.lt, ?_, ?_, ?_, ?_⟩
  · rw [hbk, List.length_set]
    exact inv.len
  · intro j c2 hj
    unfold bucket_at at hj
    rw [hbk] at hj
    by_cases hji : j = ht.hash key % ht.num_buckets
    · subst hji
      rw [getD_set_self _ _ _ hi] at hj
      have hc2 := (Option.some.inj hj).symm
      subst hc2
      refine ⟨by simp, ?_⟩
      intro x hx
      have hplace := (inv.place _ c hb).2
      rcases List.mem_append.mp hx with hx | hx
      · exact hplace x (by rw [hc]; exact List.mem_append_left _ hx)
      · rcases List.mem_cons.mp hx with hx | hx
        · subst hx
          exact hplace e (by rw [hc]; simp)
        · exact hplace x (by rw [hc]; simp [hx])
    · rw [getD_set_other _ _ _ _ hji] at hj
      exact inv.place j c2 hj
  · have hd := distinct_perm laws hp1 inv.distinct
    refine distinct_perm laws hp2.symm ?_
    unfold DistinctKeys at hd ⊢
    rw [List.pairwise_cons] at hd ⊢
    exact hd
  · show ht.num_used = used_slots (tbl_replace ht key newvalue).buckets
    rw [hbk, inv.used]
    simp only [hb2, Option.isSome_some] at hused
    omega
  · show ht.size = (entries (tbl_replace ht key newvalue).buckets).length % UINT_RANGE
    rw [inv.size_eq, hp1.length_eq, hp2.length_eq]
    rfl

/-! ## Removal keeps the invariant -/

theorem get_entry_remove_found {ht : hashtable} {key : Nat} {e : kv}
    (hl : lookup ht key = some e) : get_entry ht key true = (some e, tbl_remove ht key) := by
  rw [lookup_eq] at hl
  unfold get_entry tbl_remove
  dsimp only
  cases hb : bucket_at ht (ht.hash key % ht.num_buckets) with
  | none => simp [hb, chain_of, chain_find] at hl
  | some c =>
    rw [hb] at hl
    simp only [chain_of] at hl ⊢
    rw [hl]
    simp only [if_true]
    split_ifs <;> rfl

theorem hashtable_remove_found {ht : hashtable} {key : Nat} {e : kv} (kfree : Bool)
    (hl : lookup ht key = some e) :
    hashtable_remove ht key kfree =
      Except.ok { ht := tbl_remove ht key, data := e.v,
                  freed := if kfree then [e.k] else [] } := by
  have h1 : get_entry ht key false = (some e, ht) :=
    Prod.ext hl (get_entry_false_snd ht key)
  unfold hashtable_remove
  rw [h1]
  simp only
  rw [get_entry_remove_found hl]

theorem hashtable_remove_absent {ht : hashtable} {key : Nat} (kfree : Bool)
    (hl : lookup ht key = none) : hashtable_remove ht key kfree = Except.error ht := by
  have h1 : get_entry ht key false = (none, ht) :=
    Prod.ext hl (get_entry_false_snd ht key)
  unfold hashtable_remove
  rw [h1]

/-- The slot written by the removal holds what is left of the chain. -/
theorem tbl_remove_buckets {ht : hashtable} {key : Nat} {e : kv}
    (hl : lookup ht key = some e) :
    ∃ c l1 l2 x, bucket_at ht (ht.hash key % ht.num_buckets) = some c ∧ c = l1 ++ e :: l2 ∧
      chain_of x = l1 ++ l2 ∧ (x.isSome = true ↔ l1 ++ l2 ≠ []) ∧
      (tbl_remove ht key).buckets = ht.buckets.set (ht.hash key % ht.num_buckets) x ∧
      (tbl_remove ht key).num_used =
        if l1 ++ l2 = [] then (ht.num_used + UINT_RANGE - 1) % UINT_RANGE else ht.num_used := by
  obtain ⟨c, l1, l2, hb, hc, hrem, _⟩ := lookup_shape hl
  by_cases hnil : l1 ++ l2 = []
  · refine ⟨c, l1, l2, none, hb, hc, by simp [chain_of, hnil], by simp [hnil], ?_⟩
    unfold tbl_remove
    simp [hb, chain_of, hrem, linkedlist_size, hnil]
  · refine ⟨c, l1, l2, some (l1 ++ l2), hb, hc, by simp [chain_of], by simp [hnil], ?_⟩
    unfold tbl_remove
    have : ¬ (l1.length + l2.length = 0) := by
      intro h
      apply hnil
      have h1 : l1.length = 0 := by omega
      have h2 : l2.length = 0 := by omega
      rw [List.length_eq_zero.mp h1, List.length_eq_zero.mp h2]
      rfl
    have hnil2 : ¬ (l1 = [] ∧ l2 = []) := fun h => hnil (by rw [h.1, h.2]; rfl)
    simp [hb, chain_of, hrem, linkedlist_size, this, hnil2]

theorem tbl_remove_perm {ht : hashtable} (inv : Inv ht) {key : Nat} {e : kv}
    (hl : lookup ht key = some e) :
    (entries ht.buckets).Perm (e :: entries (tbl_remove ht key).buckets) := by
  obtain ⟨c, l1, l2, x, hb, hc, hx, _, hbk, _⟩ := tbl_remove_buckets hl
  have hp := entries_set_perm ht.buckets (ht.hash key % ht.num_buckets) x (index_lt inv key)
  have hb2 : ht.buckets.getD (ht.hash key % ht.num_buckets) none = some c := hb
  rw [hbk]
  rw [hb2, hx] at hp
  refine List.perm_iff_count.mpr fun a => ?_
  have hcount := List.perm_iff_count.mp hp a
  simp only [List.count_append, chain_of, hc, List.count_cons] at hcount ⊢
  omega

theorem inv_tbl_remove {ht : hashtable} (laws : KeyLaws ht.hash ht.keycmp) (inv : Inv ht)
    {key : Nat} {e : kv} (hl : lookup ht key = some e) : Inv (tbl_remove ht key) := by
  have hi := index_lt inv key
  have hperm := tbl_remove_perm inv hl
  obtain ⟨c, l1, l2, x, hb, hc, hx, hsome, hbk, hnu⟩ := tbl_remove_buckets hl
  have hb2 : ht.buckets.getD (ht.hash key % ht.num_buckets) none = some c := hb
  have hused := used_slots_set ht.buckets (ht.hash key % ht.num_buckets) x hi
  have hule := used_slots_le ht.buckets
  have hlen := hperm.length_eq
  have hnb : (tbl_remove ht key).num_buckets = ht.num_buckets := by
    unfold tbl_remove
    dsimp only
    split_ifs <;> rfl
  have hhash : (tbl_remove ht key).hash = ht.hash := by
    unfold tbl_remove
    dsimp only
    split_ifs <;> rfl
  have hcmp : (tbl_remove ht key).keycmp = ht.keycmp := by
    unfold tbl_remove
    dsimp only
    split_ifs <;> rfl
  have hsize : (tbl_remove ht key).size = (ht.size + UINT_RANGE - 1) % UINT_RANGE := by
    unfold tbl_remove
    dsimp only
    split_ifs <;> rfl
  refine ⟨?_, ?_, ?_, ?_, ?_, ?_, ?_⟩
  · rw [hbk, hnb, List.length_set]
    exact inv.len
  · rw [hnb]
    exact inv.pos
  · rw [hnb]
    exact inv.lt
  · intro j c2 hj
    unfold bucket_at at hj
    rw [hbk] at hj
    rw [hhash, hnb]
    by_cases hji : j = ht.hash key % ht.num_buckets
    · subst hji
      rw [getD_set_self _ _ _ hi] at hj
      subst hj
      simp only [chain_of] at hx
      subst hx
      refine ⟨by simpa using hsome, ?_⟩
      intro y hy
      refine (inv.place _ c hb).2 y ?_
      rw [hc]
      rcases List.mem_append.mp hy with hy | hy
      · exact List.mem_append_left _ hy
      · exact List.mem_append_right _ (List.mem_cons_of_mem _ hy)
    · rw [getD_set_other _ _ _ _ hji] at hj
      exact inv.place j c2 hj
  · rw [hcmp]
    have hd := distinct_perm laws hperm inv.distinct
    unfold DistinctKeys at hd ⊢
    exact (List.pairwise_cons.mp hd).2
  · rw [hnu, hbk]
    have h3 := inv.used
    have h1 := inv.len
    have h2 := inv.lt
    rw [uint_range_eq] at *
    simp only [hb2, Option.isSome_some, if_true] at hused
    by_cases hnil : l1 ++ l2 = []
    · have hx2 : x.isSome = false := by
        cases hxs : x.isSome with
        | false => rfl
        | true => exact absurd hnil (hsome.mp hxs)
      rw [if_pos hnil]
      simp only [hx2] at hused
      simp at hused
      omega
    · have hx2 : x.isSome = true := hsome.mpr hnil
      rw [if_neg hnil]
      simp only [hx2, if_true] at hused
      omega
  · rw [hsize]
    have h4 := inv.size_eq
    rw [uint_range_eq] at *
    simp only [List.length_cons] at hlen
    omega

/-! ## Specification of `hashtable_put` and `resize` -/

theorem rehash_chain_append (put : hashtable → Nat → Nat → Option Nat → Option put_result)
    (t : hashtable) (a b : linkedlist) :
    rehash_chain put t (a ++ b) =
      match rehash_chain put t a with
      | none => none
      | some t1 => rehash_chain put t1 b := by
  induction a generalizing t with
  | nil => rfl
  | cons e r ih =>
    simp only [List.cons_append, rehash_chain]
    cases put t e.k e.v none with
    | none => rfl
    | some x => exact ih x.ht

/-- The two nested loops of `resize` visit the entries in the order of
`entries`. -/
theorem rehash_buckets_flat (put : hashtable → Nat → Nat → Option Nat → Option put_result)
    (t : hashtable) (bs : List (Option linkedlist)) :
    rehash_buckets put t bs = rehash_chain put t (entries bs) := by
  induction bs generalizing t with
  | nil => rfl
  | cons b r ih =>
    cases b with
    | none => simpa [rehash_buckets, entries] using ih t
    | some c =>
      simp only [rehash_buckets, entries, rehash_chain_append]
      cases rehash_chain put t c with
      | none => rfl
      | some t1 => exact ih t1

theorem rehash_chain_post {put : hashtable → Nat → Nat → Option Nat → Option put_result}
    (spec : PutSpec put) (es : linkedlist) (t t2 : hashtable)
    (laws : KeyLaws t.hash t.keycmp) (inv : Inv t)
    (hd : DistinctKeys t.keycmp es)
    (hnew : ∀ e ∈ es, ∀ x ∈ entries t.buckets, t.keycmp e.k x.k = false)
    (hrun : rehash_chain put t es = some t2) :
    Inv t2 ∧ t2.hash = t.hash ∧ t2.keycmp = t.keycmp ∧
      (entries t2.buckets).Perm (es ++ entries t.buckets) ∧
      (LoadOK t → LoadOK t2) ∧ (PowOK t → PowOK t2 ∧ t.num_buckets ≤ t2.num_buckets) := by
  induction es generalizing t with
  | nil =>
    simp only [rehash_chain, Option.some.injEq] at hrun
    subst hrun
    exact ⟨inv, rfl, rfl, List.Perm.refl _, id, fun h => ⟨h, le_refl _⟩⟩
  | cons e rest ih =>
    simp only [rehash_chain] at hrun
    cases hput : put t e.k e.v none with
    | none => simp [hput] at hrun
    | some r =>
      rw [hput] at hrun
      have post := spec t e.k e.v none r laws inv hput
      have hnone : lookup t e.k = none :=
        (lookup_none_iff laws inv).mpr (hnew e (List.mem_cons_self _ _))
      obtain ⟨_, _, hperm⟩ := post.fresh hnone
      have hperm : (entries r.ht.buckets).Perm (e :: entries t.buckets) := hperm
      have laws2 : KeyLaws r.ht.hash r.ht.keycmp := by
        rw [post.hash_eq, post.keycmp_eq]
        exact laws
      have hd2 := List.pairwise_cons.mp hd
      have hres := ih r.ht laws2 post.inv
        (by rw [post.keycmp_eq]; exact hd2.2)
        (by
          intro y hy x hx
          rw [post.keycmp_eq]
          rcases List.mem_cons.mp (hperm.mem_iff.mp hx) with hx | hx
          · subst hx
            exact distinct_symm laws (hd2.1 y hy)
          · exact hnew y (List.mem_cons_of_mem _ hy) x hx)
        hrun
      obtain ⟨h1, h2, h3, h4, h5, h6⟩ := hres
      refine ⟨h1, h2.trans post.hash_eq, h3.trans post.keycmp_eq, ?_,
        fun h => h5 (post.load h), fun h => ?_⟩
      · refine h4.trans ?_
        refine List.perm_iff_count.mpr fun a => ?_
        have := List.perm_iff_count.mp hperm a
        simp only [List.count_append, List.count_cons] at this ⊢
        omega
      · obtain ⟨p1, p2⟩ := post.pow h
        obtain ⟨p3, p4⟩ := h6 p1
        exact ⟨p3, le_trans p2 p4⟩

theorem f32_round_zero : f32_round 0 = 0 := by decide

theorem load_exceeded_zero (nb : Nat) : load_exceeded 0 nb = false := by
  unfold load_exceeded
  rw [f32_round_zero]
  simp

theorem resize_with_post {put : hashtable → Nat → Nat → Option Nat → Option put_result}
    (spec : PutSpec put) (ht : hashtable) (n : Nat) (ht2 : hashtable)
    (laws : KeyLaws ht.hash ht.keycmp) (inv : Inv ht) (hn : n < UINT_RANGE)
    (hrun : resize_with put ht n = some ht2) : ResizePost ht n ht2 := by
  unfold resize_with at hrun
  simp only at hrun
  rw [rehash_buckets_flat, ← inv.len, List.take_length] at hrun
  have hn1 : 0 < (if n = 0 then 1 else n) := by split_ifs <;> omega
  have hn2 : (if n = 0 then 1 else n) < UINT_RANGE := by
    rw [uint_range_eq] at *
    split_ifs <;> omega
  have inv0 : Inv { ht with buckets := alloc_buckets (if n = 0 then 1 else n),
                            num_buckets := (if n = 0 then 1 else n),
                            num_used := 0, size := 0 } := by
    refine ⟨by simp [alloc_buckets], hn1, hn2, ?_, ?_, ?_, ?_⟩
    · intro i c hc
      simp [bucket_at, alloc_buckets, getD_replicate_none] at hc
    · simp [alloc_buckets, entries_replicate_none, DistinctKeys]
    · simp [alloc_buckets, used_slots_replicate_none]
    · simp [alloc_buckets, entries_replicate_none]
  have hres := rehash_chain_post spec (entries ht.buckets)
    { ht with buckets := alloc_buckets (if n = 0 then 1 else n),
              num_buckets := (if n = 0 then 1 else n),
              num_used := 0, size := 0 } ht2 laws inv0 inv.distinct
    (by simp [alloc_buckets, entries_replicate_none]) hrun
  obtain ⟨h1, h2, h3, h4, h5, h6⟩ := hres
  refine ⟨h1, h2, h3, ?_, ?_, ?_⟩
  · simpa [alloc_buckets, entries_replicate_none] using h4
  · apply h5
    intro m hm
    have : m = 0 := by simpa using hm
    subst this
    exact load_exceeded_zero _
  · rintro ⟨j, hj, rfl⟩
    have hpos : 2 ^ j ≠ 0 := by positivity
    simp only [hpos, if_false] at h6
    exact h6 ⟨j, hj, rfl⟩

theorem grow_target_lt (nb : Nat) : grow_target nb < UINT_RANGE := by
  unfold grow_target
  rw [uint_range_eq, max_buckets_eq]
  split_ifs <;> omega

theorem grow_target_pow (j : Nat) (hj : j ≤ 30) :
    grow_target (2 ^ j) = 2 ^ (min (j + 1) 30) := by
  interval_cases j <;> decide

theorem post_replace {ht : hashtable} (laws : KeyLaws ht.hash ht.keycmp) (inv : Inv ht)
    {key : Nat} {e : kv} (newvalue : Nat) (oldvalue : Option Nat)
    (hl : lookup ht key = some e) :
    PutPost ht key newvalue oldvalue
      { ht := tbl_replace ht key newvalue, replaced := true,
        oldvalue := oldvalue.map (fun _ => e.v) } := by
  refine ⟨inv_tbl_replace laws inv newvalue hl, rfl, rfl, ?_, ?_, id, fun h => ⟨h, le_refl _⟩⟩
  · intro e2 h2
    rw [hl] at h2
    cases h2
    exact ⟨rfl, rfl, rfl, rfl, rfl, tbl_replace_perm inv newvalue hl⟩
  · intro h
    rw [hl] at h
    cases h

theorem post_insert {ht : hashtable} (laws : KeyLaws ht.hash ht.keycmp) (inv : Inv ht)
    {key : Nat} (newvalue : Nat) (oldvalue : Option Nat)
    (hl : lookup ht key = none) (hg : ¬ must_grow ht key newvalue) :
    PutPost ht key newvalue oldvalue
      { ht := tbl_insert ht key newvalue, replaced := false, oldvalue := oldvalue } := by
  refine ⟨inv_tbl_insert laws inv newvalue hl, rfl, rfl, ?_, ?_, ?_, fun h => ⟨h, le_refl _⟩⟩
  · intro e h
    rw [hl] at h
    cases h
  · intro _
    exact ⟨rfl, rfl, tbl_insert_perm inv key newvalue⟩
  · intro hload m hm
    show load_exceeded m ht.num_buckets = false
    have hm2 : m ≤ (if (ins_chain ht key newvalue).length = 1
        then (ht.num_used + 1) % UINT_RANGE else ht.num_used) := hm
    unfold must_grow at hg
    by_cases h1 : (ins_chain ht key newvalue).length = 1
    · rw [if_pos h1] at hm2
      by_cases hmu : m ≤ ht.num_used
      · exact hload m hmu
      · have hle : (ht.num_used + 1) % UINT_RANGE ≤ ht.num_used + 1 := Nat.mod_le _ _
        have hme : m = (ht.num_used + 1) % UINT_RANGE := by omega
        rw [hme]
        cases hx : load_exceeded ((ht.num_used + 1) % UINT_RANGE) ht.num_buckets with
        | false => rfl
        | true => exact absurd ⟨h1, hx⟩ hg
    · rw [if_neg h1] at hm2
      exact hload m hm2

theorem post_grow {ht : hashtable} (inv : Inv ht)
    {key : Nat} (newvalue : Nat) (oldvalue : Option Nat) {ht3 : hashtable}
    (hl : lookup ht key = none)
    (hres : ResizePost (tbl_insert ht key newvalue) (grow_target ht.num_buckets) ht3) :
    PutPost ht key newvalue oldvalue
      { ht := ht3, replaced := false, oldvalue := oldvalue } := by
  refine ⟨hres.inv, hres.hash_eq, hres.keycmp_eq, ?_, ?_, fun _ => hres.load, ?_⟩
  · intro e h
    rw [hl] at h
    cases h
  · intro _
    exact ⟨rfl, rfl, hres.perm.trans (tbl_insert_perm inv key newvalue)⟩
  · rintro ⟨j, hj, hnb⟩
    have hgt := grow_target_pow j hj
    rw [← hnb] at hgt
    obtain ⟨h1, h2⟩ := hres.pow ⟨min (j + 1) 30, by omega, hgt⟩
    refine ⟨h1, le_trans ?_ h2⟩
    rw [hgt, hnb]
    exact Nat.pow_le_pow_right (by norm_num) (by omega)

/-- Every returning call of `hashtable_put`, at any fuel, meets the
specification. -/
theorem put_post (fuel : Nat) : PutSpec (hashtable_put fuel) := by
  induction fuel with
  | zero =>
    intro ht key newvalue oldvalue r laws inv hrun
    cases hl : lookup ht key with
    | some e =>
      rw [put_eq_found hl] at hrun
      cases hrun
      exact post_replace laws inv newvalue oldvalue hl
    | none =>
      by_cases hg : must_grow ht key newvalue
      · rw [put_eq_grow_zero hl hg] at hrun
        cases hrun
      · rw [put_eq_plain hl hg] at hrun
        cases hrun
        exact post_insert laws inv newvalue oldvalue hl hg
  | succ fuel ih =>
    intro ht key newvalue oldvalue r laws inv hrun
    cases hl : lookup ht key with
    | some e =>
      rw [put_eq_found hl] at hrun
      cases hrun
      exact post_replace laws inv newvalue oldvalue hl
    | none =>
      by_cases hg : must_grow ht key newvalue
      · rw [put_eq_grow_succ hl hg] at hrun
        cases hrs : resize fuel (tbl_insert ht key newvalue) (grow_target ht.num_buckets) with
        | none => simp [hrs] at hrun
        | some ht3 =>
          rw [hrs] at hrun
          cases hrun
          have hres := resize_with_post ih (tbl_insert ht key newvalue)
            (grow_target ht.num_buckets) ht3 laws (inv_tbl_insert laws inv newvalue hl)
            (grow_target_lt _) hrs
          exact post_grow inv newvalue oldvalue hl hres
      · rw [put_eq_plain hl hg] at hrun
        cases hrun
        exact post_insert laws inv newvalue oldvalue hl hg

theorem resize_post (fuel : Nat) (ht : hashtable) (n : Nat) (ht2 : hashtable)
    (laws : KeyLaws ht.hash ht.keycmp) (inv : Inv ht) (hn : n < UINT_RANGE)
    (hrun : resize fuel ht n = some ht2) : ResizePost ht n ht2 :=
  resize_with_post (put_post fuel) ht n ht2 laws inv hn hrun

/-! ## Reachable tables -/

theorem Good.laws {hash : Nat → Nat} {keycmp : Nat → Nat → Bool} {ht : hashtable}
    (g : Good hash keycmp ht) (laws : KeyLaws hash keycmp) : KeyLaws ht.hash ht.keycmp := by
  rw [g.hash_eq, g.keycmp_eq]
  exact laws

theorem inv_alloc (hash : Nat → Nat) (keycmp : Nat → Nat → Bool) :
    Inv (hashtable_alloc hash keycmp) := by
  refine ⟨by simp [hashtable_alloc, alloc_buckets],
    by simp [hashtable_alloc, INITIAL_BUCKETS],
    by simp [hashtable_alloc, INITIAL_BUCKETS, UINT_RANGE], ?_, ?_, ?_, ?_⟩
  · intro i c hc
    simp [bucket_at, hashtable_alloc, alloc_buckets, getD_replicate_none] at hc
  · simp [hashtable_alloc, alloc_buckets, entries_replicate_none, DistinctKeys]
  · simp [hashtable_alloc, alloc_buckets, used_slots_replicate_none]
  · simp [hashtable_alloc, alloc_buckets, entries_replicate_none]

theorem good_alloc (hash : Nat → Nat) (keycmp : Nat → Nat → Bool) :
    Good hash keycmp (hashtable_alloc hash keycmp) := by
  refine ⟨inv_alloc hash keycmp, rfl, rfl, ?_,
    ⟨6, by norm_num, by simp [hashtable_alloc, INITIAL_BUCKETS]⟩, le_refl _⟩
  intro m hm
  have : m = 0 := by simpa [hashtable_alloc] using hm
  subst this
  exact load_exceeded_zero _

theorem tbl_remove_fields {ht : hashtable} (inv : Inv ht) {key : Nat} {e : kv}
    (hl : lookup ht key = some e) :
    (tbl_remove ht key).hash = ht.hash ∧ (tbl_remove ht key).keycmp = ht.keycmp ∧
      (tbl_remove ht key).num_buckets = ht.num_buckets ∧
      (tbl_remove ht key).num_used ≤ ht.num_used ∧
      (tbl_remove ht key).size = (ht.size + UINT_RANGE - 1) % UINT_RANGE := by
  obtain ⟨c, l1, l2, x, hb, hc, hx, hsome, hbk, hnu⟩ := tbl_remove_buckets hl
  have hb2 : ht.buckets.getD (ht.hash key % ht.num_buckets) none = some c := hb
  have hused := used_slots_set ht.buckets (ht.hash key % ht.num_buckets) x (index_lt inv key)
  have h3 := inv.used
  refine ⟨?_, ?_, ?_, ?_, ?_⟩
  · unfold tbl_remove
    dsimp only
    split_ifs <;> rfl
  · unfold tbl_remove
    dsimp only
    split_ifs <;> rfl
  · unfold tbl_remove
    dsimp only
    split_ifs <;> rfl
  · rw [hnu]
    rw [uint_range_eq]
    simp only [hb2, Option.isSome_some, if_true] at hused
    split_ifs with hnil
    · have hx2 : x.isSome = false := by
        cases hxs : x.isSome with
        | false => rfl
        | true => exact absurd hnil (hsome.mp hxs)
      simp only [hx2] at hused
      simp at hused
      omega
    · exact le_refl _
  · unfold tbl_remove
    dsimp only
    split_ifs <;> rfl

theorem good_remove {hash : Nat → Nat} {keycmp : Nat → Nat → Bool} {ht : hashtable}
    (laws : KeyLaws hash keycmp) (g : Good hash keycmp ht) {key : Nat} {e : kv}
    (hl : lookup ht key = some e) : Good hash keycmp (tbl_remove ht key) := by
  obtain ⟨h1, h2, h3, h4, _⟩ := tbl_remove_fields g.inv hl
  refine ⟨inv_tbl_remove (g.laws laws) g.inv hl, h1.trans g.hash_eq, h2.trans g.keycmp_eq,
    ?_, ?_, ?_⟩
  · intro m hm
    rw [h3]
    exact g.load m (le_trans hm h4)
  · obtain ⟨j, hj, hnb⟩ := g.pow
    exact ⟨j, hj, h3.trans hnb⟩
  · rw [h3]
    exact g.nb_ge

theorem good_put {hash : Nat → Nat} {keycmp : Nat → Nat → Bool} {ht : hashtable}
    (laws : KeyLaws hash keycmp) (g : Good hash keycmp ht) {fuel key newvalue : Nat}
    {oldvalue : Option Nat} {r : put_result}
    (hrun : hashtable_put fuel ht key newvalue oldvalue = some r) : Good hash keycmp r.ht := by
  have post := put_post fuel ht key newvalue oldvalue r (g.laws laws) g.inv hrun
  exact ⟨post.inv, post.hash_eq.trans g.hash_eq, post.keycmp_eq.trans g.keycmp_eq,
    post.load g.load, (post.pow g.pow).1, le_trans g.nb_ge (post.pow g.pow).2⟩

/-- The result of a returning `hashtable_remove`. -/
theorem remove_ok_iff {ht : hashtable} {key : Nat} {kfree : Bool} {r : remove_result}
    (hrun : hashtable_remove ht key kfree = Except.ok r) :
    ∃ e, lookup ht key = some e ∧
      r = { ht := tbl_remove ht key, data := e.v, freed := if kfree then [e.k] else [] } := by
  cases hl : lookup ht key with
  | none =>
    rw [hashtable_remove_absent kfree hl] at hrun
    cases hrun
  | some e =>
    rw [hashtable_remove_found kfree hl] at hrun
    cases hrun
    exact ⟨e, rfl, rfl⟩

theorem reach_good {hash : Nat → Nat} {keycmp : Nat → Nat → Bool} (laws : KeyLaws hash keycmp)
    {ht : hashtable} (hr : Reachable hash keycmp ht) : Good hash keycmp ht := by
  induction hr with
  | alloc => exact good_alloc hash keycmp
  | put _ hrun ih => exact good_put laws ih hrun
  | remove _ hrun ih =>
    obtain ⟨e, hl, rfl⟩ := remove_ok_iff hrun
    exact good_remove laws ih hl

/-! ## Facts on the binary32 rounding -/

theorem f32_shift_le (fuel : Nat) : ∀ n k, n < 2 ^ (24 + k) → f32_shift fuel n ≤ k := by
  induction fuel with
  | zero => intro n k _; simp [f32_shift]
  | succ fuel ih =>
    intro n k hn
    unfold f32_shift
    split_ifs with h
    · exact Nat.zero_le _
    · cases k with
      | zero => exact absurd hn h
      | succ k =>
        have : n / 2 < 2 ^ (24 + k) := by
          rw [Nat.div_lt_iff_lt_mul (by norm_num)]
          calc n < 2 ^ (24 + (k + 1)) := hn
            _ = 2 ^ (24 + k) * 2 := by rw [← Nat.add_assoc, Nat.pow_succ]
        have := ih (n / 2) k this
        omega

/-- Rounding never passes a multiple of the rounding unit that lies above
the argument. -/
theorem round_at_le (e n b : Nat) (h : n ≤ b * 2 ^ e) : round_at e n ≤ b * 2 ^ e := by
  have hpos : 0 < 2 ^ e := by positivity
  have hq : n / 2 ^ e ≤ b := by
    calc n / 2 ^ e ≤ b * 2 ^ e / 2 ^ e := Nat.div_le_div_right h
      _ = b := Nat.mul_div_cancel _ hpos
  have hdm := Nat.div_add_mod n (2 ^ e)
  unfold round_at
  simp only
  by_cases hlt : n / 2 ^ e < b
  · have h1 : (n / 2 ^ e + 1) * 2 ^ e ≤ b * 2 ^ e := Nat.mul_le_mul_right _ hlt
    have h2 : n / 2 ^ e * 2 ^ e ≤ b * 2 ^ e := Nat.mul_le_mul_right _ hq
    split_ifs <;> assumption
  · have hqb : n / 2 ^ e = b := by omega
    have hr : n % 2 ^ e = 0 := by
      rw [hqb, Nat.mul_comm] at hdm
      omega
    rw [hr, hqb]
    have : ¬ (2 ^ e < 2 * 0 ∨ 2 * 0 = 2 ^ e ∧ b % 2 = 1) := by
      rintro (h1 | ⟨h1, _⟩) <;> omega
    rw [if_neg this]

theorem round_at_zero (n : Nat) : round_at 0 n = n := by
  unfold round_at
  simp [Nat.mod_one]

/-- Integers below `2 ^ 24` are converted to `float` exactly. -/
theorem f32_round_small (n : Nat) (h : n < 2 ^ 24) : f32_round n = n := by
  unfold f32_round
  have : f32_shift 64 n = 0 := by
    unfold f32_shift
    rw [if_pos h]
  rw [this, round_at_zero]

/-- Below the growth threshold of the largest table the conversion to `float`
stays below it. -/
theorem f32_round_le_cap (n : Nat) (h : n ≤ 3 * 2 ^ 28) : f32_round n ≤ 3 * 2 ^ 28 := by
  unfold f32_round
  have he : f32_shift 64 n ≤ 6 := f32_shift_le 64 n 6 (by norm_num at h ⊢; omega)
  have hb : 3 * 2 ^ 28 = (3 * 2 ^ (28 - f32_shift 64 n)) * 2 ^ f32_shift 64 n := by
    rw [Nat.mul_assoc, ← Nat.pow_add]
    congr 2
    omega
  rw [hb]
  apply round_at_le
  rw [← hb]
  exact h

theorem threshold_pow (j : Nat) (hj : j ≤ 30) :
    f32_round (3 * f32_round (2 ^ j)) = 3 * 2 ^ j := by
  interval_cases j <;> decide

/-- At the largest bucket count the growth test fails up to `3 * 2 ^ 28`
used buckets. -/
theorem load_ok_cap (m : Nat) (h : m ≤ 3 * 2 ^ 28) : load_exceeded m MAX_BUCKETS = false := by
  unfold load_exceeded MAX_BUCKETS
  rw [threshold_pow 30 (le_refl _)]
  have := f32_round_le_cap m h
  simp only [decide_eq_false_iff_not, not_lt]
  omega

/-! ## Termination below the cap -/

theorem used_le_entries (bs : List (Option linkedlist))
    (h : ∀ i c, bs.getD i none = some c → c ≠ []) : used_slots bs ≤ (entries bs).length := by
  induction bs with
  | nil => simp [used_slots, entries]
  | cons b r ih =>
    have hr := ih (fun i c hc => h (i + 1) c (by simpa using hc))
    cases b with
    | none => simpa [used_slots, entries] using hr
    | some c =>
      have hc : 0 < c.length := List.length_pos.mpr (h 0 c (by simp))
      simp only [used_slots, entries, List.length_append]
      omega

theorem num_used_le_entries {ht : hashtable} (inv : Inv ht) :
    ht.num_used ≤ (entries ht.buckets).length := by
  rw [inv.used]
  exact used_le_entries _ (fun i c hc => (inv.place i c hc).1)

theorem within_zero {ht : hashtable} (h : Within 0 ht) : ht.num_buckets = MAX_BUCKETS := by
  obtain ⟨⟨j, hj, hnb⟩, hle⟩ := h
  have : ht.num_buckets ≤ MAX_BUCKETS := by
    rw [hnb]
    exact Nat.pow_le_pow_right (by norm_num) hj
  omega

/-- No rehash is asked for at the largest bucket count while fewer than
`CAP_ENTRIES` entries are stored. -/
theorem no_grow_at_cap {ht : hashtable} (inv : Inv ht) (key newvalue : Nat)
    (hnb : ht.num_buckets = MAX_BUCKETS)
    (hlen : (entries ht.buckets).length < CAP_ENTRIES) : ¬ must_grow ht key newvalue := by
  rintro ⟨_, h2⟩
  have hnu := num_used_le_entries inv
  have hle : (ht.num_used + 1) % UINT_RANGE ≤ 3 * 2 ^ 28 := by
    have := Nat.mod_le (ht.num_used + 1) UINT_RANGE
    unfold CAP_ENTRIES at hlen
    omega
  rw [hnb, load_ok_cap _ hle] at h2
  cases h2

theorem within_grow {d : Nat} {ht : hashtable} (h : Within (d + 1) ht)
    (hne : ht.num_buckets ≠ MAX_BUCKETS) :
    (∃ j, j ≤ 30 ∧ grow_target ht.num_buckets = 2 ^ j) ∧
      MAX_BUCKETS ≤ grow_target ht.num_buckets * 2 ^ d := by
  obtain ⟨⟨j, hj, hnb⟩, hle⟩ := h
  have hj2 : j < 30 := by
    rcases Nat.lt_or_ge j 30 with h | h
    · exact h
    · have : j = 30 := by omega
      subst this
      exact absurd hnb hne
  have hgt := grow_target_pow j hj
  rw [← hnb] at hgt
  refine ⟨⟨min (j + 1) 30, by omega, hgt⟩, ?_⟩
  rw [hgt]
  have : min (j + 1) 30 = j + 1 := by omega
  rw [this, Nat.pow_succ, ← hnb]
  calc MAX_BUCKETS ≤ ht.num_buckets * 2 ^ (d + 1) := hle
    _ = ht.num_buckets * 2 * 2 ^ d := by rw [Nat.pow_succ]; ring

theorem rehash_chain_total {put : hashtable → Nat → Nat → Option Nat → Option put_result}
    (spec : PutSpec put) (d : Nat)
    (total : ∀ ht key newvalue oldvalue, KeyLaws ht.hash ht.keycmp → Inv ht → Within d ht →
      (entries ht.buckets).length < CAP_ENTRIES → ∃ r, put ht key newvalue oldvalue = some r)
    (es : linkedlist) (t : hashtable)
    (laws : KeyLaws t.hash t.keycmp) (inv : Inv t) (hw : Within d t)
    (hlen : (entries t.buckets).length + es.length ≤ CAP_ENTRIES)
    (hd : DistinctKeys t.keycmp es)
    (hnew : ∀ e ∈ es, ∀ x ∈ entries t.buckets, t.keycmp e.k x.k = false) :
    ∃ t2, rehash_chain put t es = some t2 := by
  induction es generalizing t with
  | nil => exact ⟨t, rfl⟩
  | cons e rest ih =>
    simp only [List.length_cons] at hlen
    obtain ⟨r, hput⟩ := total t e.k e.v none laws inv hw (by omega)
    have post := spec t e.k e.v none r laws inv hput
    have hnone : lookup t e.k = none :=
      (lookup_none_iff laws inv).mpr (hnew e (List.mem_cons_self _ _))
    obtain ⟨_, _, hperm⟩ := post.fresh hnone
    have hperm : (entries r.ht.buckets).Perm (e :: entries t.buckets) := hperm
    have laws2 : KeyLaws r.ht.hash r.ht.keycmp := by
      rw [post.hash_eq, post.keycmp_eq]
      exact laws
    have hd2 := List.pairwise_cons.mp hd
    obtain ⟨p1, p2⟩ := post.pow hw.1
    have hw2 : Within d r.ht :=
      ⟨p1, le_trans hw.2 (Nat.mul_le_mul_right _ p2)⟩
    have hl2 := hperm.length_eq
    simp only [List.length_cons] at hl2
    obtain ⟨t2, ht2⟩ := ih r.ht laws2 post.inv hw2 (by omega)
      (by rw [post.keycmp_eq]; exact hd2.2)
      (by
        intro y hy x hx
        rw [post.keycmp_eq]
        rcases List.mem_cons.mp (hperm.mem_iff.mp hx) with hx | hx
        · subst hx
          exact distinct_symm laws (hd2.1 y hy)
        · exact hnew y (List.mem_cons_of_mem _ hy) x hx)
    exact ⟨t2, by simp only [rehash_chain, hput, ht2]⟩

/-- With fuel `d`, `hashtable_put` returns on every table that is at most
`d` doublings away from `MAX_BUCKETS` and holds fewer than `CAP_ENTRIES`
entries. -/
theorem put_total (d : Nat) : ∀ ht key newvalue oldvalue, KeyLaws ht.hash ht.keycmp →
    Inv ht → Within d ht → (entries ht.buckets).length < CAP_ENTRIES →
    ∃ r, hashtable_put d ht key newvalue oldvalue = some r := by
  induction d with
  | zero =>
    intro ht key newvalue oldvalue laws inv hw hlen
    cases hl : lookup ht key with
    | some e => exact ⟨_, put_eq_found hl⟩
    | none =>
      exact ⟨_, put_eq_plain hl (no_grow_at_cap inv key newvalue (within_zero hw) hlen)⟩
  | succ d ih =>
    intro ht key newvalue oldvalue laws inv hw hlen
    cases hl : lookup ht key with
    | some e => exact ⟨_, put_eq_found hl⟩
    | none =>
      by_cases hg : must_grow ht key newvalue
      · have hne : ht.num_buckets ≠ MAX_BUCKETS :=
          fun h => no_grow_at_cap inv key newvalue h hlen hg
        obtain ⟨hpow, hmax⟩ := within_grow hw hne
        have inv1 := inv_tbl_insert laws inv newvalue hl
        have hperm := (tbl_insert_perm inv key newvalue).length_eq
        simp only [List.length_cons] at hperm
        have hpos : grow_target ht.num_buckets ≠ 0 := by
          obtain ⟨j, _, hj⟩ := hpow
          rw [hj]
          positivity
        have hrs : ∃ ht3, resize d (tbl_insert ht key newvalue)
            (grow_target ht.num_buckets) = some ht3 := by
          unfold resize resize_with
          simp only [hpos, if_false]
          rw [rehash_buckets_flat, ← inv1.len, List.take_length]
          refine rehash_chain_total (put_post d) d ih _ _ laws ?_ ⟨hpow, hmax⟩ ?_
            inv1.distinct ?_
          · refine ⟨by simp [alloc_buckets], Nat.pos_of_ne_zero hpos, grow_target_lt _,
              ?_, ?_, ?_, ?_⟩
            · intro i c hc
              simp [bucket_at, alloc_buckets, getD_replicate_none] at hc
            · simp [alloc_buckets, entries_replicate_none, DistinctKeys]
            · simp [alloc_buckets, used_slots_replicate_none]
            · simp [alloc_buckets, entries_replicate_none]
          · simp only [alloc_buckets, entries_replicate_none, List.length_nil]
            omega
          · simp [alloc_buckets, entries_replicate_none]
        obtain ⟨ht3, h3⟩ := hrs
        exact ⟨_, by rw [put_eq_grow_succ hl hg, h3]⟩
      · exact ⟨_, put_eq_plain hl hg⟩

/-- On a reachable table holding fewer than `CAP_ENTRIES` entries
`hashtable_put` returns with fuel 24. -/
theorem put_total_reach {hash : Nat → Nat} {keycmp : Nat → Nat → Bool}
    (laws : KeyLaws hash keycmp) {ht : hashtable} (g : Good hash keycmp ht)
    (hlen : (entries ht.buckets).length < CAP_ENTRIES) (key newvalue : Nat)
    (oldvalue : Option Nat) : ∃ r, hashtable_put 24 ht key newvalue oldvalue = some r := by
  refine put_total 24 ht key newvalue oldvalue (g.laws laws) g.inv ⟨g.pow, ?_⟩ hlen
  have := g.nb_ge
  unfold INITIAL_BUCKETS at this
  rw [max_buckets_eq]
  omega

/-! ## Lookups after an operation -/

/-- Keys that differ from `key` differ from every key equal to `key`. -/
theorem keycmp_false_of_eq {hash : Nat → Nat} {keycmp : Nat → Nat → Bool}
    (laws : KeyLaws hash keycmp) {a b c : Nat} (hab : keycmp a b = false)
    (hbc : keycmp b c = true) : keycmp a c = false := by
  cases h : keycmp a c with
  | false => rfl
  | true =>
    rw [laws.trans a c b h (laws.symm _ _ hbc)] at hab
    cases hab

/-- After a returning `hashtable_put` the key is found, with the new value;
the entry carries the key stored before if there was one, else the key
passed. -/
theorem lookup_after_put {ht : hashtable} (laws : KeyLaws ht.hash ht.keycmp) (inv : Inv ht)
    {key newvalue : Nat} {oldvalue : Option Nat} {r : put_result}
    (post : PutPost ht key newvalue oldvalue r) :
    lookup r.ht key = some
      { k := (match lookup ht key with
              | some e => e.k
              | none => key)
        v := newvalue } := by
  have laws2 : KeyLaws r.ht.hash r.ht.keycmp := by
    rw [post.hash_eq, post.keycmp_eq]
    exact laws
  rw [lookup_some_iff laws2 post.inv, post.keycmp_eq]
  cases hl : lookup ht key with
  | some e =>
    obtain ⟨_, _, _, _, _, others, _, hp2⟩ := post.found e hl
    exact ⟨hp2.mem_iff.mpr (List.mem_cons_self _ _), ((lookup_some_iff laws inv).mp hl).2⟩
  | none =>
    obtain ⟨_, _, hp⟩ := post.fresh hl
    exact ⟨hp.mem_iff.mpr (List.mem_cons_self _ _), laws.refl key⟩

/-- A returning `hashtable_put` leaves the lookups of all other keys as they
were. -/
theorem lookup_frame_put {ht : hashtable} (laws : KeyLaws ht.hash ht.keycmp) (inv : Inv ht)
    {key newvalue : Nat} {oldvalue : Option Nat} {r : put_result}
    (post : PutPost ht key newvalue oldvalue r) {key2 : Nat}
    (hne : ht.keycmp key2 key = false) : lookup r.ht key2 = lookup ht key2 := by
  have laws2 : KeyLaws r.ht.hash r.ht.keycmp := by
    rw [post.hash_eq, post.keycmp_eq]
    exact laws
  have hmem : ∀ x, ht.keycmp key2 x.k = true →
      (x ∈ entries r.ht.buckets ↔ x ∈ entries ht.buckets) := by
    intro x hx
    cases hl : lookup ht key with
    | some e =>
      obtain ⟨_, _, _, _, _, others, hp1, hp2⟩ := post.found e hl
      have hke := ((lookup_some_iff laws inv).mp hl).2
      have h2e : ht.keycmp key2 e.k = false := keycmp_false_of_eq laws hne hke
      rw [hp1.mem_iff, hp2.mem_iff, List.mem_cons, List.mem_cons]
      constructor
      · rintro (h | h)
        · subst h
          rw [h2e] at hx
          cases hx
        · exact Or.inr h
      · rintro (h | h)
        · subst h
          rw [h2e] at hx
          cases hx
        · exact Or.inr h
    | none =>
      obtain ⟨_, _, hp⟩ := post.fresh hl
      rw [hp.mem_iff, List.mem_cons]
      constructor
      · rintro (h | h)
        · subst h
          rw [hne] at hx
          cases hx
        · exact h
      · exact fun h => Or.inr h
  cases hl2 : lookup ht key2 with
  | none =>
    rw [lookup_none_iff laws2 post.inv, post.keycmp_eq]
    intro x hx
    cases hk : ht.keycmp key2 x.k with
    | false => rfl
    | true =>
      have := (lookup_none_iff laws inv).mp hl2 x ((hmem x hk).mp hx)
      rw [hk] at this
      cases this
  | some e2 =>
    obtain ⟨h1, h2⟩ := (lookup_some_iff laws inv).mp hl2
    rw [lookup_some_iff laws2 post.inv, post.keycmp_eq]
    exact ⟨(hmem e2 h2).mpr h1, h2⟩

/-- After the removal the key is absent. -/
theorem lookup_after_remove {ht : hashtable} (laws : KeyLaws ht.hash ht.keycmp) (inv : Inv ht)
    {key : Nat} {e : kv} (hl : lookup ht key = some e) :
    lookup (tbl_remove ht key) key = none := by
  obtain ⟨h1, h2, _⟩ := tbl_remove_fields inv hl
  have laws2 : KeyLaws (tbl_remove ht key).hash (tbl_remove ht key).keycmp := by
    rw [h1, h2]
    exact laws
  have hke := ((lookup_some_iff laws inv).mp hl).2
  have hd := List.pairwise_cons.mp (distinct_perm laws (tbl_remove_perm inv hl) inv.distinct)
  rw [lookup_none_iff laws2 (inv_tbl_remove laws inv hl), h2]
  intro x hx
  cases hk : ht.keycmp key x.k with
  | false => rfl
  | true =>
    have := hd.1 x hx
    rw [laws.trans _ _ _ (laws.symm _ _ hke) hk] at this
    cases this

/-- The removal leaves the lookups of all other keys as they were. -/
theorem lookup_frame_remove {ht : hashtable} (laws : KeyLaws ht.hash ht.keycmp) (inv : Inv ht)
    {key : Nat} {e : kv} (hl : lookup ht key = some e) {key2 : Nat}
    (hne : ht.keycmp key2 key = false) : lookup (tbl_remove ht key) key2 = lookup ht key2 := by
  obtain ⟨h1, h2, _⟩ := tbl_remove_fields inv hl
  have laws2 : KeyLaws (tbl_remove ht key).hash (tbl_remove ht key).keycmp := by
    rw [h1, h2]
    exact laws
  have inv2 := inv_tbl_remove laws inv hl
  have hp := tbl_remove_perm inv hl
  have hke := ((lookup_some_iff laws inv).mp hl).2
  have h2e : ht.keycmp key2 e.k = false := keycmp_false_of_eq laws hne hke
  cases hl2 : lookup ht key2 with
  | none =>
    rw [lookup_none_iff laws2 inv2, h2]
    intro x hx
    exact (lookup_none_iff laws inv).mp hl2 x (hp.mem_iff.mpr (List.mem_cons_of_mem _ hx))
  | some e2 =>
    obtain ⟨m1, m2⟩ := (lookup_some_iff laws inv).mp hl2
    rw [lookup_some_iff laws2 inv2, h2]
    refine ⟨?_, m2⟩
    rcases List.mem_cons.mp (hp.mem_iff.mp m1) with h | h
    · subst h
      rw [h2e] at m2
      cases m2
    · exact h

/-! ## Sequences of calls -/

theorem chain_total_eq (bs : List (Option linkedlist)) :
    chain_total bs = (entries bs).length := by
  induction bs with
  | nil => rfl
  | cons b r ih => cases b <;> simp [chain_total, entries, linkedlist_size, ih]

theorem lookup_none_iff_keys {ht : hashtable} (laws : KeyLaws ht.hash ht.keycmp) (inv : Inv ht)
    {key : Nat} : lookup ht key = none ↔ ∀ x ∈ stored_keys ht, ht.keycmp key x = false := by
  rw [lookup_none_iff laws inv]
  unfold stored_keys
  simp only [List.mem_map, forall_exists_index, and_imp, forall_apply_eq_imp_iff₂]

/-- One call keeps the stored keys in step with the bookkeeping of
`live_keys`. -/
theorem step_put_keys {hash : Nat → Nat} {keycmp : Nat → Nat → Bool}
    (laws : KeyLaws hash keycmp) {ht : hashtable} (g : Good hash keycmp ht)
    {fuel key newvalue : Nat} {oldvalue : Option Nat} {r : put_result} {live : List Nat}
    (hp : (stored_keys ht).Perm live)
    (hrun : hashtable_put fuel ht key newvalue oldvalue = some r) :
    (stored_keys r.ht).Perm (live_step keycmp live (call.put key newvalue oldvalue)) := by
  have post := put_post fuel ht key newvalue oldvalue r (g.laws laws) g.inv hrun
  unfold live_step
  cases hl : lookup ht key with
  | some e =>
    obtain ⟨_, _, _, _, _, others, hp1, hp2⟩ := post.found e hl
    have hke := ((lookup_some_iff (g.laws laws) g.inv).mp hl).2
    rw [g.keycmp_eq] at hke
    have hmem : e.k ∈ live := hp.mem_iff.mp (by
      unfold stored_keys
      exact List.mem_map.mpr ⟨e, ((lookup_some_iff (g.laws laws) g.inv).mp hl).1, rfl⟩)
    have hany : live.any (fun x => keycmp key x) = true :=
      List.any_eq_true.mpr ⟨e.k, hmem, hke⟩
    simp only [hany, if_true]
    refine List.Perm.trans ?_ hp
    unfold stored_keys
    exact (hp2.map kv.k).trans (hp1.map kv.k).symm
  | none =>
    obtain ⟨_, _, hp1⟩ := post.fresh hl
    have hno := (lookup_none_iff_keys (g.laws laws) g.inv).mp hl
    rw [g.keycmp_eq] at hno
    have hany : live.any (fun x => keycmp key x) = false := by
      rw [List.any_eq_false]
      intro x hx
      rw [hno x (hp.mem_iff.mpr hx)]
      simp
    simp only [hany]
    unfold stored_keys at hp ⊢
    exact (hp1.map kv.k).trans (List.Perm.cons _ hp)

theorem step_remove_keys {hash : Nat → Nat} {keycmp : Nat → Nat → Bool}
    (laws : KeyLaws hash keycmp) {ht : hashtable} (g : Good hash keycmp ht)
    {key : Nat} {e : kv} (kfree : Bool) {live : List Nat}
    (hp : (stored_keys ht).Perm live) (hl : lookup ht key = some e) :
    (stored_keys (tbl_remove ht key)).Perm
      (live_step keycmp live (call.remove key kfree)) := by
  have lw := g.laws laws
  have hperm := (tbl_remove_perm g.inv hl).map kv.k
  have hke := ((lookup_some_iff lw g.inv).mp hl).2
  have hgone := lookup_after_remove lw g.inv hl
  obtain ⟨h1, h2, _⟩ := tbl_remove_fields g.inv hl
  have lw2 : KeyLaws (tbl_remove ht key).hash (tbl_remove ht key).keycmp := by
    rw [h1, h2]
    exact lw
  have hno := (lookup_none_iff_keys lw2 (inv_tbl_remove lw g.inv hl)).mp hgone
  rw [h2, g.keycmp_eq] at hno
  rw [g.keycmp_eq] at hke
  unfold live_step
  have hfil := (hp.symm.trans hperm).filter (fun x => !keycmp key x)
  refine List.Perm.trans ?_ hfil.symm
  simp only [List.map_cons]
  rw [List.filter_cons_of_neg (by simp [hke])]
  rw [List.filter_eq_self.mpr (by
    intro x hx
    simp [hno x hx])]
  exact List.Perm.refl _

/-- Every returning sequence of calls keeps the table good and its stored
keys in step with `live_keys`. -/
theorem run_calls_keys {hash : Nat → Nat} {keycmp : Nat → Nat → Bool}
    (laws : KeyLaws hash keycmp) (fuel : Nat) (calls : List call) :
    ∀ (ht ht2 : hashtable) (live : List Nat), Good hash keycmp ht →
      (stored_keys ht).Perm live → run_calls fuel ht calls = some ht2 →
      Good hash keycmp ht2 ∧ (stored_keys ht2).Perm (calls.foldl (live_step keycmp) live) := by
  induction calls with
  | nil =>
    intro ht ht2 live g hp hrun
    simp only [run_calls, Option.some.injEq] at hrun
    subst hrun
    exact ⟨g, hp⟩
  | cons c rest ih =>
    intro ht ht2 live g hp hrun
    cases c with
    | put key newvalue oldvalue =>
      simp only [run_calls] at hrun
      cases hput : hashtable_put fuel ht key newvalue oldvalue with
      | none => simp [hput] at hrun
      | some r =>
        rw [hput] at hrun
        exact ih r.ht ht2 _ (good_put laws g hput) (step_put_keys laws g hp hput) hrun
    | remove key kfree =>
      simp only [run_calls] at hrun
      cases hrem : hashtable_remove ht key kfree with
      | error t => simp [hrem] at hrun
      | ok r =>
        rw [hrem] at hrun
        obtain ⟨e, hl, rfl⟩ := remove_ok_iff hrem
        exact ih _ ht2 _ (good_remove laws g hl) (step_remove_keys laws g kfree hp hl) hrun

theorem run_calls_reach {hash : Nat → Nat} {keycmp : Nat → Nat → Bool} (fuel : Nat)
    (calls : List call) : ∀ (ht ht2 : hashtable), Reachable hash keycmp ht →
      run_calls fuel ht calls = some ht2 → Reachable hash keycmp ht2 := by
  induction calls with
  | nil =>
    intro ht ht2 hr hrun
    simp only [run_calls, Option.some.injEq] at hrun
    subst hrun
    exact hr
  | cons c rest ih =>
    intro ht ht2 hr hrun
    cases c with
    | put key newvalue oldvalue =>
      simp only [run_calls] at hrun
      cases hput : hashtable_put fuel ht key newvalue oldvalue with
      | none => simp [hput] at hrun
      | some r =>
        rw [hput] at hrun
        exact ih r.ht ht2 (Reachable.put hr hput) hrun
    | remove key kfree =>
      simp only [run_calls] at hrun
      cases hrem : hashtable_remove ht key kfree with
      | error t => simp [hrem] at hrun
      | ok r =>
        rw [hrem] at hrun
        exact ih r.ht ht2 (Reachable.remove hr hrem) hrun

/-! ## The callbacks of the test program and the crowded table -/

theorem laws_int (hash : Nat → Nat) : KeyLaws hash keycmp_int := by
  refine ⟨?_, ?_, ?_, ?_⟩
  · intro a
    simp [keycmp_int]
  · intro a b h
    simp only [keycmp_int, decide_eq_true_eq] at h ⊢
    exact h.symm
  · intro a b c h1 h2
    simp only [keycmp_int, decide_eq_true_eq] at h1 h2 ⊢
    exact h1.trans h2
  · intro a b h
    simp only [keycmp_int, decide_eq_true_eq] at h
    rw [h]

theorem chain_upto_succ (n : Nat) :
    chain_upto (n + 1) = chain_upto n ++ [{ k := n, v := n }] := by
  unfold chain_upto
  rw [List.range_succ, List.map_append]
  rfl

theorem chain_upto_length (n : Nat) : (chain_upto n).length = n := by
  unfold chain_upto
  rw [List.length_map, List.length_range]

theorem mem_chain_upto {n : Nat} {e : kv} : e ∈ chain_upto n ↔ e.k < n ∧ e.v = e.k := by
  unfold chain_upto
  rw [List.mem_map]
  constructor
  · rintro ⟨i, hi, rfl⟩
    exact ⟨List.mem_range.mp hi, rfl⟩
  · rintro ⟨h1, h2⟩
    refine ⟨e.k, List.mem_range.mpr h1, ?_⟩
    cases e
    simp only at h2
    subst h2
    rfl

theorem crowded_entries (n : Nat) : entries (crowded n).buckets = chain_upto (n + 1) := by
  unfold crowded
  simp only [entries, entries_replicate_none, List.append_nil]

theorem crowded_first : hashtable_put 0 (hashtable_alloc zero_hash keycmp_int) 0 0 none =
    some { ht := crowded 0, replaced := false, oldvalue := none } := by
  rfl

theorem crowded_lookup_new (n : Nat) : lookup (crowded n) (n + 1) = none := by
  rw [lookup_eq]
  have hb : bucket_at (crowded n) ((crowded n).hash (n + 1) % (crowded n).num_buckets) =
      some (chain_upto (n + 1)) := rfl
  rw [hb, chain_of, chain_find_none]
  intro e he
  have := (mem_chain_upto.mp he).1
  show keycmp_int (n + 1) e.k = false
  simp only [keycmp_int, decide_eq_false_iff_not]
  omega

theorem crowded_next (n : Nat) :
    hashtable_put 0 (crowded n) (n + 1) (n + 1) none =
      some { ht := crowded (n + 1), replaced := false, oldvalue := none } := by
  have hb : bucket_at (crowded n) ((crowded n).hash (n + 1) % (crowded n).num_buckets) =
      some (chain_upto (n + 1)) := rfl
  have hchain : ins_chain (crowded n) (n + 1) (n + 1) = chain_upto (n + 1 + 1) := by
    unfold ins_chain
    rw [hb, chain_of, chain_upto_succ (n + 1)]
  have hg : ¬ must_grow (crowded n) (n + 1) (n + 1) := by
    rintro ⟨h1, _⟩
    rw [hchain, chain_upto_length] at h1
    omega
  rw [put_eq_plain (crowded_lookup_new n) hg]
  have htbl : tbl_insert (crowded n) (n + 1) (n + 1) = crowded (n + 1) := by
    unfold tbl_insert
    rw [hchain, chain_upto_length]
    unfold crowded
    simp only [zero_hash, Nat.zero_mod, List.set_cons_zero, hashtable.mk.injEq,
      true_and, uint_range_eq]
    refine ⟨?_, ?_⟩
    · rw [if_neg (by omega)]
    · omega
  rw [htbl]

theorem crowded_reach (n : Nat) : Reachable zero_hash keycmp_int (crowded n) := by
  induction n with
  | zero => exact Reachable.put Reachable.alloc crowded_first
  | succ n ih => exact Reachable.put ih (crowded_next n)

theorem crowded_lookup_zero (n : Nat) : lookup (crowded n) 0 = some { k := 0, v := 0 } := by
  have g := reach_good (laws_int zero_hash) (crowded_reach n)
  rw [lookup_some_iff (g.laws (laws_int zero_hash)) g.inv, crowded_entries]
  exact ⟨mem_chain_upto.mpr ⟨Nat.succ_pos _, rfl⟩, rfl⟩

/-! ## The claims -/

theorem alloc_entries (hash : Nat → Nat) (keycmp : Nat → Nat → Bool) :
    (entries (hashtable_alloc hash keycmp).buckets).length = 0 := by
  simp [hashtable_alloc, alloc_buckets, entries_replicate_none]

theorem alloc_below_cap (hash : Nat → Nat) (keycmp : Nat → Nat → Bool) :
    (entries (hashtable_alloc hash keycmp).buckets).length < CAP_ENTRIES := by
  rw [alloc_entries]
  decide

theorem get_after_put {ht : hashtable} (laws : KeyLaws ht.hash ht.keycmp) (inv : Inv ht)
    {key newvalue : Nat} {oldvalue : Option Nat} {r : put_result}
    (post : PutPost ht key newvalue oldvalue r) : hashtable_get r.ht key = newvalue := by
  rw [hashtable_get_eq, lookup_after_put laws inv post]

/-- C1 (round trip). On every table reachable from `hashtable_alloc` (with
`keycmp` an equivalence consistent with `hash`), whenever
`hashtable_put(key, newvalue)` returns, whichever branch it took and however
many rehashes it nested, `hashtable_get(key)` on the table it leaves is
`newvalue`; and the call does return (fuel 24 is enough) while the table
holds fewer than `CAP_ENTRIES` entries. -/
theorem put_get_round_trip {hash : Nat → Nat} {keycmp : Nat → Nat → Bool}
    (laws : KeyLaws hash keycmp) {ht : hashtable} (hr : Reachable hash keycmp ht)
    (key newvalue : Nat) (oldvalue : Option Nat) :
    (∀ fuel r, hashtable_put fuel ht key newvalue oldvalue = some r →
      hashtable_get r.ht key = newvalue) ∧
    ((entries ht.buckets).length < CAP_ENTRIES →
      ∃ r, hashtable_put 24 ht key newvalue oldvalue = some r ∧
        hashtable_get r.ht key = newvalue) := by
  have g := reach_good laws hr
  have hget : ∀ fuel r, hashtable_put fuel ht key newvalue oldvalue = some r →
      hashtable_get r.ht key = newvalue := fun fuel r hrun =>
    get_after_put (g.laws laws) g.inv (put_post fuel ht key newvalue oldvalue r (g.laws laws)
      g.inv hrun)
  refine ⟨hget, fun hlen => ?_⟩
  obtain ⟨r, hrun⟩ := put_total_reach laws g hlen key newvalue oldvalue
  exact ⟨r, hrun, hget 24 r hrun⟩

/-- Witness of C1 on the fresh table of the test program: key `5` is put with
value `7` and read back. -/
theorem put_get_round_trip_witness :
    KeyLaws identity_hash keycmp_int ∧
    Reachable identity_hash keycmp_int (hashtable_alloc identity_hash keycmp_int) ∧
    ∃ r, hashtable_put 24 (hashtable_alloc identity_hash keycmp_int) 5 7 none = some r ∧
      hashtable_get r.ht 5 = 7 :=
  ⟨laws_int _, Reachable.alloc,
    (put_get_round_trip (laws_int identity_hash) Reachable.alloc 5 7 none).2
      (alloc_below_cap _ _)⟩

/-- C2 (replacement). On every reachable table, after a returning
`hashtable_put(key, v1)` a second call `hashtable_put(key, v2)` returns at
any fuel, returns `true`, writes `v1` to the cell `*oldvalue` when the
pointer is not `NULL`, leaves `hashtable_get(key) = v2` and leaves
`hashtable_size` as it was before the second call; the first call returns
(fuel 24) while fewer than `CAP_ENTRIES` entries are stored. -/
theorem put_twice_replaces {hash : Nat → Nat} {keycmp : Nat → Nat → Bool}
    (laws : KeyLaws hash keycmp) {ht : hashtable} (hr : Reachable hash keycmp ht)
    (key v1 v2 : Nat) (old1 old2 : Option Nat) :
    (∀ fuel1 r1, hashtable_put fuel1 ht key v1 old1 = some r1 →
      ∀ fuel2, ∃ r2, hashtable_put fuel2 r1.ht key v2 old2 = some r2 ∧
        r2.replaced = true ∧ r2.oldvalue = old2.map (fun _ => v1) ∧
        hashtable_get r2.ht key = v2 ∧ hashtable_size r2.ht = hashtable_size r1.ht) ∧
    ((entries ht.buckets).length < CAP_ENTRIES →
      ∃ r1, hashtable_put 24 ht key v1 old1 = some r1) := by
  have g := reach_good laws hr
  refine ⟨fun fuel1 r1 hrun1 fuel2 => ?_, fun hlen => put_total_reach laws g hlen key v1 old1⟩
  have g1 := good_put laws g hrun1
  have post1 := put_post fuel1 ht key v1 old1 r1 (g.laws laws) g.inv hrun1
  have hl1 := lookup_after_put (g.laws laws) g.inv post1
  have hrun2 := @put_eq_found fuel2 r1.ht key v2 old2 _ hl1
  have post2 := put_post fuel2 r1.ht key v2 old2 _ (g1.laws laws) g1.inv hrun2
  obtain ⟨_, _, _, _, hsize, _⟩ := post2.found _ hl1
  exact ⟨_, hrun2, rfl, rfl, get_after_put (g1.laws laws) g1.inv post2, hsize⟩

/-- Witness of C2 on the fresh table of the test program: key `5` is put with
value `7`, then with value `9`. -/
theorem put_twice_replaces_witness :
    KeyLaws identity_hash keycmp_int ∧
    Reachable identity_hash keycmp_int (hashtable_alloc identity_hash keycmp_int) ∧
    ∃ r1, hashtable_put 24 (hashtable_alloc identity_hash keycmp_int) 5 7 none = some r1 ∧
      ∃ r2, hashtable_put 0 r1.ht 5 9 (some 1) = some r2 ∧
        r2.replaced = true ∧ r2.oldvalue = some 7 ∧
        hashtable_get r2.ht 5 = 9 ∧ hashtable_size r2.ht = hashtable_size r1.ht := by
  have h := put_twice_replaces (laws_int identity_hash) Reachable.alloc 5 7 9 none (some 1)
  obtain ⟨r1, h1⟩ := h.2 (alloc_below_cap _ _)
  exact ⟨laws_int _, Reachable.alloc, r1, h1, h.1 24 r1 h1 0⟩

theorem size_after_insert {ht : hashtable} (inv : Inv ht) {key newvalue : Nat}
    {oldvalue : Option Nat} {r : put_result} (post : PutPost ht key newvalue oldvalue r)
    (hl : lookup ht key = none) : r.ht.size = (ht.size + 1) % UINT_RANGE := by
  obtain ⟨_, _, hp⟩ := post.fresh hl
  have h1 := post.inv.size_eq
  have h2 := inv.size_eq
  have h3 := hp.length_eq
  simp only [List.length_cons] at h3
  rw [h1, h2, h3, uint_range_eq]
  omega

/-- Counterexample to C3 as stated. The table `crowded 4294967294` is
reachable and holds `2 ^ 32 - 1` entries; `hashtable_put` of the new key
`4294967295` returns `false`, and `hashtable_size` goes from `4294967295` to
`0`: it has not increased by 1. -/
theorem put_size_wraps :
    Reachable zero_hash keycmp_int (crowded 4294967294) ∧
    hashtable_contains (crowded 4294967294) 4294967295 = false ∧
    hashtable_size (crowded 4294967294) = 4294967295 ∧
    ∃ r, hashtable_put 0 (crowded 4294967294) 4294967295 4294967295 none = some r ∧
      r.replaced = false ∧ hashtable_size r.ht = 0 := by
  refine ⟨crowded_reach _, ?_, rfl, _, crowded_next 4294967294, rfl, rfl⟩
  rw [hashtable_contains_eq, crowded_lookup_new 4294967294]
  rfl

/-- C3, amended. On every reachable table a returning `hashtable_put`
returns `true` exactly when `hashtable_contains(key)` was true before the
call; when it returns `false` the cell `*oldvalue` is not written and
`hashtable_size` has increased by 1 modulo `2 ^ 32`, also across rehashes:
by exactly 1 unless the counter was at `2 ^ 32 - 1`. The call returns
(fuel 24) while fewer than `CAP_ENTRIES` entries are stored. -/
theorem put_flag_and_size {hash : Nat → Nat} {keycmp : Nat → Nat → Bool}
    (laws : KeyLaws hash keycmp) {ht : hashtable} (hr : Reachable hash keycmp ht)
    (key newvalue : Nat) (oldvalue : Option Nat) :
    (∀ fuel r, hashtable_put fuel ht key newvalue oldvalue = some r →
      (r.replaced = true ↔ hashtable_contains ht key = true) ∧
      (r.replaced = false →
        r.oldvalue = oldvalue ∧
        hashtable_size r.ht = (hashtable_size ht + 1) % UINT_RANGE ∧
        (hashtable_size ht + 1 < UINT_RANGE →
          hashtable_size r.ht = hashtable_size ht + 1))) ∧
    ((entries ht.buckets).length < CAP_ENTRIES →
      ∃ r, hashtable_put 24 ht key newvalue oldvalue = some r) := by
  have g := reach_good laws hr
  refine ⟨fun fuel r hrun => ?_, fun hlen => put_total_reach laws g hlen key newvalue oldvalue⟩
  have post := put_post fuel ht key newvalue oldvalue r (g.laws laws) g.inv hrun
  rw [hashtable_contains_eq]
  cases hl : lookup ht key with
  | some e =>
    obtain ⟨h1, _⟩ := post.found e hl
    refine ⟨by simp [h1], fun h => ?_⟩
    rw [h1] at h
    cases h
  | none =>
    obtain ⟨h1, h2, _⟩ := post.fresh hl
    have hs := size_after_insert g.inv post hl
    refine ⟨by simp [h1], fun _ => ⟨h2, hs, fun hlt => ?_⟩⟩
    unfold hashtable_size at hlt ⊢
    rw [hs, Nat.mod_eq_of_lt hlt]

/-- Witness of C3, amended, on the fresh table of the test program: the put
of key `5` returns `false`, leaves the cell alone and makes the size 1. -/
theorem put_flag_and_size_witness :
    KeyLaws identity_hash keycmp_int ∧
    Reachable identity_hash keycmp_int (hashtable_alloc identity_hash keycmp_int) ∧
    ∃ r, hashtable_put 24 (hashtable_alloc identity_hash keycmp_int) 5 7 (some 3) = some r ∧
      r.replaced = false ∧ r.oldvalue = some 3 ∧ hashtable_size r.ht = 1 := by
  have h := put_flag_and_size (laws_int identity_hash) Reachable.alloc 5 7 (some 3)
  obtain ⟨r, hrun⟩ := h.2 (alloc_below_cap _ _)
  obtain ⟨h1, h2⟩ := h.1 24 r hrun
  have hrep : r.replaced = false := by
    cases hrp : r.replaced with
    | false => rfl
    | true =>
      have := h1.mp hrp
      exact absurd this (by decide)
  obtain ⟨h3, _, h5⟩ := h2 hrep
  exact ⟨laws_int _, Reachable.alloc, r, hrun, hrep, h3, h5 (by decide)⟩

theorem crowded_remove (n : Nat) :
    ∃ r, hashtable_remove (crowded n) 0 false = Except.ok r ∧
      hashtable_size r.ht = ((n + 1) % UINT_RANGE + UINT_RANGE - 1) % UINT_RANGE := by
  have hl := crowded_lookup_zero n
  have g := reach_good (laws_int zero_hash) (crowded_reach n)
  exact ⟨_, hashtable_remove_found false hl, (tbl_remove_fields g.inv hl).2.2.2.2⟩

theorem crowded_contains_zero (n : Nat) : hashtable_contains (crowded n) 0 = true := by
  rw [hashtable_contains_eq, crowded_lookup_zero n]
  rfl

/-- Counterexample to C4 as stated. The table `crowded 4294967295` is
reachable and holds `2 ^ 32` entries, its counter `size` has wrapped to `0`;
key `0` is present, `hashtable_remove(0)` returns, and `hashtable_size` goes
from `0` to `4294967295`: it is not one less than before. -/
theorem remove_size_wraps :
    Reachable zero_hash keycmp_int (crowded 4294967295) ∧
    hashtable_contains (crowded 4294967295) 0 = true ∧
    hashtable_size (crowded 4294967295) = 0 ∧
    ∃ r, hashtable_remove (crowded 4294967295) 0 false = Except.ok r ∧
      hashtable_size r.ht = 4294967295 := by
  obtain ⟨r, h1, h2⟩ := crowded_remove 4294967295
  have harith : ((4294967295 + 1) % UINT_RANGE + UINT_RANGE - 1) % UINT_RANGE = 4294967295 := by
    decide
  exact ⟨crowded_reach _, crowded_contains_zero _, rfl, r, h1, h2.trans harith⟩

/-- C4, amended. On every reachable table, for a key with
`hashtable_contains(key)` true, `hashtable_remove(key)` returns the value
`hashtable_get(key)` returned just before, afterwards
`hashtable_contains(key)` is false and `hashtable_size` is one less modulo
`2 ^ 32`: exactly one less unless the counter was at `0`. In particular a
returning `hashtable_put(key, v)` followed by `hashtable_remove(key)` returns
`v`. -/
theorem remove_present {hash : Nat → Nat} {keycmp : Nat → Nat → Bool}
    (laws : KeyLaws hash keycmp) {ht : hashtable} (hr : Reachable hash keycmp ht)
    (key : Nat) (kfree : Bool) :
    (hashtable_contains ht key = true →
      ∃ r, hashtable_remove ht key kfree = Except.ok r ∧
        r.data = hashtable_get ht key ∧ hashtable_contains r.ht key = false ∧
        hashtable_size r.ht = (hashtable_size ht + UINT_RANGE - 1) % UINT_RANGE ∧
        (0 < hashtable_size ht → hashtable_size r.ht + 1 = hashtable_size ht)) ∧
    (∀ fuel v old r1, hashtable_put fuel ht key v old = some r1 →
      ∃ r2, hashtable_remove r1.ht key kfree = Except.ok r2 ∧ r2.data = v) := by
  have g := reach_good laws hr
  constructor
  · intro hc
    rw [hashtable_contains_eq] at hc
    cases hl : lookup ht key with
    | none =>
      rw [hl] at hc
      cases hc
    | some e =>
      have hsz := (tbl_remove_fields g.inv hl).2.2.2.2
      have hlt : ht.size < UINT_RANGE := by
        rw [g.inv.size_eq]
        exact Nat.mod_lt _ (by decide)
      refine ⟨_, hashtable_remove_found kfree hl, ?_, ?_, hsz, fun hpos => ?_⟩
      · rw [hashtable_get_eq, hl]
      · rw [hashtable_contains_eq, lookup_after_remove (g.laws laws) g.inv hl]
        rfl
      · unfold hashtable_size at hpos ⊢
        show (tbl_remove ht key).size + 1 = ht.size
        rw [hsz]
        rw [uint_range_eq] at *
        omega
  · intro fuel v old r1 hrun
    have post := put_post fuel ht key v old r1 (g.laws laws) g.inv hrun
    have hl := lookup_after_put (g.laws laws) g.inv post
    exact ⟨_, hashtable_remove_found kfree hl, rfl⟩

/-- Witness of C4, amended, on the test program's table after the put of key
`5` with value `7`: key `5` is present, its removal returns `7` and leaves
the key absent. -/
theorem remove_present_witness :
    KeyLaws identity_hash keycmp_int ∧
    ∃ r1, hashtable_put 24 (hashtable_alloc identity_hash keycmp_int) 5 7 none = some r1 ∧
      Reachable identity_hash keycmp_int r1.ht ∧ hashtable_contains r1.ht 5 = true ∧
      ∃ r2, hashtable_remove r1.ht 5 false = Except.ok r2 ∧
        r2.data = hashtable_get r1.ht 5 ∧ hashtable_contains r2.ht 5 = false := by
  have g0 := good_alloc identity_hash keycmp_int
  have lw := g0.laws (laws_int identity_hash)
  obtain ⟨r1, h1⟩ := put_total_reach (laws_int identity_hash) g0 (alloc_below_cap _ _) 5 7 none
  have hr1 : Reachable identity_hash keycmp_int r1.ht := Reachable.put Reachable.alloc h1
  have hc : hashtable_contains r1.ht 5 = true := by
    rw [hashtable_contains_eq, lookup_after_put lw g0.inv (put_post 24 _ 5 7 none r1 lw g0.inv h1)]
    rfl
  obtain ⟨r2, h2, h3, h4, _⟩ := (remove_present (laws_int identity_hash) hr1 5 false).1 hc
  exact ⟨laws_int _, r1, h1, hr1, hc, r2, h2, h3, h4⟩

/-- C5. `hashtable_remove` fails (its assertion fires) exactly when
`hashtable_contains(key)` is false, and the table the failing call leaves is
the table it was given: no field has been modified. -/
theorem remove_fails_iff_absent (ht : hashtable) (key : Nat) (kfree : Bool) :
    ((∃ t, hashtable_remove ht key kfree = Except.error t) ↔
      hashtable_contains ht key = false) ∧
    (∀ t, hashtable_remove ht key kfree = Except.error t → t = ht) := by
  rw [hashtable_contains_eq]
  cases hl : lookup ht key with
  | none =>
    rw [hashtable_remove_absent kfree hl]
    refine ⟨⟨fun _ => rfl, fun _ => ⟨ht, rfl⟩⟩, fun t h => ?_⟩
    cases h
    rfl
  | some e =>
    rw [hashtable_remove_found kfree hl]
    refine ⟨⟨?_, ?_⟩, ?_⟩
    · rintro ⟨t, h⟩
      cases h
    · intro h
      cases h
    · intro t h
      cases h

theorem first_round_eq :
    hashtable_put 0 (hashtable_alloc identity_hash keycmp_int) 0 0 none = some first_round := by
  rfl

/-- Counterexample to C6 as stated. After `hashtable_put(0, 0)` on the fresh
table of the test program (the first round of `test_resize`, which stores the
value `0` under key `0`), `hashtable_contains(0)` is true while
`hashtable_get(0)` returns `0`, that is `NULL`. -/
theorem contains_but_get_null :
    ∃ r, hashtable_put 0 (hashtable_alloc identity_hash keycmp_int) 0 0 none = some r ∧
      Reachable identity_hash keycmp_int r.ht ∧
      hashtable_contains r.ht 0 = true ∧ hashtable_get r.ht 0 = 0 :=
  ⟨first_round, first_round_eq, Reachable.put Reachable.alloc first_round_eq,
    by decide, by decide⟩

/-- C6, amended. On every table `hashtable_contains(key)` is true exactly
when `get_entry` finds an entry, `hashtable_get(key)` then returns the value
of that entry; so `hashtable_contains(key)` is true if and only if
`hashtable_get(key)` is not `NULL` or the entry found holds the value
`NULL`. -/
theorem contains_iff_get (ht : hashtable) (key : Nat) :
    (hashtable_contains ht key = true ↔
      (hashtable_get ht key ≠ 0 ∨ ∃ e, (get_entry ht key false).1 = some e ∧ e.v = 0)) ∧
    (∀ e, (get_entry ht key false).1 = some e →
      hashtable_contains ht key = true ∧ hashtable_get ht key = e.v) := by
  unfold hashtable_contains hashtable_get
  cases (get_entry ht key false).1 with
  | none => simp
  | some e =>
    simp only [Option.isSome_some, true_iff, Option.some.injEq, exists_eq_left', ne_eq]
    refine ⟨?_, fun e2 h => ⟨trivial, by rw [h]⟩⟩
    by_cases h : e.v = 0
    · exact Or.inr h
    · exact Or.inl h

/-- Absence of equal keys among the live keys is kept by calls that put no
equal key. -/
theorem no_live_of_no_put {keycmp : Nat → Nat → Bool} (key : Nat)
    (calls : List call) : ∀ live : List Nat, (∀ x ∈ live, keycmp key x = false) →
      (∀ k v old, call.put k v old ∈ calls → keycmp key k = false) →
      ∀ x ∈ calls.foldl (live_step keycmp) live, keycmp key x = false := by
  induction calls with
  | nil => intro live h _; exact h
  | cons c rest ih =>
    intro live h hput
    simp only [List.foldl_cons]
    apply ih
    · cases c with
      | put k v old =>
        simp only [live_step]
        split_ifs
        · exact h
        · intro x hx
          rcases List.mem_cons.mp hx with hx | hx
          · subst hx
            exact hput x v old (List.mem_cons_self _ _)
          · exact h x hx
      | remove k kfree =>
        intro x hx
        exact h x (List.mem_of_mem_filter hx)
    · intro k v old hmem
      exact hput k v old (List.mem_cons_of_mem _ hmem)

theorem no_live_key {hash : Nat → Nat} {keycmp : Nat → Nat → Bool}
    (laws : KeyLaws hash keycmp) {key : Nat} {calls : List call}
    (h : never_put_or_removed keycmp key calls) :
    ∀ x ∈ live_keys keycmp calls, keycmp key x = false := by
  unfold live_keys
  rcases h with h | ⟨before, k, kfree, after, rfl, hk, hafter⟩
  · exact no_live_of_no_put key calls [] (by simp) h
  · rw [List.foldl_append, List.foldl_cons]
    apply no_live_of_no_put key after _ _ hafter
    intro x hx
    simp only [live_step] at hx
    have hkx := (List.mem_filter.mp hx).2
    simp only [Bool.not_eq_true'] at hkx
    cases hx2 : keycmp key x with
    | false => rfl
    | true =>
      rw [laws.trans _ _ _ (laws.symm _ _ hk) hx2] at hkx
      cases hkx

/-- C7 (absence). After every returning sequence of `hashtable_put` and
`hashtable_remove` calls on a fresh table, for every key that no call put
(up to `keycmp`), or that a call removed with no later put, `hashtable_get`
returns `NULL` and `hashtable_contains` returns false; both are total
functions, so neither fails. In particular (empty sequence) this holds of
every key on the fresh table. -/
theorem absent_key_reads_null {hash : Nat → Nat} {keycmp : Nat → Nat → Bool}
    (laws : KeyLaws hash keycmp) (fuel : Nat) (calls : List call) (ht : hashtable) (key : Nat)
    (hrun : run_calls fuel (hashtable_alloc hash keycmp) calls = some ht)
    (habs : never_put_or_removed keycmp key calls) :
    hashtable_get ht key = 0 ∧ hashtable_contains ht key = false ∧
      hashtable_get (hashtable_alloc hash keycmp) key = 0 ∧
      hashtable_contains (hashtable_alloc hash keycmp) key = false := by
  have g0 := good_alloc hash keycmp
  have hk0 : (stored_keys (hashtable_alloc hash keycmp)).Perm [] := by
    unfold stored_keys
    rw [List.length_eq_zero.mp (alloc_entries hash keycmp)]
    exact List.Perm.refl _
  obtain ⟨g, hp⟩ := run_calls_keys laws fuel calls _ ht [] g0 hk0 hrun
  have hnone : lookup ht key = none := by
    rw [lookup_none_iff_keys (g.laws laws) g.inv, g.keycmp_eq]
    intro x hx
    exact no_live_key laws habs x (hp.mem_iff.mp hx)
  have hnone0 : lookup (hashtable_alloc hash keycmp) key = none := by
    rw [lookup_none_iff_keys (g0.laws laws) g0.inv]
    intro x hx
    rw [hk0.mem_iff] at hx
    cases hx
  rw [hashtable_get_eq, hashtable_contains_eq, hashtable_get_eq, hashtable_contains_eq,
    hnone, hnone0]
  exact ⟨rfl, rfl, rfl, rfl⟩

/-- Witness of C7 on the test program's fresh table: key `1` is put, removed,
and key `2` is put; key `1` then reads as absent. -/
theorem absent_key_reads_null_witness :
    KeyLaws identity_hash keycmp_int ∧
    never_put_or_removed keycmp_int 1
      [call.put 1 10 none, call.remove 1 false, call.put 2 20 none] ∧
    ∃ ht, run_calls 0 (hashtable_alloc identity_hash keycmp_int)
        [call.put 1 10 none, call.remove 1 false, call.put 2 20 none] = some ht ∧
      hashtable_get ht 1 = 0 ∧ hashtable_contains ht 1 = false := by
  have habs : never_put_or_removed keycmp_int 1
      [call.put 1 10 none, call.remove 1 false, call.put 2 20 none] :=
    Or.inr ⟨[call.put 1 10 none], 1, false, [call.put 2 20 none], rfl, rfl, by
      intro k2 v old h
      simp only [List.mem_singleton, call.put.injEq] at h
      rw [h.1]
      rfl⟩
  have hsome : (run_calls 0 (hashtable_alloc identity_hash keycmp_int)
      [call.put 1 10 none, call.remove 1 false, call.put 2 20 none]).isSome = true := by
    decide
  obtain ⟨ht, hrun⟩ := Option.isSome_iff_exists.mp hsome
  have h := absent_key_reads_null (laws_int identity_hash) 0 _ ht 1 hrun habs
  exact ⟨laws_int _, habs, ht, hrun, h.1, h.2.1⟩

theorem f32_round_pow24 : f32_round (2 ^ 24) = 2 ^ 24 := by decide

/-- Where the conversions to `float` are exact the growth test is the exact
comparison with three quarters of the bucket count. -/
theorem load_exact {nu j : Nat} (hj : j ≤ 24) (hnu : nu ≤ 2 ^ j)
    (h : load_exceeded nu (2 ^ j) = false) : 4 * nu ≤ 3 * 2 ^ j := by
  unfold load_exceeded at h
  rw [threshold_pow j (by omega)] at h
  have hle : (2 : Nat) ^ j ≤ 2 ^ 24 := Nat.pow_le_pow_right (by norm_num) hj
  have hr : f32_round nu = nu := by
    by_cases hlt : nu < 2 ^ 24
    · exact f32_round_small nu hlt
    · have : nu = 2 ^ 24 := by omega
      rw [this]
      exact f32_round_pow24
  rw [hr] at h
  simpa using h

/-- C8 (load-factor bound). On every reachable table, when `hashtable_put`
returns, the growth test `num_used > load_factor * num_buckets` of the code
is false on the table it leaves, that is `num_used <= load_factor *
num_buckets` holds as the test program asserts it, in `float` arithmetic;
the bucket count lies between 64 and `2 ^ 30`; and up to `2 ^ 24` buckets,
where the conversions to `float` are exact, `num_used ≤ 0.75 * num_buckets`
holds in exact arithmetic. -/
theorem load_bound_after_put {hash : Nat → Nat} {keycmp : Nat → Nat → Bool}
    (laws : KeyLaws hash keycmp) {ht : hashtable} (hr : Reachable hash keycmp ht)
    (fuel key newvalue : Nat) (oldvalue : Option Nat) (r : put_result)
    (hrun : hashtable_put fuel ht key newvalue oldvalue = some r) :
    load_exceeded r.ht.num_used r.ht.num_buckets = false ∧
    INITIAL_BUCKETS ≤ r.ht.num_buckets ∧ r.ht.num_buckets ≤ MAX_BUCKETS ∧
    (r.ht.num_buckets ≤ 2 ^ 24 → 4 * r.ht.num_used ≤ 3 * r.ht.num_buckets) := by
  have g := good_put laws (reach_good laws hr) hrun
  have hload := g.load r.ht.num_used (le_refl _)
  obtain ⟨j, hj, hnb⟩ := g.pow
  refine ⟨hload, g.nb_ge, ?_, fun hsmall => ?_⟩
  · rw [hnb]
    exact Nat.pow_le_pow_right (by norm_num) hj
  · have hj24 : j ≤ 24 := by
      rw [hnb] at hsmall
      exact (Nat.pow_le_pow_iff_right (by norm_num)).mp hsmall
    have hnu : r.ht.num_used ≤ 2 ^ j := by
      rw [← hnb, g.inv.used, ← g.inv.len]
      exact used_slots_le _
    rw [hnb] at hload ⊢
    exact load_exact hj24 hnu hload

/-- Witness of C8 on the fresh table of the test program: after the put of
key `5` the table has 64 buckets, one of them used. -/
theorem load_bound_after_put_witness :
    KeyLaws identity_hash keycmp_int ∧
    Reachable identity_hash keycmp_int (hashtable_alloc identity_hash keycmp_int) ∧
    ∃ r, hashtable_put 24 (hashtable_alloc identity_hash keycmp_int) 5 7 none = some r ∧
      load_exceeded r.ht.num_used r.ht.num_buckets = false ∧
      INITIAL_BUCKETS ≤ r.ht.num_buckets ∧ r.ht.num_buckets ≤ MAX_BUCKETS := by
  obtain ⟨r, hrun⟩ := put_total_reach (laws_int identity_hash)
    (good_alloc identity_hash keycmp_int) (alloc_below_cap _ _) 5 7 none
  have h := load_bound_after_put (laws_int identity_hash) Reachable.alloc 24 5 7 none r hrun
  exact ⟨laws_int _, Reachable.alloc, r, hrun, h.1, h.2.1, h.2.2.1⟩

theorem crowded_chain_total (n : Nat) : chain_total (crowded n).buckets = n + 1 := by
  rw [chain_total_eq, crowded_entries, chain_upto_length]

/-- Counterexample to C9 as stated. The table `crowded 4294967295` is
reachable, its chains hold `2 ^ 32` entries in total, and `hashtable_size`
is `0`. -/
theorem size_differs_from_chain_total :
    Reachable zero_hash keycmp_int (crowded 4294967295) ∧
    chain_total (crowded 4294967295).buckets = 4294967296 ∧
    hashtable_size (crowded 4294967295) = 0 :=
  ⟨crowded_reach _, crowded_chain_total 4294967295, rfl⟩

theorem live_keys_distinct {hash : Nat → Nat} {keycmp : Nat → Nat → Bool}
    (laws : KeyLaws hash keycmp) {ht : hashtable} (g : Good hash keycmp ht) {live : List Nat}
    (hp : (stored_keys ht).Perm live) : live.Pairwise (fun a b => keycmp a b = false) := by
  have hd := g.inv.distinct
  unfold DistinctKeys at hd
  rw [g.keycmp_eq] at hd
  have hm : (stored_keys ht).Pairwise (fun a b => keycmp a b = false) := by
    unfold stored_keys
    rw [List.pairwise_map]
    exact hd
  refine (hp.pairwise_iff ?_).mp hm
  intro a b hab
  cases hba : keycmp b a with
  | false => rfl
  | true =>
    rw [laws.symm _ _ hba] at hab
    cases hab

/-- C9, amended. After every returning sequence of `hashtable_put` and
`hashtable_remove` calls on a fresh table, rehashes included,
`hashtable_size` is the sum of the lengths of all bucket chains modulo
`2 ^ 32`, and that sum is the number of live keys: the pairwise non-equal
keys that have been put and not subsequently removed. So `hashtable_size`
equals both while fewer than `2 ^ 32` keys are live. -/
theorem size_counts_live_keys {hash : Nat → Nat} {keycmp : Nat → Nat → Bool}
    (laws : KeyLaws hash keycmp) (fuel : Nat) (calls : List call) (ht : hashtable)
    (hrun : run_calls fuel (hashtable_alloc hash keycmp) calls = some ht) :
    hashtable_size ht = chain_total ht.buckets % UINT_RANGE ∧
    chain_total ht.buckets = (live_keys keycmp calls).length ∧
    (live_keys keycmp calls).Pairwise (fun a b => keycmp a b = false) ∧
    ((live_keys keycmp calls).length < UINT_RANGE →
      hashtable_size ht = chain_total ht.buckets ∧
      hashtable_size ht = (live_keys keycmp calls).length) := by
  have g0 := good_alloc hash keycmp
  have hk0 : (stored_keys (hashtable_alloc hash keycmp)).Perm [] := by
    unfold stored_keys
    rw [List.length_eq_zero.mp (alloc_entries hash keycmp)]
    exact List.Perm.refl _
  obtain ⟨g, hp⟩ := run_calls_keys laws fuel calls _ ht [] g0 hk0 hrun
  have hp : (stored_keys ht).Perm (live_keys keycmp calls) := hp
  have hlen : chain_total ht.buckets = (live_keys keycmp calls).length := by
    rw [chain_total_eq, ← hp.length_eq]
    unfold stored_keys
    rw [List.length_map]
  have hsize : hashtable_size ht = chain_total ht.buckets % UINT_RANGE := by
    rw [chain_total_eq]
    exact g.inv.size_eq
  refine ⟨hsize, hlen, live_keys_distinct laws g hp, fun hlt => ?_⟩
  rw [← hlen] at hlt
  rw [hsize, Nat.mod_eq_of_lt hlt]
  exact ⟨rfl, hlen⟩

/-- Witness of C9, amended, on the test program's fresh table: key `1` is
put twice, key `2` once, key `1` is removed; the size is 1. -/
theorem size_counts_live_keys_witness :
    KeyLaws identity_hash keycmp_int ∧
    ∃ ht, run_calls 0 (hashtable_alloc identity_hash keycmp_int)
        [call.put 1 10 none, call.put 1 11 none, call.put 2 20 none,
          call.remove 1 false] = some ht ∧
      hashtable_size ht = 1 ∧ chain_total ht.buckets = 1 := by
  have hsome : (run_calls 0 (hashtable_alloc identity_hash keycmp_int)
      [call.put 1 10 none, call.put 1 11 none, call.put 2 20 none,
        call.remove 1 false]).isSome = true := by
    decide
  obtain ⟨ht, hrun⟩ := Option.isSome_iff_exists.mp hsome
  have h := size_counts_live_keys (laws_int identity_hash) 0 _ ht hrun
  have hlive : (live_keys keycmp_int [call.put 1 10 none, call.put 1 11 none,
      call.put 2 20 none, call.remove 1 false]).length = 1 := by
    decide
  obtain ⟨h1, h2⟩ := h.2.2.2 (by rw [hlive]; decide)
  exact ⟨laws_int _, ht, hrun, h2.trans hlive, (h1.symm.trans h2).trans hlive⟩

set_option maxRecDepth 100000 in
theorem rounds_ok : ∀ i, i < 128 → round_ok i = true := by decide!

set_option maxRecDepth 100000 in
theorem reads_ok : ∀ i, i < 128 → read_ok i = true := by decide!

/-- C10 (the scenario of `test_resize`). From a fresh table with the identity
hash and pointer equality, after the put of key `i` with value `i`, for every
`i` in `0 .. 127` in ascending order, `hashtable_size` is `i + 1`, `num_used`
is `i + 1` and `num_used <= 0.75 * num_buckets` holds, as the code evaluates
it and in exact arithmetic; after all 128 puts `hashtable_get(i)` is `i` for
every `i` in `0 .. 127`. Every put returns with at most one nested rehash. -/
theorem test_resize_scenario :
    (∀ i, i < 128 →
      ∃ t, put_range 1 (hashtable_alloc identity_hash keycmp_int) (i + 1) = some t ∧
        hashtable_size t = i + 1 ∧ t.num_used = i + 1 ∧
        load_exceeded t.num_used t.num_buckets = false ∧
        4 * t.num_used ≤ 3 * t.num_buckets) ∧
    (∃ t, put_range 1 (hashtable_alloc identity_hash keycmp_int) 128 = some t ∧
      ∀ i, i < 128 → hashtable_get t i = i) := by
  constructor
  · intro i hi
    have h := rounds_ok i hi
    unfold round_ok at h
    cases hp : put_range 1 (hashtable_alloc identity_hash keycmp_int) (i + 1) with
    | none =>
      rw [hp] at h
      cases h
    | some t =>
      rw [hp] at h
      simp only [Bool.and_eq_true, decide_eq_true_eq, Bool.not_eq_true'] at h
      exact ⟨t, rfl, h.1.1.1, h.1.1.2, h.1.2, h.2⟩
  · cases hp : put_range 1 (hashtable_alloc identity_hash keycmp_int) 128 with
    | none =>
      have h := reads_ok 0 (by decide)
      unfold read_ok at h
      rw [hp] at h
      cases h
    | some t =>
      refine ⟨t, rfl, fun i hi => ?_⟩
      have h := reads_ok i hi
      unfold read_ok at h
      rw [hp] at h
      simpa using h

/-! ## Growth happens only when the growth test asks for it -/

theorem inv_fresh_tbl (ht : hashtable) {n : Nat} (h0 : 0 < n) (hn : n < UINT_RANGE) :
    Inv (fresh_tbl ht n) := by
  refine ⟨by simp [fresh_tbl, alloc_buckets], h0, hn, ?_, ?_, ?_, ?_⟩
  · intro i c hc
    simp [bucket_at, fresh_tbl, alloc_buckets, getD_replicate_none] at hc
  · simp [fresh_tbl, alloc_buckets, entries_replicate_none, DistinctKeys]
  · simp [fresh_tbl, alloc_buckets, used_slots_replicate_none]
  · simp [fresh_tbl, alloc_buckets, entries_replicate_none]

theorem fresh_tbl_entries (ht : hashtable) (n : Nat) : entries (fresh_tbl ht n).buckets = [] := by
  simp [fresh_tbl, alloc_buckets, entries_replicate_none]

theorem resize_with_eq (put : hashtable → Nat → Nat → Option Nat → Option put_result)
    {ht : hashtable} (inv : Inv ht) {n : Nat} (hn : n ≠ 0) :
    resize_with put ht n = rehash_chain put (fresh_tbl ht n) (entries ht.buckets) := by
  unfold resize_with
  simp only [hn, if_false]
  rw [rehash_buckets_flat, ← inv.len, List.take_length]
  rfl

/-- A property that every returning insertion keeps is kept by the loop of
`resize`. -/
theorem rehash_chain_keep {put : hashtable → Nat → Nat → Option Nat → Option put_result}
    (spec : PutSpec put) (Q : hashtable → Prop)
    (hQ : ∀ t key newvalue oldvalue r, KeyLaws t.hash t.keycmp → Inv t → Q t →
      put t key newvalue oldvalue = some r → Q r.ht)
    (es : linkedlist) (t t2 : hashtable)
    (laws : KeyLaws t.hash t.keycmp) (inv : Inv t)
    (hd : DistinctKeys t.keycmp es)
    (hnew : ∀ e ∈ es, ∀ x ∈ entries t.buckets, t.keycmp e.k x.k = false)
    (hrun : rehash_chain put t es = some t2) (hq : Q t) : Q t2 := by
  induction es generalizing t with
  | nil =>
    simp only [rehash_chain, Option.some.injEq] at hrun
    subst hrun
    exact hq
  | cons e rest ih =>
    simp only [rehash_chain] at hrun
    cases hput : put t e.k e.v none with
    | none => simp [hput] at hrun
    | some r =>
      rw [hput] at hrun
      have post := spec t e.k e.v none r laws inv hput
      have hnone : lookup t e.k = none :=
        (lookup_none_iff laws inv).mpr (hnew e (List.mem_cons_self _ _))
      obtain ⟨_, _, hperm⟩ := post.fresh hnone
      have hperm : (entries r.ht.buckets).Perm (e :: entries t.buckets) := hperm
      have laws2 : KeyLaws r.ht.hash r.ht.keycmp := by
        rw [post.hash_eq, post.keycmp_eq]
        exact laws
      have hd2 := List.pairwise_cons.mp hd
      exact ih r.ht laws2 post.inv
        (by rw [post.keycmp_eq]; exact hd2.2)
        (by
          intro y hy x hx
          rw [post.keycmp_eq]
          rcases List.mem_cons.mp (hperm.mem_iff.mp hx) with hx | hx
          · subst hx
            exact distinct_symm laws (hd2.1 y hy)
          · exact hnew y (List.mem_cons_of_mem _ hy) x hx)
        hrun (hQ t e.k e.v none r laws inv hq hput)

theorem tight_mono {n0 : Nat} {t t2 : hashtable} (h : TightFrom n0 t)
    (hnb : t2.num_buckets = t.num_buckets)
    (hlen : (entries t.buckets).length ≤ (entries t2.buckets).length) : TightFrom n0 t2 := by
  rcases h with h | ⟨m, hm, hx⟩
  · exact Or.inl (hnb.trans h)
  · exact Or.inr ⟨m, le_trans hm hlen, by rw [hnb]; exact hx⟩

/-- Every returning `hashtable_put` keeps `TightFrom`. -/
theorem put_tight (fuel : Nat) : ∀ ht key newvalue oldvalue r n0,
    KeyLaws ht.hash ht.keycmp → Inv ht → PowOK ht → TightFrom n0 ht →
    hashtable_put fuel ht key newvalue oldvalue = some r → TightFrom n0 r.ht := by
  induction fuel with
  | zero =>
    intro ht key newvalue oldvalue r n0 laws inv _ htight hrun
    have post := put_post 0 ht key newvalue oldvalue r laws inv hrun
    cases hl : lookup ht key with
    | some e =>
      obtain ⟨_, _, hnb, _, _, others, hp1, hp2⟩ := post.found e hl
      exact tight_mono htight hnb (by
        rw [hp1.length_eq, hp2.length_eq]
        exact le_refl _)
    | none =>
      by_cases hg : must_grow ht key newvalue
      · rw [put_eq_grow_zero hl hg] at hrun
        cases hrun
      · rw [put_eq_plain hl hg] at hrun
        cases hrun
        exact tight_mono htight rfl (by
          rw [(tbl_insert_perm inv key newvalue).length_eq]
          exact Nat.le_succ _)
  | succ fuel ih =>
    intro ht key newvalue oldvalue r n0 laws inv hpow htight hrun
    have post := put_post (fuel + 1) ht key newvalue oldvalue r laws inv hrun
    cases hl : lookup ht key with
    | some e =>
      obtain ⟨_, _, hnb, _, _, others, hp1, hp2⟩ := post.found e hl
      exact tight_mono htight hnb (by
        rw [hp1.length_eq, hp2.length_eq]
        exact le_refl _)
    | none =>
      by_cases hg : must_grow ht key newvalue
      · obtain ⟨_, _, hperm⟩ := post.fresh hl
        have hlen := hperm.length_eq
        simp only [List.length_cons] at hlen
        rw [put_eq_grow_succ hl hg] at hrun
        cases hrs : resize fuel (tbl_insert ht key newvalue) (grow_target ht.num_buckets) with
        | none => simp [hrs] at hrun
        | some ht3 =>
          rw [hrs] at hrun
          cases hrun
          have hlen3 : (entries ht3.buckets).length = (entries ht.buckets).length + 1 := hlen
          obtain ⟨j, hj, hnb⟩ := hpow
          have hgt := grow_target_pow j hj
          rw [← hnb] at hgt
          have hpos : grow_target ht.num_buckets ≠ 0 := by
            rw [hgt]
            positivity
          have inv1 := inv_tbl_insert laws inv newvalue hl
          unfold resize at hrs
          rw [resize_with_eq _ inv1 hpos] at hrs
          have hkeep := rehash_chain_keep (put_post fuel)
            (fun t => PowOK t ∧ TightFrom (grow_target ht.num_buckets) t)
            (fun t k v o r2 lw iv hq hp =>
              ⟨((put_post fuel) t k v o r2 lw iv hp).pow hq.1 |>.1,
                ih t k v o r2 _ lw iv hq.1 hq.2 hp⟩)
            _ (fresh_tbl (tbl_insert ht key newvalue) (grow_target ht.num_buckets)) ht3
            laws (inv_fresh_tbl _ (Nat.pos_of_ne_zero hpos) (grow_target_lt _))
            inv1.distinct (by simp [fresh_tbl_entries]) hrs
            ⟨⟨min (j + 1) 30, by omega, hgt⟩, Or.inl rfl⟩
          rcases hkeep.2 with h3 | h3
          · show TightFrom n0 ht3
            by_cases hj30 : j < 30
            · right
              have hmin : min (j + 1) 30 = j + 1 := by omega
              have hhalf : ht3.num_buckets / 2 = ht.num_buckets := by
                rw [h3, hgt, hmin, hnb, Nat.pow_succ, Nat.mul_div_cancel _ (by norm_num)]
              refine ⟨(ht.num_used + 1) % UINT_RANGE, ?_, by rw [hhalf]; exact hg.2⟩
              have h1 := Nat.mod_le (ht.num_used + 1) UINT_RANGE
              have h2 := num_used_le_entries inv
              omega
            · have hj2 : j = 30 := by omega
              have hmin : min (j + 1) 30 = j := by omega
              have hsame : ht3.num_buckets = ht.num_buckets := by
                rw [h3, hgt, hmin, hnb]
              exact tight_mono htight hsame (by omega)
          · exact Or.inr h3
      · rw [put_eq_plain hl hg] at hrun
        cases hrun
        exact tight_mono htight rfl (by
          rw [(tbl_insert_perm inv key newvalue).length_eq]
          exact Nat.le_succ _)

/-! ## A table on which the exact load-factor bound fails -/

theorem used_all_slots (bs : List (Option linkedlist))
    (h : ∀ i, i < bs.length → (bs.getD i none).isSome = true) : used_slots bs = bs.length := by
  induction bs with
  | nil => rfl
  | cons b r ih =>
    have hr := ih (fun i hi => by simpa using h (i + 1) (by simpa using hi))
    have h0 := h 0 (by simp)
    cases b with
    | none => simp at h0
    | some c => simp [used_slots, hr]

theorem used_eq_entries_of_singletons (bs : List (Option linkedlist))
    (h : ∀ i c, bs.getD i none = some c → c.length = 1) :
    used_slots bs = (entries bs).length := by
  induction bs with
  | nil => rfl
  | cons b r ih =>
    have hr := ih (fun i c hc => h (i + 1) c (by simpa using hc))
    cases b with
    | none => simpa [used_slots, entries] using hr
    | some c =>
      have hc := h 0 c (by simp)
      simp only [used_slots, entries, List.length_append, hr, hc]
      omega

/-- A good table of the test program's callbacks holding exactly the keys
`0 .. n - 1` has more than `n` buckets. -/
theorem range_buckets_gt {t : hashtable} (g : Good identity_hash keycmp_int t) {n : Nat}
    (hp : (entries t.buckets).Perm (chain_upto n)) : n < t.num_buckets := by
  by_contra hcon
  have hle : t.num_buckets ≤ n := by omega
  have hall : used_slots t.buckets = t.buckets.length := by
    apply used_all_slots
    intro i hi
    rw [g.inv.len] at hi
    have hmem : ({ k := i, v := i } : kv) ∈ entries t.buckets :=
      hp.mem_iff.mpr (mem_chain_upto.mpr ⟨by simp only; omega, rfl⟩)
    obtain ⟨j, c, hj, hc⟩ := mem_entries.mp hmem
    have hpl := (g.inv.place j c hj).2 _ hc
    rw [g.hash_eq] at hpl
    simp only [identity_hash, Nat.mod_eq_of_lt hi] at hpl
    rw [hpl, hj]
    rfl
  obtain ⟨j, hj, hnb⟩ := g.pow
  have hload := g.load t.num_used (le_refl _)
  rw [g.inv.used, hall, g.inv.len, hnb] at hload
  have : load_exceeded (2 ^ j) (2 ^ j) = true := by
    interval_cases j <;> decide
  rw [this] at hload
  cases hload

/-- In such a table every used bucket holds one entry, so `num_used` is the
number of entries. -/
theorem range_num_used {t : hashtable} (g : Good identity_hash keycmp_int t) {n : Nat}
    (hp : (entries t.buckets).Perm (chain_upto n)) : t.num_used = n := by
  have hlt := range_buckets_gt g hp
  rw [g.inv.used, used_eq_entries_of_singletons, hp.length_eq, chain_upto_length]
  intro i c hic
  have hkey : ∀ e ∈ c, e.k = i := by
    intro e he
    have hpl := (g.inv.place i c hic).2 e he
    have hin : e ∈ entries t.buckets := mem_entries.mpr ⟨i, c, hic, he⟩
    have hek := (mem_chain_upto.mp (hp.mem_iff.mp hin)).1
    rw [g.hash_eq] at hpl
    simp only [identity_hash] at hpl
    rw [Nat.mod_eq_of_lt (by omega)] at hpl
    exact hpl
  have hd : DistinctKeys keycmp_int c := by
    have := List.Pairwise.sublist (chain_sublist hic) g.inv.distinct
    rw [g.keycmp_eq] at this
    exact this
  match c, (g.inv.place i c hic).1, hkey, hd with
  | [a], _, _, _ => rfl
  | a :: b :: rest, _, hkey, hd =>
    exfalso
    have h1 := (List.pairwise_cons.mp hd).1 b (List.mem_cons_self _ _)
    rw [hkey a (List.mem_cons_self _ _),
      hkey b (List.mem_cons_of_mem _ (List.mem_cons_self _ _))] at h1
    simp [keycmp_int] at h1

/-- One round of the first loop of `test_resize` on a table that holds the
keys `0 .. n - 1`. -/
theorem range_step {t : hashtable} {n : Nat} (hr : Reachable identity_hash keycmp_int t)
    (hp : (entries t.buckets).Perm (chain_upto n)) (ht : TightFrom INITIAL_BUCKETS t)
    (hn : n < CAP_ENTRIES) :
    ∃ r, hashtable_put 24 t n n none = some r ∧
      (entries r.ht.buckets).Perm (chain_upto (n + 1)) ∧ TightFrom INITIAL_BUCKETS r.ht := by
  have g := reach_good (laws_int identity_hash) hr
  have lw := g.laws (laws_int identity_hash)
  have hlen : (entries t.buckets).length < CAP_ENTRIES := by
    rw [hp.length_eq, chain_upto_length]
    exact hn
  obtain ⟨r, hrun⟩ := put_total_reach (laws_int identity_hash) g hlen n n none
  have post := put_post 24 t n n none r lw g.inv hrun
  have hl : lookup t n = none := by
    rw [lookup_none_iff lw g.inv, g.keycmp_eq]
    intro e he
    have := (mem_chain_upto.mp (hp.mem_iff.mp he)).1
    simp only [keycmp_int, decide_eq_false_iff_not]
    omega
  obtain ⟨_, _, hperm⟩ := post.fresh hl
  refine ⟨r, hrun, ?_, put_tight 24 t n n none r _ lw g.inv g.pow ht hrun⟩
  rw [chain_upto_succ]
  exact hperm.trans ((List.Perm.cons _ hp).trans (List.perm_append_singleton _ _).symm)

theorem put_range_succ {fuel : Nat} {ht t : hashtable} {n : Nat} {r : put_result}
    (h1 : put_range fuel ht n = some t) (h2 : hashtable_put fuel t n n none = some r) :
    put_range fuel ht (n + 1) = some r.ht := by
  simp only [put_range, h1, h2]

/-- The first `n` rounds of the first loop of `test_resize` return while
`n ≤ CAP_ENTRIES` and leave a table holding the keys `0 .. n - 1`. -/
theorem range_state (n : Nat) (hn : n ≤ CAP_ENTRIES) :
    ∃ t, put_range 24 (hashtable_alloc identity_hash keycmp_int) n = some t ∧
      Reachable identity_hash keycmp_int t ∧
      (entries t.buckets).Perm (chain_upto n) ∧ TightFrom INITIAL_BUCKETS t := by
  induction n with
  | zero =>
    refine ⟨_, rfl, Reachable.alloc, ?_, Or.inl rfl⟩
    rw [List.length_eq_zero.mp (alloc_entries _ _)]
    exact List.Perm.refl _
  | succ n ih =>
    obtain ⟨t, h1, h2, h3, h4⟩ := ih (by omega)
    obtain ⟨r, h5, h6, h7⟩ := range_step h2 h3 h4 (by omega)
    exact ⟨r.ht, put_range_succ h1 h5, Reachable.put h2 h5, h6, h7⟩

theorem f32_round_near_threshold (m : Nat) (h : m ≤ 3 * 2 ^ 23 + 1) :
    f32_round m ≤ 3 * 2 ^ 23 := by
  by_cases hm : m = 3 * 2 ^ 23 + 1
  · rw [hm]
    decide
  · have hle : m ≤ 3 * 2 ^ 23 := by omega
    unfold f32_round
    have he : f32_shift 64 m ≤ 1 := f32_shift_le 64 m 1 (by norm_num at hle ⊢; omega)
    have hb : 3 * 2 ^ 23 = (3 * 2 ^ (23 - f32_shift 64 m)) * 2 ^ f32_shift 64 m := by
      rw [Nat.mul_assoc, ← Nat.pow_add]
      congr 2
      omega
    rw [hb]
    apply round_at_le
    rw [← hb]
    exact hle

/-- With `2 ^ 25` buckets or more the growth test fails for every occupancy
up to `3 * 2 ^ 23 + 1`. -/
theorem load_ok_large (m k : Nat) (hm : m ≤ 3 * 2 ^ 23 + 1) (hk : 25 ≤ k) (hk30 : k ≤ 30) :
    load_exceeded m (2 ^ k) = false := by
  unfold load_exceeded
  rw [threshold_pow k hk30]
  have h1 := f32_round_near_threshold m hm
  have h2 : (2 : Nat) ^ 25 ≤ 2 ^ k := Nat.pow_le_pow_right (by norm_num) hk
  simp only [decide_eq_false_iff_not, not_lt]
  omega

/-- Counterexample to C8 read in exact arithmetic. After the first
`25165825` rounds of the first loop of `test_resize` (keys `0 .. 25165824`
put in ascending order on a fresh table, identity hash) the last
`hashtable_put` has returned and left `33554432` buckets of which `25165825`
are used: the growth test of the code fails in `float` arithmetic, where
`25165825` is rounded to `25165824`, although `num_used` is above
`0.75 * num_buckets = 25165824`. -/
theorem load_bound_fails_exactly :
    ∃ t0 r, Reachable identity_hash keycmp_int t0 ∧
      hashtable_put 24 t0 25165824 25165824 none = some r ∧
      r.ht.num_buckets = 33554432 ∧ r.ht.num_used = 25165825 ∧
      load_exceeded r.ht.num_used r.ht.num_buckets = false ∧
      3 * r.ht.num_buckets < 4 * r.ht.num_used := by
  obtain ⟨t0, _, hr0, hp0, ht0⟩ := range_state 25165824 (by decide)
  obtain ⟨r, hrun, hp, htight⟩ := range_step hr0 hp0 ht0 (by decide)
  have g := reach_good (laws_int identity_hash) (Reachable.put hr0 hrun)
  have hnu : r.ht.num_used = 25165824 + 1 := range_num_used g hp
  have hgt : 25165824 + 1 < r.ht.num_buckets := range_buckets_gt g hp
  have hlen : (entries r.ht.buckets).length = 25165824 + 1 := by
    rw [hp.length_eq, chain_upto_length]
  obtain ⟨j, hj, hnb⟩ := g.pow
  have hj25 : 25 ≤ j := by
    by_contra hcon
    have : (2 : Nat) ^ j ≤ 2 ^ 24 := Nat.pow_le_pow_right (by norm_num) (by omega)
    rw [hnb] at hgt
    omega
  have hj26 : j < 26 := by
    by_contra hcon
    rcases htight with h64 | ⟨m, hm, hx⟩
    · rw [h64] at hgt
      exact absurd hgt (by decide)
    · have hhalf : r.ht.num_buckets / 2 = 2 ^ (j - 1) := by
        rw [hnb]
        have : j = (j - 1) + 1 := by omega
        rw [this, Nat.pow_succ, Nat.mul_div_cancel _ (by norm_num)]
        rfl
      rw [hhalf, load_ok_large m (j - 1) (by omega) (by omega) (by omega)] at hx
      cases hx
  have hj2 : j = 25 := by omega
  subst hj2
  have hload := g.load r.ht.num_used (le_refl _)
  refine ⟨t0, r, hr0, hrun, by rw [hnb]; rfl, hnu, hload, ?_⟩
  rw [hnb, hnu]
  decide


/-! ## More facts on the binary32 rounding -/

theorem f32_shift_ge (fuel : Nat) : ∀ n k, k ≤ fuel → 2 ^ (23 + k) ≤ n →
    k ≤ f32_shift fuel n := by
  induction fuel with
  | zero => intro n k hk _; omega
  | succ fuel ih =>
    intro n k hk hn
    cases k with
    | zero => exact Nat.zero_le _
    | succ k =>
      unfold f32_shift
      have h24 : ¬ n < 2 ^ 24 := by
        have : (2 : Nat) ^ 24 ≤ 2 ^ (23 + (k + 1)) := Nat.pow_le_pow_right (by norm_num) (by omega)
        omega
      rw [if_neg h24]
      have hhalf : 2 ^ (23 + k) ≤ n / 2 := by
        rw [Nat.le_div_iff_mul_le (by norm_num)]
        calc 2 ^ (23 + k) * 2 = 2 ^ (23 + (k + 1)) := by rw [← Nat.add_assoc, Nat.pow_succ]
          _ ≤ n := hn
      have := ih (n / 2) k (by omega) hhalf
      omega

/-- Rounding never falls below a multiple of the rounding unit that lies
below the argument. -/
theorem round_at_ge (e n b : Nat) (h : b * 2 ^ e ≤ n) : b * 2 ^ e ≤ round_at e n := by
  have hpos : 0 < 2 ^ e := by positivity
  have hq : b ≤ n / 2 ^ e := (Nat.le_div_iff_mul_le hpos).mpr h
  have h1 : b * 2 ^ e ≤ n / 2 ^ e * 2 ^ e := Nat.mul_le_mul_right _ hq
  have h2 : n / 2 ^ e * 2 ^ e ≤ (n / 2 ^ e + 1) * 2 ^ e :=
    Nat.mul_le_mul_right _ (Nat.le_succ _)
  unfold round_at
  simp only
  split_ifs
  · exact le_trans h1 h2
  · exact h1

/-- The `float` of an occupancy up to `CAP_USED` is at most `0.75 * 2 ^ 30`:
the values above it round down, the tie at `+ 32` to the even significand. -/
theorem f32_round_le_cap_used (m : Nat) (h : m ≤ CAP_USED) : f32_round m ≤ 3 * 2 ^ 28 := by
  by_cases hle : m ≤ 3 * 2 ^ 28
  · exact f32_round_le_cap m hle
  · unfold CAP_USED at h
    have h1 : f32_shift 64 m ≤ 6 := f32_shift_le 64 m 6 (by norm_num at h ⊢; omega)
    have h2 : 6 ≤ f32_shift 64 m := f32_shift_ge 64 m 6 (by norm_num) (by norm_num at hle ⊢; omega)
    have he : f32_shift 64 m = 6 := by omega
    unfold f32_round round_at
    rw [he]
    norm_num at h hle ⊢
    split_ifs <;> omega

theorem f32_round_ge_max (nb : Nat) (h1 : MAX_BUCKETS ≤ nb) (h2 : nb < UINT_RANGE) :
    2 ^ 30 ≤ f32_round nb ∧ f32_round nb ≤ 2 ^ 32 := by
  rw [max_buckets_eq] at h1
  rw [uint_range_eq] at h2
  have he : f32_shift 64 nb ≤ 8 := f32_shift_le 64 nb 8 (by norm_num; omega)
  have hb : 2 ^ 30 = (2 ^ (30 - f32_shift 64 nb)) * 2 ^ f32_shift 64 nb := by
    rw [← Nat.pow_add]
    congr 1
    omega
  have hc : 2 ^ 32 = (2 ^ (32 - f32_shift 64 nb)) * 2 ^ f32_shift 64 nb := by
    rw [← Nat.pow_add]
    congr 1
    omega
  unfold f32_round
  constructor
  · rw [hb]
    apply round_at_ge
    rw [← hb]
    norm_num
    exact h1
  · rw [hc]
    apply round_at_le
    rw [← hc]
    norm_num
    omega

theorem threshold_ge_max (nb : Nat) (h1 : MAX_BUCKETS ≤ nb) (h2 : nb < UINT_RANGE) :
    3 * 2 ^ 30 ≤ f32_round (3 * f32_round nb) := by
  obtain ⟨h3, h4⟩ := f32_round_ge_max nb h1 h2
  have he : f32_shift 64 (3 * f32_round nb) ≤ 10 :=
    f32_shift_le 64 _ 10 (by norm_num at h4 ⊢; omega)
  have hb : 3 * 2 ^ 30 = (3 * 2 ^ (30 - f32_shift 64 (3 * f32_round nb))) *
      2 ^ f32_shift 64 (3 * f32_round nb) := by
    rw [Nat.mul_assoc, ← Nat.pow_add]
    congr 2
    omega
  unfold f32_round at hb ⊢
  rw [hb]
  apply round_at_ge
  rw [← hb]
  have := h3
  unfold f32_round at this
  omega

/-- With `2 ^ 30` buckets or more the growth test fails up to `CAP_USED`
used buckets. -/
theorem load_ok_high (m nb : Nat) (h : m ≤ CAP_USED) (h1 : MAX_BUCKETS ≤ nb)
    (h2 : nb < UINT_RANGE) : load_exceeded m nb = false := by
  unfold load_exceeded
  have h3 := threshold_ge_max nb h1 h2
  have h4 := f32_round_le_cap_used m h
  simp only [decide_eq_false_iff_not, not_lt]
  omega

/-! ## Termination below the last growth threshold -/

theorem grow_target_eq (nb : Nat) (h : nb ≤ MAX_BUCKETS) :
    grow_target nb = min (2 * nb) MAX_BUCKETS := by
  unfold grow_target
  rw [uint_range_eq, max_buckets_eq] at *
  split_ifs <;> omega

/-- No rehash is asked for with `2 ^ 30` buckets or more while fewer than
`CAP_USED` entries are stored. -/
theorem no_grow_high {ht : hashtable} (inv : Inv ht) (key newvalue : Nat)
    (hnb : MAX_BUCKETS ≤ ht.num_buckets)
    (hlen : (entries ht.buckets).length < CAP_USED) : ¬ must_grow ht key newvalue := by
  rintro ⟨_, h2⟩
  have hnu := num_used_le_entries inv
  have hle : (ht.num_used + 1) % UINT_RANGE ≤ CAP_USED := by
    have := Nat.mod_le (ht.num_used + 1) UINT_RANGE
    omega
  rw [load_ok_high _ _ hle hnb inv.lt] at h2
  cases h2

/-- While at most `CAP_USED` entries are stored a returning `hashtable_put`
does not take the bucket count below a bound `low ≤ MAX_BUCKETS` it was
above. -/
theorem put_lower (fuel : Nat) : ∀ ht key newvalue oldvalue r low,
    KeyLaws ht.hash ht.keycmp → Inv ht → low ≤ MAX_BUCKETS →
    ((entries ht.buckets).length ≤ CAP_USED → low ≤ ht.num_buckets) →
    hashtable_put fuel ht key newvalue oldvalue = some r →
    (entries r.ht.buckets).length ≤ CAP_USED → low ≤ r.ht.num_buckets := by
  induction fuel with
  | zero =>
    intro ht key newvalue oldvalue r low laws inv _ hlow hrun hlen
    have post := put_post 0 ht key newvalue oldvalue r laws inv hrun
    cases hl : lookup ht key with
    | some e =>
      obtain ⟨_, _, hnb, _, _, others, hp1, hp2⟩ := post.found e hl
      rw [hnb]
      exact hlow (by
        have h1 := hp1.length_eq
        have h2 := hp2.length_eq
        simp only [List.length_cons] at h1 h2
        omega)
    | none =>
      by_cases hg : must_grow ht key newvalue
      · rw [put_eq_grow_zero hl hg] at hrun
        cases hrun
      · obtain ⟨_, _, hperm⟩ := post.fresh hl
        have hl2 := hperm.length_eq
        simp only [List.length_cons] at hl2
        rw [put_eq_plain hl hg] at hrun
        cases hrun
        exact hlow (by
          have : (entries (tbl_insert ht key newvalue).buckets).length ≤ CAP_USED := hlen
          have h3 := (tbl_insert_perm inv key newvalue).length_eq
          simp only [List.length_cons] at h3
          omega)
  | succ fuel ih =>
    intro ht key newvalue oldvalue r low laws inv hmax hlow hrun hlen
    have post := put_post (fuel + 1) ht key newvalue oldvalue r laws inv hrun
    cases hl : lookup ht key with
    | some e =>
      obtain ⟨_, _, hnb, _, _, others, hp1, hp2⟩ := post.found e hl
      rw [hnb]
      exact hlow (by
        have h1 := hp1.length_eq
        have h2 := hp2.length_eq
        simp only [List.length_cons] at h1 h2
        omega)
    | none =>
      obtain ⟨_, _, hperm⟩ := post.fresh hl
      have hl2 := hperm.length_eq
      simp only [List.length_cons] at hl2
      have hlt : (entries ht.buckets).length < CAP_USED := by omega
      have hnb0 := hlow (by omega)
      by_cases hg : must_grow ht key newvalue
      · have hsmall : ht.num_buckets < MAX_BUCKETS := by
          by_contra hcon
          exact no_grow_high inv key newvalue (by omega) hlt hg
        have htgt := grow_target_eq ht.num_buckets (by omega)
        have hpos : grow_target ht.num_buckets ≠ 0 := by
          rw [htgt]
          have := inv.pos
          rw [max_buckets_eq]
          omega
        rw [put_eq_grow_succ hl hg] at hrun
        cases hrs : resize fuel (tbl_insert ht key newvalue) (grow_target ht.num_buckets) with
        | none => simp [hrs] at hrun
        | some ht3 =>
          rw [hrs] at hrun
          cases hrun
          have hlen3 : (entries ht3.buckets).length ≤ CAP_USED := hlen
          have inv1 := inv_tbl_insert laws inv newvalue hl
          unfold resize at hrs
          rw [resize_with_eq _ inv1 hpos] at hrs
          have hkeep := rehash_chain_keep (put_post fuel)
            (fun t => (entries t.buckets).length ≤ CAP_USED →
              grow_target ht.num_buckets ≤ t.num_buckets)
            (fun t k v o r2 lw iv hq hp =>
              ih t k v o r2 _ lw iv (by rw [htgt]; exact Nat.min_le_right _ _) hq hp)
            _ (fresh_tbl (tbl_insert ht key newvalue) (grow_target ht.num_buckets)) ht3
            laws (inv_fresh_tbl _ (Nat.pos_of_ne_zero hpos) (grow_target_lt _))
            inv1.distinct (by simp [fresh_tbl_entries]) hrs (fun _ => le_refl _)
          have h3 := hkeep hlen3
          show low ≤ ht3.num_buckets
          rw [htgt] at h3
          have : low ≤ min (2 * ht.num_buckets) MAX_BUCKETS := by
            rw [Nat.le_min]
            exact ⟨by omega, hmax⟩
          omega
      · rw [put_eq_plain hl hg] at hrun
        cases hrun
        exact hnb0

/-- The loop of `resize` returns when every insertion does. -/
theorem rehash_chain_total_any {put : hashtable → Nat → Nat → Option Nat → Option put_result}
    (spec : PutSpec put) (d : Nat)
    (total : ∀ ht key newvalue oldvalue, KeyLaws ht.hash ht.keycmp → Inv ht →
      MAX_BUCKETS ≤ ht.num_buckets * 2 ^ d →
      (entries ht.buckets).length < CAP_USED → ∃ r, put ht key newvalue oldvalue = some r)
    (lower : ∀ ht key newvalue oldvalue r low, KeyLaws ht.hash ht.keycmp → Inv ht →
      low ≤ MAX_BUCKETS → ((entries ht.buckets).length ≤ CAP_USED → low ≤ ht.num_buckets) →
      put ht key newvalue oldvalue = some r →
      (entries r.ht.buckets).length ≤ CAP_USED → low ≤ r.ht.num_buckets)
    (es : linkedlist) (t : hashtable)
    (laws : KeyLaws t.hash t.keycmp) (inv : Inv t)
    (hw : MAX_BUCKETS ≤ t.num_buckets * 2 ^ d)
    (hlen : (entries t.buckets).length + es.length ≤ CAP_USED)
    (hd : DistinctKeys t.keycmp es)
    (hnew : ∀ e ∈ es, ∀ x ∈ entries t.buckets, t.keycmp e.k x.k = false) :
    ∃ t2, rehash_chain put t es = some t2 := by
  induction es generalizing t with
  | nil => exact ⟨t, rfl⟩
  | cons e rest ih =>
    simp only [List.length_cons] at hlen
    obtain ⟨r, hput⟩ := total t e.k e.v none laws inv hw (by omega)
    have post := spec t e.k e.v none r laws inv hput
    have hnone : lookup t e.k = none :=
      (lookup_none_iff laws inv).mpr (hnew e (List.mem_cons_self _ _))
    obtain ⟨_, _, hperm⟩ := post.fresh hnone
    have hperm : (entries r.ht.buckets).Perm (e :: entries t.buckets) := hperm
    have laws2 : KeyLaws r.ht.hash r.ht.keycmp := by
      rw [post.hash_eq, post.keycmp_eq]
      exact laws
    have hd2 := List.pairwise_cons.mp hd
    have hl2 := hperm.length_eq
    simp only [List.length_cons] at hl2
    have hlow := lower t e.k e.v none r (min t.num_buckets MAX_BUCKETS) laws inv
      (Nat.min_le_right _ _) (fun _ => Nat.min_le_left _ _) hput (by omega)
    have hw2 : MAX_BUCKETS ≤ r.ht.num_buckets * 2 ^ d := by
      have hpow : 1 ≤ 2 ^ d := Nat.one_le_two_pow
      rcases Nat.le_total t.num_buckets MAX_BUCKETS with hc | hc
      · rw [Nat.min_eq_left hc] at hlow
        exact le_trans hw (Nat.mul_le_mul_right _ hlow)
      · rw [Nat.min_eq_right hc] at hlow
        calc MAX_BUCKETS = MAX_BUCKETS * 1 := (Nat.mul_one _).symm
          _ ≤ r.ht.num_buckets * 2 ^ d := Nat.mul_le_mul hlow hpow
    obtain ⟨t2, ht2⟩ := ih r.ht laws2 post.inv hw2 (by omega)
      (by rw [post.keycmp_eq]; exact hd2.2)
      (by
        intro y hy x hx
        rw [post.keycmp_eq]
        rcases List.mem_cons.mp (hperm.mem_iff.mp hx) with hx | hx
        · subst hx
          exact distinct_symm laws (hd2.1 y hy)
        · exact hnew y (List.mem_cons_of_mem _ hy) x hx)
    exact ⟨t2, by simp only [rehash_chain, hput, ht2]⟩

/-- With fuel `d`, `hashtable_put` returns on every table that satisfies the
invariant, has at least `2 ^ (30 - d)` buckets and holds fewer than
`CAP_USED` entries. -/
theorem put_total_any (d : Nat) : ∀ ht key newvalue oldvalue, KeyLaws ht.hash ht.keycmp →
    Inv ht → MAX_BUCKETS ≤ ht.num_buckets * 2 ^ d →
    (entries ht.buckets).length < CAP_USED →
    ∃ r, hashtable_put d ht key newvalue oldvalue = some r := by
  induction d with
  | zero =>
    intro ht key newvalue oldvalue laws inv hw hlen
    cases hl : lookup ht key with
    | some e => exact ⟨_, put_eq_found hl⟩
    | none =>
      exact ⟨_, put_eq_plain hl (no_grow_high inv key newvalue (by simpa using hw) hlen)⟩
  | succ d ih =>
    intro ht key newvalue oldvalue laws inv hw hlen
    cases hl : lookup ht key with
    | some e => exact ⟨_, put_eq_found hl⟩
    | none =>
      by_cases hg : must_grow ht key newvalue
      · have hsmall : ht.num_buckets < MAX_BUCKETS := by
          by_contra hcon
          exact no_grow_high inv key newvalue (by omega) hlen hg
        have htgt := grow_target_eq ht.num_buckets (by omega)
        have hpos : grow_target ht.num_buckets ≠ 0 := by
          rw [htgt]
          have := inv.pos
          rw [max_buckets_eq]
          omega
        have hw2 : MAX_BUCKETS ≤ grow_target ht.num_buckets * 2 ^ d := by
          rw [htgt]
          have hpow : 1 ≤ 2 ^ d := Nat.one_le_two_pow
          rcases Nat.le_total (2 * ht.num_buckets) MAX_BUCKETS with hc | hc
          · rw [Nat.min_eq_left hc]
            calc MAX_BUCKETS ≤ ht.num_buckets * 2 ^ (d + 1) := hw
              _ = 2 * ht.num_buckets * 2 ^ d := by rw [Nat.pow_succ]; ring
          · rw [Nat.min_eq_right hc]
            calc MAX_BUCKETS = MAX_BUCKETS * 1 := (Nat.mul_one _).symm
              _ ≤ MAX_BUCKETS * 2 ^ d := Nat.mul_le_mul_left _ hpow
        have inv1 := inv_tbl_insert laws inv newvalue hl
        have hperm := (tbl_insert_perm inv key newvalue).length_eq
        simp only [List.length_cons] at hperm
        have hrs : ∃ ht3, resize d (tbl_insert ht key newvalue)
            (grow_target ht.num_buckets) = some ht3 := by
          unfold resize
          rw [resize_with_eq _ inv1 hpos]
          refine rehash_chain_total_any (put_post d) d ih (put_lower d) _ _ laws
            (inv_fresh_tbl _ (Nat.pos_of_ne_zero hpos) (grow_target_lt _)) hw2 ?_
            inv1.distinct (by simp [fresh_tbl_entries])
          rw [fresh_tbl_entries]
          simp only [List.length_nil]
          omega
        obtain ⟨ht3, h3⟩ := hrs
        exact ⟨_, by rw [put_eq_grow_succ hl hg, h3]⟩
      · exact ⟨_, put_eq_plain hl hg⟩

/-- On a reachable table holding fewer than `CAP_USED` entries
`hashtable_put` returns with fuel 24. -/
theorem put_total_reach_any {hash : Nat → Nat} {keycmp : Nat → Nat → Bool}
    (laws : KeyLaws hash keycmp) {ht : hashtable} (g : Good hash keycmp ht)
    (hlen : (entries ht.buckets).length < CAP_USED) (key newvalue : Nat)
    (oldvalue : Option Nat) : ∃ r, hashtable_put 24 ht key newvalue oldvalue = some r := by
  refine put_total_any 24 ht key newvalue oldvalue (g.laws laws) g.inv ?_ hlen
  have := g.nb_ge
  unfold INITIAL_BUCKETS at this
  rw [max_buckets_eq]
  omega

/-- With fuel 30, `resize` returns for every bucket count on a table that
satisfies the invariant and holds at most `CAP_USED` entries. -/
theorem resize_total {ht : hashtable} (laws : KeyLaws ht.hash ht.keycmp) (inv : Inv ht)
    (n : Nat) (hn : n < UINT_RANGE) (hlen : (entries ht.buckets).length ≤ CAP_USED) :
    ∃ ht2, resize 30 ht n = some ht2 := by
  have hn1 : (if n = 0 then 1 else n) ≠ 0 := by split_ifs <;> omega
  have hn2 : (if n = 0 then 1 else n) < UINT_RANGE := by
    rw [uint_range_eq] at *
    split_ifs <;> omega
  have heq : resize 30 ht n = resize 30 ht (if n = 0 then 1 else n) := by
    unfold resize resize_with
    split_ifs <;> simp_all
  rw [heq]
  unfold resize
  rw [resize_with_eq _ inv hn1]
  refine rehash_chain_total_any (put_post 30) 30 (put_total_any 30) (put_lower 30) _ _ laws
    (inv_fresh_tbl _ (Nat.pos_of_ne_zero hn1) hn2) ?_ ?_ inv.distinct
    (by simp [fresh_tbl_entries])
  · show MAX_BUCKETS ≤ (if n = 0 then 1 else n) * 2 ^ 30
    have : 1 ≤ (if n = 0 then 1 else n) := Nat.pos_of_ne_zero hn1
    calc MAX_BUCKETS = 1 * 2 ^ 30 := by unfold MAX_BUCKETS; ring
      _ ≤ (if n = 0 then 1 else n) * 2 ^ 30 := Nat.mul_le_mul_right _ this
  · rw [fresh_tbl_entries]
    simpa using hlen

/-! ## A put that does not return -/

theorem spread_laws {t : hashtable} (s : Spread t) : KeyLaws t.hash t.keycmp := by
  rw [s.hash_eq, s.keycmp_eq]
  exact laws_int _

/-- In a spread table a key below the bucket count that is not stored hashes
to an empty bucket. -/
theorem spread_bucket_empty {t : hashtable} (s : Spread t) {key : Nat}
    (hk : key < MAX_BUCKETS) (hl : lookup t key = none) :
    bucket_at t (t.hash key % t.num_buckets) = none := by
  cases hb : bucket_at t (t.hash key % t.num_buckets) with
  | none => rfl
  | some c =>
    exfalso
    obtain ⟨hne, hpl⟩ := s.inv.place _ c hb
    obtain ⟨e, he⟩ := List.exists_mem_of_ne_nil c hne
    have hin : e ∈ entries t.buckets := mem_entries.mpr ⟨_, c, hb, he⟩
    have h1 := hpl e he
    have h2 := s.small e hin
    rw [s.hash_eq, s.nb_eq] at h1
    simp only [identity_hash, Nat.mod_eq_of_lt hk, Nat.mod_eq_of_lt h2] at h1
    have h3 := (lookup_none_iff (spread_laws s) s.inv).mp hl e hin
    rw [s.keycmp_eq, h1] at h3
    simp [keycmp_int] at h3

/-- In a spread table every used bucket holds one entry. -/
theorem spread_num_used {t : hashtable} (s : Spread t) :
    t.num_used = (entries t.buckets).length := by
  rw [s.inv.used, used_eq_entries_of_singletons]
  intro i c hic
  have hkey : ∀ e ∈ c, e.k = i := by
    intro e he
    have hpl := (s.inv.place i c hic).2 e he
    have hin : e ∈ entries t.buckets := mem_entries.mpr ⟨i, c, hic, he⟩
    have hek := s.small e hin
    rw [s.hash_eq, s.nb_eq] at hpl
    simp only [identity_hash, Nat.mod_eq_of_lt hek] at hpl
    exact hpl
  have hd : DistinctKeys keycmp_int c := by
    have := List.Pairwise.sublist (chain_sublist hic) s.inv.distinct
    rw [s.keycmp_eq] at this
    exact this
  match c, (s.inv.place i c hic).1, hkey, hd with
  | [a], _, _, _ => rfl
  | a :: b :: rest, _, hkey, hd =>
    exfalso
    have h1 := (List.pairwise_cons.mp hd).1 b (List.mem_cons_self _ _)
    rw [hkey a (List.mem_cons_self _ _),
      hkey b (List.mem_cons_of_mem _ (List.mem_cons_self _ _))] at h1
    simp [keycmp_int] at h1

theorem spread_insert {t : hashtable} (s : Spread t) {key : Nat} (newvalue : Nat)
    (hk : key < MAX_BUCKETS) (hl : lookup t key = none) :
    Spread (tbl_insert t key newvalue) := by
  refine ⟨inv_tbl_insert (spread_laws s) s.inv newvalue hl, s.hash_eq, s.keycmp_eq, s.nb_eq, ?_⟩
  intro e he
  rcases List.mem_cons.mp ((tbl_insert_perm s.inv key newvalue).mem_iff.mp he) with h | h
  · rw [h]
    exact hk
  · exact s.small e h

theorem spread_fresh (t : hashtable) (s : Spread t) : Spread (fresh_tbl t MAX_BUCKETS) := by
  refine ⟨inv_fresh_tbl t (by decide) (by decide), s.hash_eq, s.keycmp_eq, rfl, ?_⟩
  intro e he
  rw [fresh_tbl_entries] at he
  cases he

/-- Below `CAP_USED` entries a put of a new key into a spread table inserts
without a rehash. -/
theorem spread_put_plain {t : hashtable} (s : Spread t) (fuel : Nat) {key : Nat}
    (newvalue : Nat) (hl : lookup t key = none)
    (hlen : (entries t.buckets).length < CAP_USED) :
    hashtable_put fuel t key newvalue none =
      some { ht := tbl_insert t key newvalue, replaced := false, oldvalue := none } :=
  put_eq_plain hl (no_grow_high s.inv key newvalue (by rw [s.nb_eq]) hlen)

theorem load_exceeded_past_cap : load_exceeded (CAP_USED + 1) MAX_BUCKETS = true := by
  decide

/-- At `CAP_USED` entries a put of a new key into a spread table asks for a
rehash. -/
theorem spread_must_grow {t : hashtable} (s : Spread t) {key : Nat} (newvalue : Nat)
    (hk : key < MAX_BUCKETS) (hl : lookup t key = none)
    (hlen : (entries t.buckets).length = CAP_USED) : must_grow t key newvalue := by
  refine ⟨(ins_chain_length_one s.inv key newvalue).mpr (spread_bucket_empty s hk hl), ?_⟩
  rw [spread_num_used s, hlen, s.nb_eq]
  have : (CAP_USED + 1) % UINT_RANGE = CAP_USED + 1 := by decide
  rw [this]
  exact load_exceeded_past_cap

/-- The loop of `resize` into a spread table does not return when it is to
insert more than `CAP_USED` entries in all and the insertion routine does not
return at `CAP_USED` entries. -/
theorem spread_loop_none {put : hashtable → Nat → Nat → Option Nat → Option put_result}
    (hplain : ∀ t key newvalue, Spread t → lookup t key = none →
      (entries t.buckets).length < CAP_USED →
      put t key newvalue none =
        some { ht := tbl_insert t key newvalue, replaced := false, oldvalue := none })
    (hstuck : ∀ t key newvalue, Spread t → key < MAX_BUCKETS → lookup t key = none →
      (entries t.buckets).length = CAP_USED → put t key newvalue none = none)
    (es : linkedlist) (t : hashtable) (s : Spread t)
    (hd : DistinctKeys keycmp_int es) (hsmall : ∀ e ∈ es, e.k < MAX_BUCKETS)
    (hnew : ∀ e ∈ es, ∀ x ∈ entries t.buckets, keycmp_int e.k x.k = false)
    (hle : (entries t.buckets).length ≤ CAP_USED)
    (hgt : CAP_USED < (entries t.buckets).length + es.length) :
    rehash_chain put t es = none := by
  induction es generalizing t with
  | nil =>
    simp only [List.length_nil] at hgt
    omega
  | cons e rest ih =>
    have hl : lookup t e.k = none := by
      rw [lookup_none_iff (spread_laws s) s.inv, s.keycmp_eq]
      exact hnew e (List.mem_cons_self _ _)
    have hd2 := List.pairwise_cons.mp hd
    simp only [List.length_cons] at hgt
    by_cases hlt : (entries t.buckets).length < CAP_USED
    · simp only [rehash_chain, hplain t e.k e.v s hl hlt]
      have hperm := tbl_insert_perm s.inv e.k e.v
      have hl2 := hperm.length_eq
      simp only [List.length_cons] at hl2
      refine ih _ (spread_insert s e.v (hsmall e (List.mem_cons_self _ _)) hl) hd2.2
        (fun x hx => hsmall x (List.mem_cons_of_mem _ hx)) ?_ (by omega) (by omega)
      intro y hy x hx
      rcases List.mem_cons.mp (hperm.mem_iff.mp hx) with hx | hx
      · subst hx
        exact distinct_symm (laws_int identity_hash) (hd2.1 y hy)
      · exact hnew y (List.mem_cons_of_mem _ hy) x hx
    · simp only [rehash_chain,
        hstuck t e.k e.v s (hsmall e (List.mem_cons_self _ _)) hl (by omega)]

/-- At `CAP_USED` entries a put of a new key below the bucket count into a
spread table returns at no fuel: every rehash to `2 ^ 30` buckets asks for
the next one. -/
theorem spread_put_none (fuel : Nat) : ∀ t key newvalue, Spread t → key < MAX_BUCKETS →
    lookup t key = none → (entries t.buckets).length = CAP_USED →
    hashtable_put fuel t key newvalue none = none := by
  induction fuel with
  | zero =>
    intro t key newvalue s hk hl hlen
    exact put_eq_grow_zero hl (spread_must_grow s newvalue hk hl hlen)
  | succ fuel ih =>
    intro t key newvalue s hk hl hlen
    rw [put_eq_grow_succ hl (spread_must_grow s newvalue hk hl hlen)]
    have s1 := spread_insert s newvalue hk hl
    have htgt : grow_target t.num_buckets = MAX_BUCKETS := by
      rw [s.nb_eq]
      decide
    have hperm := (tbl_insert_perm s.inv key newvalue).length_eq
    simp only [List.length_cons] at hperm
    have hnone : resize fuel (tbl_insert t key newvalue) (grow_target t.num_buckets) = none := by
      rw [htgt]
      unfold resize
      rw [resize_with_eq _ s1.inv (by decide)]
      have hd := s1.inv.distinct
      rw [s1.keycmp_eq] at hd
      refine spread_loop_none (fun t2 k v s2 hl2 hlen2 => spread_put_plain s2 fuel v hl2 hlen2)
        (fun t2 k v s2 hk2 hl2 hlen2 => ih t2 k v s2 hk2 hl2 hlen2) _ _
        (spread_fresh _ s1) hd s1.small ?_ ?_ ?_
      · intro e _ x hx
        rw [fresh_tbl_entries] at hx
        cases hx
      · rw [fresh_tbl_entries]
        exact Nat.zero_le _
      · rw [fresh_tbl_entries]
        simp only [List.length_nil]
        omega
    rw [hnone]

/-- One round of the first loop of `test_resize` on a table that holds the
keys `0 .. n - 1`, for `n` below `CAP_USED`. -/
theorem range_step_any {t : hashtable} {n : Nat} (hr : Reachable identity_hash keycmp_int t)
    (hp : (entries t.buckets).Perm (chain_upto n)) (hn : n < CAP_USED) :
    ∃ r, hashtable_put 24 t n n none = some r ∧
      (entries r.ht.buckets).Perm (chain_upto (n + 1)) := by
  have g := reach_good (laws_int identity_hash) hr
  have lw := g.laws (laws_int identity_hash)
  have hlen : (entries t.buckets).length < CAP_USED := by
    rw [hp.length_eq, chain_upto_length]
    exact hn
  obtain ⟨r, hrun⟩ := put_total_reach_any (laws_int identity_hash) g hlen n n none
  have post := put_post 24 t n n none r lw g.inv hrun
  have hl : lookup t n = none := by
    rw [lookup_none_iff lw g.inv, g.keycmp_eq]
    intro e he
    have := (mem_chain_upto.mp (hp.mem_iff.mp he)).1
    simp only [keycmp_int, decide_eq_false_iff_not]
    omega
  obtain ⟨_, _, hperm⟩ := post.fresh hl
  refine ⟨r, hrun, ?_⟩
  rw [chain_upto_succ]
  exact hperm.trans ((List.Perm.cons _ hp).trans (List.perm_append_singleton _ _).symm)

/-- The first `n` rounds of the first loop of `test_resize` return while
`n ≤ CAP_USED` and leave a table holding the keys `0 .. n - 1`. -/
theorem range_state_any (n : Nat) (hn : n ≤ CAP_USED) :
    ∃ t, put_range 24 (hashtable_alloc identity_hash keycmp_int) n = some t ∧
      Reachable identity_hash keycmp_int t ∧
      (entries t.buckets).Perm (chain_upto n) := by
  induction n with
  | zero =>
    refine ⟨_, rfl, Reachable.alloc, ?_⟩
    rw [List.length_eq_zero.mp (alloc_entries _ _)]
    exact List.Perm.refl _
  | succ n ih =>
    obtain ⟨t, h1, h2, h3⟩ := ih (by omega)
    obtain ⟨r, h5, h6⟩ := range_step_any h2 h3 (by omega)
    exact ⟨r.ht, put_range_succ h1 h5, Reachable.put h2 h5, h6⟩

/-- The table after `CAP_USED` rounds of the first loop of `test_resize` is
spread: it has `2 ^ 30` buckets and `CAP_USED` of them are used. -/
theorem range_spread {t : hashtable} (hr : Reachable identity_hash keycmp_int t)
    (hp : (entries t.buckets).Perm (chain_upto CAP_USED)) : Spread t := by
  have g := reach_good (laws_int identity_hash) hr
  have hgt := range_buckets_gt g hp
  obtain ⟨j, hj, hnb⟩ := g.pow
  have hj30 : j = 30 := by
    by_contra hcon
    have : (2 : Nat) ^ j ≤ 2 ^ 29 := Nat.pow_le_pow_right (by norm_num) (by omega)
    rw [hnb] at hgt
    unfold CAP_USED at hgt
    norm_num at hgt this
    omega
  subst hj30
  refine ⟨g.inv, g.hash_eq, g.keycmp_eq, hnb, ?_⟩
  intro e he
  have := (mem_chain_upto.mp (hp.mem_iff.mp he)).1
  unfold CAP_USED at this
  unfold MAX_BUCKETS
  omega

/-! ## The claims on growth, rehash and termination -/

theorem cap_used_eq : CAP_USED = 805306400 := by decide

/-- C13, the failing input. After the puts of the keys `0 .. 805306399` in
ascending order on a fresh table of the test program (identity hash), every
put has returned and the table has `2 ^ 30` buckets of which
`805306400 = 0.75 * 2 ^ 30 + 32` are used. The put of the new key
`805306400` then returns at no fuel: it asks for a rehash to `2 ^ 30`
buckets, and every such rehash asks for the next one when it re-inserts the
last entry. -/
theorem put_never_returns_at_cap :
    ∃ t, put_range 24 (hashtable_alloc identity_hash keycmp_int) 805306400 = some t ∧
      Reachable identity_hash keycmp_int t ∧
      t.num_buckets = 1073741824 ∧ t.num_used = 805306400 ∧
      hashtable_contains t 805306400 = false ∧
      ∀ fuel, hashtable_put fuel t 805306400 805306400 none = none := by
  obtain ⟨t, h1, h2, h3⟩ := range_state_any CAP_USED (le_refl _)
  have s := range_spread h2 h3
  have hlen : (entries t.buckets).length = CAP_USED := by
    rw [h3.length_eq, chain_upto_length]
  have hl : lookup t CAP_USED = none := by
    rw [lookup_none_iff (spread_laws s) s.inv, s.keycmp_eq]
    intro e he
    have := (mem_chain_upto.mp (h3.mem_iff.mp he)).1
    simp only [keycmp_int, decide_eq_false_iff_not]
    omega
  have hnu := spread_num_used s
  have hnb := s.nb_eq
  have hnone := fun fuel => spread_put_none fuel t CAP_USED CAP_USED s (by decide) hl hlen
  have hc : hashtable_contains t CAP_USED = false := by
    rw [hashtable_contains_eq, hl]
    rfl
  rw [hlen] at hnu
  rw [max_buckets_eq] at hnb
  rw [cap_used_eq] at h1 hnu hc hnone
  exact ⟨t, h1, h2, hnb, hnu, hc, hnone⟩

set_option maxRecDepth 100000 in
theorem nested_growth_checked : nested_growth_check = true := by decide!

/-- The run behind the nested rehash: the table left by `paired_calls` and the
put of key `48` on it. -/
theorem nested_growth_run :
    ∃ t r, run_calls 0 (hashtable_alloc identity_hash keycmp_int) paired_calls = some t ∧
      Reachable identity_hash keycmp_int t ∧ t.num_buckets = 64 ∧
      hashtable_contains t 48 = false ∧ bucket_at t (t.hash 48 % t.num_buckets) = none ∧
      load_exceeded (t.num_used + 1) t.num_buckets = true ∧
      hashtable_put 2 t 48 48 none = some r ∧ r.ht.num_buckets = 256 := by
  have h := nested_growth_checked
  unfold nested_growth_check at h
  cases hrun : run_calls 0 (hashtable_alloc identity_hash keycmp_int) paired_calls with
  | none =>
    rw [hrun] at h
    cases h
  | some t =>
    rw [hrun] at h
    dsimp only at h
    cases hput : hashtable_put 2 t 48 48 none with
    | none =>
      rw [hput] at h
      simp at h
    | some r =>
      rw [hput] at h
      simp only [Bool.and_eq_true, decide_eq_true_eq, Bool.not_eq_true',
        Option.isNone_iff_eq_none] at h
      exact ⟨t, r, rfl, run_calls_reach 0 _ _ t Reachable.alloc hrun, h.1.1.1.1, h.1.1.1.2,
        h.1.1.2, h.1.2, hput, h.2⟩

/-- Counterexample to C11 as stated. On the reachable table left by
`paired_calls` (64 buckets, 48 of them used, 96 entries) the put of key `48`
inserts a new key into an empty bucket and `num_used` then exceeds
`0.75 * 64`; the put returns with 256 buckets, not with
`min(2 * 64, 2 ^ 30) = 128`: re-inserting the 97 entries into 128 buckets
exceeds `0.75 * 128` and rehashes again. -/
theorem growth_can_nest :
    ∃ t r, run_calls 0 (hashtable_alloc identity_hash keycmp_int) paired_calls = some t ∧
      Reachable identity_hash keycmp_int t ∧ t.num_buckets = 64 ∧
      hashtable_contains t 48 = false ∧ bucket_at t (t.hash 48 % t.num_buckets) = none ∧
      load_exceeded (t.num_used + 1) t.num_buckets = true ∧
      hashtable_put 2 t 48 48 none = some r ∧ r.ht.num_buckets = 256 :=
  nested_growth_run

theorem good_nb_le {hash : Nat → Nat} {keycmp : Nat → Nat → Bool} {ht : hashtable}
    (g : Good hash keycmp ht) : ht.num_buckets ≤ MAX_BUCKETS := by
  obtain ⟨j, hj, hnb⟩ := g.pow
  rw [hnb]
  exact Nat.pow_le_pow_right (by norm_num) hj

theorem good_must_grow_iff {hash : Nat → Nat} {keycmp : Nat → Nat → Bool} {ht : hashtable}
    (g : Good hash keycmp ht) (key newvalue : Nat) :
    must_grow ht key newvalue ↔
      (bucket_at ht (ht.hash key % ht.num_buckets) = none ∧
        load_exceeded (ht.num_used + 1) ht.num_buckets = true) := by
  have h1 := good_nb_le g
  have h2 : ht.num_used ≤ ht.num_buckets := by
    rw [g.inv.used, ← g.inv.len]
    exact used_slots_le _
  have h3 : (ht.num_used + 1) % UINT_RANGE = ht.num_used + 1 := by
    apply Nat.mod_eq_of_lt
    rw [max_buckets_eq] at h1
    rw [uint_range_eq]
    omega
  unfold must_grow
  rw [h3, ins_chain_length_one g.inv key newvalue]

theorem lookup_none_of_contains {ht : hashtable} {key : Nat}
    (h : hashtable_contains ht key = false) : lookup ht key = none := by
  rw [hashtable_contains_eq] at h
  cases hl : lookup ht key with
  | none => rfl
  | some e =>
    rw [hl] at h
    cases h

/-- A returning put that rehashes leaves a power of two of buckets, at least
the bucket count it asked for; exactly that count when the growth test fails
there for every occupancy the entries can produce. -/
theorem grow_result {hash : Nat → Nat} {keycmp : Nat → Nat → Bool}
    (laws : KeyLaws hash keycmp) {ht : hashtable} (g : Good hash keycmp ht)
    {fuel key newvalue : Nat} {oldvalue : Option Nat} {r : put_result}
    (hrun : hashtable_put fuel ht key newvalue oldvalue = some r)
    (hl : lookup ht key = none) (hg : must_grow ht key newvalue) :
    PowOK r.ht ∧ min (2 * ht.num_buckets) MAX_BUCKETS ≤ r.ht.num_buckets ∧
      ((∀ m, m ≤ (entries ht.buckets).length + 1 →
          load_exceeded m (min (2 * ht.num_buckets) MAX_BUCKETS) = false) →
        r.ht.num_buckets = min (2 * ht.num_buckets) MAX_BUCKETS) := by
  have lw := g.laws laws
  have post := put_post fuel ht key newvalue oldvalue r lw g.inv hrun
  have htight := put_tight fuel ht key newvalue oldvalue r ht.num_buckets lw g.inv g.pow
    (Or.inl rfl) hrun
  obtain ⟨_, _, hperm⟩ := post.fresh hl
  have hlen := hperm.length_eq
  simp only [List.length_cons] at hlen
  have hnbmax := good_nb_le g
  have htgt := grow_target_eq ht.num_buckets hnbmax
  obtain ⟨j, hj, hnb⟩ := g.pow
  have hgp := grow_target_pow j hj
  rw [← hnb, htgt] at hgp
  have hlow : min (2 * ht.num_buckets) MAX_BUCKETS ≤ r.ht.num_buckets := by
    cases fuel with
    | zero =>
      rw [put_eq_grow_zero hl hg] at hrun
      cases hrun
    | succ fuel =>
      rw [put_eq_grow_succ hl hg] at hrun
      cases hrs : resize fuel (tbl_insert ht key newvalue) (grow_target ht.num_buckets) with
      | none => simp [hrs] at hrun
      | some ht3 =>
        rw [hrs] at hrun
        cases hrun
        have hres := resize_post fuel (tbl_insert ht key newvalue) _ ht3 lw
          (inv_tbl_insert lw g.inv newvalue hl) (grow_target_lt _) hrs
        have := (hres.pow ⟨min (j + 1) 30, by omega, by rw [htgt]; exact hgp⟩).2
        rw [htgt] at this
        exact this
  have hpow := (post.pow g.pow).1
  refine ⟨hpow, hlow, fun hok => ?_⟩
  obtain ⟨j2, hj2, hnb2⟩ := hpow
  rw [hgp] at hlow hok ⊢
  rw [hnb2] at hlow
  have hjle : min (j + 1) 30 ≤ j2 := (Nat.pow_le_pow_iff_right (by norm_num)).mp hlow
  by_contra hne
  have hlt : min (j + 1) 30 < j2 := by
    rcases Nat.lt_or_ge (min (j + 1) 30) j2 with h | h
    · exact h
    · exfalso
      apply hne
      rw [hnb2]
      congr 1
      omega
  rcases htight with h | ⟨m, hm, hx⟩
  · rw [hnb2, hnb] at h
    have : j2 = j := Nat.pow_right_injective (le_refl 2) h
    omega
  · have hhalf : r.ht.num_buckets / 2 = 2 ^ (j2 - 1) := by
      rw [hnb2]
      have : j2 = (j2 - 1) + 1 := by omega
      rw [this, Nat.pow_succ, Nat.mul_div_cancel _ (by norm_num)]
      rfl
    have h1 := hok m (by omega)
    rw [hhalf] at hx
    unfold load_exceeded at h1 hx
    rw [threshold_pow _ (by omega)] at h1 hx
    simp only [decide_eq_false_iff_not, not_lt, decide_eq_true_eq] at h1 hx
    have : (2 : Nat) ^ (min (j + 1) 30) ≤ 2 ^ (j2 - 1) :=
      Nat.pow_le_pow_right (by norm_num) (by omega)
    omega

/-! ## Facts on the tables of the witnesses -/

theorem put_range_reach {hash : Nat → Nat} {keycmp : Nat → Nat → Bool} (fuel : Nat)
    {ht : hashtable} (hr : Reachable hash keycmp ht) (n : Nat) :
    ∀ t, put_range fuel ht n = some t → Reachable hash keycmp t := by
  induction n with
  | zero =>
    intro t h
    simp only [put_range, Option.some.injEq] at h
    rw [← h]
    exact hr
  | succ n ih =>
    intro t h
    simp only [put_range] at h
    cases h1 : put_range fuel ht n with
    | none => simp [h1] at h
    | some t1 =>
      rw [h1] at h
      dsimp only at h
      cases h2 : hashtable_put fuel t1 n n none with
      | none => simp [h2] at h
      | some r =>
        rw [h2] at h
        simp only [Option.some.injEq] at h
        rw [← h]
        exact Reachable.put (ih t1 h1) h2

set_option maxRecDepth 100000 in
theorem half_full_run :
    (put_range 0 (hashtable_alloc identity_hash keycmp_int) 48).isSome = true := by
  decide!

theorem half_full_reach : Reachable identity_hash keycmp_int half_full := by
  obtain ⟨t, ht⟩ := Option.isSome_iff_exists.mp half_full_run
  have heq : half_full = t := by
    unfold half_full
    rw [ht]
  rw [heq]
  exact put_range_reach 0 Reachable.alloc 48 t ht

set_option maxRecDepth 100000 in
theorem half_full_facts :
    half_full.num_buckets = 64 ∧ half_full.num_used = 48 ∧
      (entries half_full.buckets).length = 48 ∧
      hashtable_contains half_full 48 = false ∧
      bucket_at half_full (half_full.hash 48 % half_full.num_buckets) = none ∧
      load_exceeded (half_full.num_used + 1) half_full.num_buckets = true := by
  decide!

set_option maxRecDepth 100000 in
theorem half_full_put : (hashtable_put 1 half_full 48 48 none).isSome = true := by
  decide!

/-! ## The claims on rehash and removal -/

/-- C12 (rehash preserves contents). On every reachable table and for every
bucket count `n` an `unsigned int` can hold, whenever `resize(ht, n)`
returns, the table it leaves answers `hashtable_get` and `hashtable_contains`
for every key as before, holds the same entries up to their order, and has
the same `hashtable_size`, although `size` and `num_used` were reset to zero
and rebuilt through `hashtable_put`. The call returns (fuel 30) while at most
`CAP_USED` entries are stored. -/
theorem resize_keeps_contents {hash : Nat → Nat} {keycmp : Nat → Nat → Bool}
    (laws : KeyLaws hash keycmp) {ht : hashtable} (hr : Reachable hash keycmp ht)
    (n : Nat) (hn : n < UINT_RANGE) :
    (∀ fuel ht2, resize fuel ht n = some ht2 →
      (∀ key, hashtable_get ht2 key = hashtable_get ht key ∧
        hashtable_contains ht2 key = hashtable_contains ht key) ∧
      hashtable_size ht2 = hashtable_size ht ∧
      (entries ht2.buckets).Perm (entries ht.buckets)) ∧
    ((entries ht.buckets).length ≤ CAP_USED → ∃ ht2, resize 30 ht n = some ht2) := by
  have g := reach_good laws hr
  have lw := g.laws laws
  refine ⟨fun fuel ht2 hrun => ?_, fun hlen => resize_total lw g.inv n hn hlen⟩
  have hres := resize_post fuel ht n ht2 lw g.inv hn hrun
  refine ⟨fun key => ?_, ?_, hres.perm⟩
  · have hl := lookup_congr lw g.inv hres.inv hres.hash_eq hres.keycmp_eq hres.perm key
    rw [hashtable_get_eq, hashtable_get_eq, hashtable_contains_eq, hashtable_contains_eq, hl]
    exact ⟨rfl, rfl⟩
  · unfold hashtable_size
    rw [hres.inv.size_eq, g.inv.size_eq, hres.perm.length_eq]

/-- Witness of C12: the table of the test program that holds the keys
`0 .. 47` is rehashed to 7 buckets; key `5` still reads `5` and the size is
still 48. -/
theorem resize_keeps_contents_witness :
    KeyLaws identity_hash keycmp_int ∧ Reachable identity_hash keycmp_int half_full ∧
    7 < UINT_RANGE ∧
    ∃ ht2, resize 30 half_full 7 = some ht2 ∧
      hashtable_get ht2 5 = hashtable_get half_full 5 ∧
      hashtable_contains ht2 5 = hashtable_contains half_full 5 ∧
      hashtable_size ht2 = hashtable_size half_full := by
  have h := resize_keeps_contents (laws_int identity_hash) half_full_reach 7 (by decide)
  obtain ⟨ht2, hrun⟩ := h.2 (by
    rw [half_full_facts.2.2.1]
    decide)
  obtain ⟨h1, h2, _⟩ := h.1 30 ht2 hrun
  exact ⟨laws_int _, half_full_reach, by decide, ht2, hrun, (h1 5).1, (h1 5).2, h2⟩

/-- What a returning `hashtable_remove` leaves of the table. -/
theorem remove_frame_of_run {hash : Nat → Nat} {keycmp : Nat → Nat → Bool}
    (laws : KeyLaws hash keycmp) {ht : hashtable} (hr : Reachable hash keycmp ht)
    (key : Nat) (kfree : Bool) (r : remove_result)
    (hrun : hashtable_remove ht key kfree = Except.ok r) :
    r.ht.num_buckets = ht.num_buckets ∧ r.ht.buckets.length = ht.buckets.length ∧
    (∀ key2, keycmp key2 key = false →
      hashtable_get r.ht key2 = hashtable_get ht key2 ∧
      hashtable_contains r.ht key2 = hashtable_contains ht key2) ∧
    (∀ c, bucket_at ht (ht.hash key % ht.num_buckets) = some c →
      (c.length = 1 → r.ht.num_used + 1 = ht.num_used ∧
        bucket_at r.ht (ht.hash key % ht.num_buckets) = none) ∧
      (c.length ≠ 1 → r.ht.num_used = ht.num_used ∧
        ∃ c2, bucket_at r.ht (ht.hash key % ht.num_buckets) = some c2 ∧
          c2.length + 1 = c.length)) := by
  have g := reach_good laws hr
  have lw := g.laws laws
  obtain ⟨e, hl, rfl⟩ := remove_ok_iff hrun
  have g2 := good_remove laws g hl
  obtain ⟨_, _, hnb, _, _⟩ := tbl_remove_fields g.inv hl
  have hi := index_lt g.inv key
  refine ⟨hnb, by rw [g2.inv.len, g.inv.len]; exact hnb, fun key2 hne => ?_, fun c hc => ?_⟩
  · have hf := lookup_frame_remove lw g.inv hl (by rw [g.keycmp_eq]; exact hne)
    show hashtable_get (tbl_remove ht key) key2 = _ ∧ hashtable_contains (tbl_remove ht key) key2 = _
    rw [hashtable_get_eq, hashtable_get_eq, hashtable_contains_eq, hashtable_contains_eq, hf]
    exact ⟨rfl, rfl⟩
  · obtain ⟨c0, l1, l2, x, hb, hc0, hx, hsome, hbk, _⟩ := tbl_remove_buckets hl
    rw [hc] at hb
    have hcc := Option.some.inj hb
    subst hcc
    have hb2 : ht.buckets.getD (ht.hash key % ht.num_buckets) none = some c := hc
    have hused := used_slots_set ht.buckets (ht.hash key % ht.num_buckets) x hi
    simp only [hb2, Option.isSome_some, if_true] at hused
    have hnu2 : (tbl_remove ht key).num_used = used_slots (ht.buckets.set (ht.hash key % ht.num_buckets) x) := by
      rw [g2.inv.used, hbk]
    have hnu := g.inv.used
    have hslot : bucket_at (tbl_remove ht key) (ht.hash key % ht.num_buckets) = x := by
      unfold bucket_at
      rw [hbk]
      exact getD_set_self _ _ _ hi
    have hlen : c.length = (l1 ++ l2).length + 1 := by
      rw [hc0]
      simp only [List.length_append, List.length_cons]
      omega
    show (c.length = 1 → (tbl_remove ht key).num_used + 1 = ht.num_used ∧
        bucket_at (tbl_remove ht key) (ht.hash key % ht.num_buckets) = none) ∧
      (c.length ≠ 1 → (tbl_remove ht key).num_used = ht.num_used ∧
        ∃ c2, bucket_at (tbl_remove ht key) (ht.hash key % ht.num_buckets) = some c2 ∧
          c2.length + 1 = c.length)
    rw [hslot]
    constructor
    · intro h1
      have hnil : l1 ++ l2 = [] := List.length_eq_zero.mp (by omega)
      have hxn : x = none := by
        cases hxs : x with
        | none => rfl
        | some c2 =>
          have : x.isSome = true := by rw [hxs]; rfl
          exact absurd hnil (hsome.mp this)
      subst hxn
      simp only [Option.isSome_none] at hused
      simp at hused
      exact ⟨by omega, rfl⟩
    · intro h1
      have hnil : l1 ++ l2 ≠ [] := by
        intro h
        rw [h] at hlen
        simp at hlen
        exact h1 hlen
      have hxs : x.isSome = true := hsome.mpr hnil
      cases hxc : x with
      | none =>
        rw [hxc] at hxs
        cases hxs
      | some c2 =>
        rw [hxc] at hx hused
        simp only [chain_of] at hx
        simp only [Option.isSome_some, if_true] at hused
        refine ⟨by rw [hxc] at hnu2; omega, c2, rfl, ?_⟩
        rw [hx, hlen]

/-- C14 (frame of remove). On every reachable table and for every present
key, `hashtable_remove(key)` returns and leaves `num_buckets` and the length
of the bucket array unchanged, leaves `hashtable_get` and
`hashtable_contains` unchanged for every key not equal to `key` under
`keycmp`, and, with `c` the chain of the bucket of `key` before the call: if
`c` held one entry, `num_used` is one less and the slot is `NULL`; otherwise
`num_used` is unchanged and the slot holds a chain one entry shorter. -/
theorem remove_frame {hash : Nat → Nat} {keycmp : Nat → Nat → Bool}
    (laws : KeyLaws hash keycmp) {ht : hashtable} (hr : Reachable hash keycmp ht)
    (key : Nat) (kfree : Bool) (hc : hashtable_contains ht key = true) :
    ∃ r, hashtable_remove ht key kfree = Except.ok r ∧
      r.ht.num_buckets = ht.num_buckets ∧ r.ht.buckets.length = ht.buckets.length ∧
      (∀ key2, keycmp key2 key = false →
        hashtable_get r.ht key2 = hashtable_get ht key2 ∧
        hashtable_contains r.ht key2 = hashtable_contains ht key2) ∧
      (∀ c, bucket_at ht (ht.hash key % ht.num_buckets) = some c →
        (c.length = 1 → r.ht.num_used + 1 = ht.num_used ∧
          bucket_at r.ht (ht.hash key % ht.num_buckets) = none) ∧
        (c.length ≠ 1 → r.ht.num_used = ht.num_used ∧
          ∃ c2, bucket_at r.ht (ht.hash key % ht.num_buckets) = some c2 ∧
            c2.length + 1 = c.length)) := by
  rw [hashtable_contains_eq] at hc
  cases hl : lookup ht key with
  | none =>
    rw [hl] at hc
    cases hc
  | some e =>
    have hrun := hashtable_remove_found kfree hl
    exact ⟨_, hrun, remove_frame_of_run laws hr key kfree _ hrun⟩

/-- Witness of C14 on the table of the test program after the put of key `0`:
the removal of key `0` empties its bucket and leaves 64 buckets. -/
theorem remove_frame_witness :
    KeyLaws identity_hash keycmp_int ∧ Reachable identity_hash keycmp_int first_round.ht ∧
    hashtable_contains first_round.ht 0 = true ∧
    ∃ r, hashtable_remove first_round.ht 0 false = Except.ok r ∧
      r.ht.num_buckets = first_round.ht.num_buckets ∧
      r.ht.num_used + 1 = first_round.ht.num_used ∧
      bucket_at r.ht (first_round.ht.hash 0 % first_round.ht.num_buckets) = none := by
  have hreach : Reachable identity_hash keycmp_int first_round.ht :=
    Reachable.put Reachable.alloc first_round_eq
  obtain ⟨r, hrun, h1, _, _, h4⟩ :=
    remove_frame (laws_int identity_hash) hreach 0 false (by decide)
  have hc : bucket_at first_round.ht
      (first_round.ht.hash 0 % first_round.ht.num_buckets) = some [{ k := 0, v := 0 }] := by
    decide
  obtain ⟨h5, h6⟩ := (h4 _ hc).1 rfl
  exact ⟨laws_int _, hreach, by decide, r, hrun, h1, h5, h6⟩

/-! ## The invariants of reachable tables -/

/-- C15 (occupancy invariant). In every table reachable from
`hashtable_alloc` by returning put and remove calls (rehashes included),
`num_used` is the number of bucket slots that hold a chain, every chain held
is non-empty, a slot is `NULL` exactly when no stored entry hashes to it, and
`num_used` is at most `num_buckets`. -/
theorem occupancy_invariant {hash : Nat → Nat} {keycmp : Nat → Nat → Bool}
    (laws : KeyLaws hash keycmp) {ht : hashtable} (hr : Reachable hash keycmp ht) :
    ht.num_used = used_slots ht.buckets ∧
    (∀ i c, bucket_at ht i = some c → c ≠ []) ∧
    (∀ i, i < ht.num_buckets →
      (bucket_at ht i = none ↔ ∀ e ∈ entries ht.buckets, ht.hash e.k % ht.num_buckets ≠ i)) ∧
    0 ≤ ht.num_used ∧ ht.num_used ≤ ht.num_buckets := by
  have g := reach_good laws hr
  refine ⟨g.inv.used, fun i c hc => (g.inv.place i c hc).1, fun i _ => ?_, Nat.zero_le _, ?_⟩
  · constructor
    · intro hnone e he heq
      obtain ⟨j, c, hj, hec⟩ := mem_entries.mp he
      have hp := (g.inv.place j c hj).2 e hec
      rw [heq] at hp
      subst hp
      have hj2 : bucket_at ht i = some c := hj
      rw [hnone] at hj2
      cases hj2
    · intro hall
      cases hb : bucket_at ht i with
      | none => rfl
      | some c =>
        obtain ⟨hne, hpl⟩ := g.inv.place i c hb
        cases c with
        | nil => exact absurd rfl hne
        | cons e rest =>
          have he : e ∈ entries ht.buckets :=
            mem_entries.mpr ⟨i, e :: rest, hb, List.mem_cons_self _ _⟩
          exact absurd (hpl e (List.mem_cons_self _ _)) (hall e he)
  · rw [g.inv.used, ← g.inv.len]
    exact used_slots_le _

/-- Witness of C15 on the table of the test program after the put of key `0`:
one slot is used. -/
theorem occupancy_invariant_witness :
    KeyLaws identity_hash keycmp_int ∧ Reachable identity_hash keycmp_int first_round.ht ∧
    first_round.ht.num_used = used_slots first_round.ht.buckets ∧
    first_round.ht.num_used ≤ first_round.ht.num_buckets :=
  ⟨laws_int _, Reachable.put Reachable.alloc first_round_eq,
    (occupancy_invariant (laws_int identity_hash)
      (Reachable.put Reachable.alloc first_round_eq)).1,
    (occupancy_invariant (laws_int identity_hash)
      (Reachable.put Reachable.alloc first_round_eq)).2.2.2.2⟩

/-- C16 (key uniqueness). With `keycmp` an equivalence relation consistent
with `hash`, no two stored entries of a reachable table have equal keys,
whatever their buckets; the table a returning put leaves, the table a
returning remove leaves and the table a returning `resize` leaves have the
property again. -/
theorem keys_unique {hash : Nat → Nat} {keycmp : Nat → Nat → Bool}
    (laws : KeyLaws hash keycmp) {ht : hashtable} (hr : Reachable hash keycmp ht) :
    DistinctKeys keycmp (entries ht.buckets) ∧
    (∀ fuel key newvalue oldvalue r, hashtable_put fuel ht key newvalue oldvalue = some r →
      DistinctKeys keycmp (entries r.ht.buckets)) ∧
    (∀ key kfree r, hashtable_remove ht key kfree = Except.ok r →
      DistinctKeys keycmp (entries r.ht.buckets)) ∧
    (∀ fuel n ht2, n < UINT_RANGE → resize fuel ht n = some ht2 →
      DistinctKeys keycmp (entries ht2.buckets)) := by
  have key : ∀ {t : hashtable}, Good hash keycmp t → DistinctKeys keycmp (entries t.buckets) := by
    intro t g
    have h := g.inv.distinct
    rw [g.keycmp_eq] at h
    exact h
  have g := reach_good laws hr
  refine ⟨key g, fun fuel k newvalue oldvalue r hrun => key (good_put laws g hrun),
    fun k kfree r hrun => key (reach_good laws (Reachable.remove hr hrun)),
    fun fuel n ht2 hn hrun => ?_⟩
  have hres := resize_post fuel ht n ht2 (g.laws laws) g.inv hn hrun
  have h := hres.inv.distinct
  rw [hres.keycmp_eq, g.keycmp_eq] at h
  exact h

/-- Witness of C16 on the table of the test program that holds the keys
`0 .. 47`. -/
theorem keys_unique_witness :
    KeyLaws identity_hash keycmp_int ∧ Reachable identity_hash keycmp_int half_full ∧
    DistinctKeys keycmp_int (entries half_full.buckets) :=
  ⟨laws_int _, half_full_reach, (keys_unique (laws_int identity_hash) half_full_reach).1⟩

/-- C17 (bucket-count invariant). The table `hashtable_alloc` returns has 64
buckets. In every reachable table `num_buckets` is a power of two between 64
and `2 ^ 30`, so between 1 and `2 ^ 30`; the bucket array has exactly
`num_buckets` slots; a returning put leaves a bucket count that is not
smaller and a returning remove leaves the same bucket count. -/
theorem bucket_count_invariant {hash : Nat → Nat} {keycmp : Nat → Nat → Bool}
    (laws : KeyLaws hash keycmp) {ht : hashtable} (hr : Reachable hash keycmp ht) :
    (hashtable_alloc hash keycmp).num_buckets = 64 ∧
    (∃ j, 6 ≤ j ∧ j ≤ 30 ∧ ht.num_buckets = 2 ^ j) ∧
    1 ≤ ht.num_buckets ∧ ht.num_buckets ≤ 2 ^ 30 ∧
    ht.buckets.length = ht.num_buckets ∧
    (∀ fuel key newvalue oldvalue r, hashtable_put fuel ht key newvalue oldvalue = some r →
      ht.num_buckets ≤ r.ht.num_buckets) ∧
    (∀ key kfree r, hashtable_remove ht key kfree = Except.ok r →
      r.ht.num_buckets = ht.num_buckets) := by
  have g := reach_good laws hr
  have hge := g.nb_ge
  unfold INITIAL_BUCKETS at hge
  have hle := good_nb_le g
  rw [max_buckets_eq] at hle
  refine ⟨rfl, ?_, by omega, by omega, g.inv.len, fun fuel key newvalue oldvalue r hrun => ?_,
    fun key kfree r hrun => ?_⟩
  · obtain ⟨j, hj, hnb⟩ := g.pow
    refine ⟨j, ?_, hj, hnb⟩
    by_contra hlt
    have hj5 : j ≤ 5 := by omega
    have : (2 : Nat) ^ j ≤ 2 ^ 5 := Nat.pow_le_pow_right (by norm_num) hj5
    omega
  · exact ((put_post fuel ht key newvalue oldvalue r (g.laws laws) g.inv hrun).pow g.pow).2
  · obtain ⟨e, hl, rfl⟩ := remove_ok_iff hrun
    exact (tbl_remove_fields g.inv hl).2.2.1

/-- Witness of C17 on the table of the test program that holds the keys
`0 .. 47`: it has 64 buckets. -/
theorem bucket_count_invariant_witness :
    KeyLaws identity_hash keycmp_int ∧ Reachable identity_hash keycmp_int half_full ∧
    (∃ j, 6 ≤ j ∧ j ≤ 30 ∧ half_full.num_buckets = 2 ^ j) ∧
    half_full.buckets.length = half_full.num_buckets :=
  ⟨laws_int _, half_full_reach,
    (bucket_count_invariant (laws_int identity_hash) half_full_reach).2.1,
    (bucket_count_invariant (laws_int identity_hash) half_full_reach).2.2.2.2.1⟩

/-- C18 (frame of put). On every reachable table, for every key `key2` that
is not equal to `key` under `keycmp`, `hashtable_get(key2)` and
`hashtable_contains(key2)` return after a returning `hashtable_put(key, v)`
what they returned before it, however many rehashes the put nested (every
amount of fuel). The put returns (fuel 24) while fewer than `CAP_USED`
entries are stored. -/
theorem put_frame {hash : Nat → Nat} {keycmp : Nat → Nat → Bool}
    (laws : KeyLaws hash keycmp) {ht : hashtable} (hr : Reachable hash keycmp ht)
    (key newvalue : Nat) (oldvalue : Option Nat) (key2 : Nat)
    (hne : keycmp key2 key = false) :
    (∀ fuel r, hashtable_put fuel ht key newvalue oldvalue = some r →
      hashtable_get r.ht key2 = hashtable_get ht key2 ∧
      hashtable_contains r.ht key2 = hashtable_contains ht key2) ∧
    ((entries ht.buckets).length < CAP_USED →
      ∃ r, hashtable_put 24 ht key newvalue oldvalue = some r) := by
  have g := reach_good laws hr
  refine ⟨fun fuel r hrun => ?_, fun hlen => put_total_reach_any laws g hlen key newvalue oldvalue⟩
  have post := put_post fuel ht key newvalue oldvalue r (g.laws laws) g.inv hrun
  have hf := lookup_frame_put (g.laws laws) g.inv post (by rw [g.keycmp_eq]; exact hne)
  rw [hashtable_get_eq, hashtable_get_eq, hashtable_contains_eq, hashtable_contains_eq, hf]
  exact ⟨rfl, rfl⟩

/-- Witness of C18 on a put that nests two rehashes: on the table left by
`paired_calls` the put of key `48` returns with 256 buckets and key `5` reads
as before. -/
theorem put_frame_witness :
    KeyLaws identity_hash keycmp_int ∧ keycmp_int 5 48 = false ∧
    ∃ t r, Reachable identity_hash keycmp_int t ∧ t.num_buckets = 64 ∧
      hashtable_put 2 t 48 48 none = some r ∧ r.ht.num_buckets = 256 ∧
      hashtable_get r.ht 5 = hashtable_get t 5 ∧
      hashtable_contains r.ht 5 = hashtable_contains t 5 := by
  obtain ⟨t, r, _, hreach, hnb, _, _, _, hput, hnb2⟩ := nested_growth_run
  have h := (put_frame (laws_int identity_hash) hreach 48 48 none 5 (by decide)).1 2 r hput
  exact ⟨laws_int _, by decide, t, r, hreach, hnb, hput, hnb2, h.1, h.2⟩

/-- C20 (placement invariant). In every reachable table every entry stored
in the chain of bucket slot `i` has `hash(key) mod num_buckets = i` for the
current `num_buckets`; the table a returning `resize(ht, n)` leaves has the
property for its own, new bucket count. -/
theorem placement_invariant {hash : Nat → Nat} {keycmp : Nat → Nat → Bool}
    (laws : KeyLaws hash keycmp) {ht : hashtable} (hr : Reachable hash keycmp ht) :
    (∀ i c e, bucket_at ht i = some c → e ∈ c → hash e.k % ht.num_buckets = i) ∧
    (∀ fuel n ht2, n < UINT_RANGE → resize fuel ht n = some ht2 →
      ∀ i c e, bucket_at ht2 i = some c → e ∈ c → hash e.k % ht2.num_buckets = i) := by
  have g := reach_good laws hr
  refine ⟨fun i c e hc he => ?_, fun fuel n ht2 hn hrun i c e hc he => ?_⟩
  · have h := (g.inv.place i c hc).2 e he
    rw [g.hash_eq] at h
    exact h
  · have hres := resize_post fuel ht n ht2 (g.laws laws) g.inv hn hrun
    have h := (hres.inv.place i c hc).2 e he
    rw [hres.hash_eq, g.hash_eq] at h
    exact h

/-- Witness of C20 on the table of the test program after the put of key `0`:
the entry of slot 0 hashes to slot 0. -/
theorem placement_invariant_witness :
    KeyLaws identity_hash keycmp_int ∧ Reachable identity_hash keycmp_int first_round.ht ∧
    identity_hash 0 % first_round.ht.num_buckets = 0 :=
  ⟨laws_int _, Reachable.put Reachable.alloc first_round_eq,
    (placement_invariant (laws_int identity_hash)
      (Reachable.put Reachable.alloc first_round_eq)).1 0 [{ k := 0, v := 0 }] { k := 0, v := 0 }
      (by decide) (by decide)⟩

/-! ## The key an entry keeps -/

theorem free_chain_eq (c : linkedlist) :
    free_chain true c = c.map (fun e => (e.k, e.v)) := by
  induction c with
  | nil => rfl
  | cons e rest ih => simp [free_chain, ih]

theorem free_slots_eq (bs : List (Option linkedlist)) :
    free_slots true bs = (entries bs).map (fun e => (e.k, e.v)) := by
  induction bs with
  | nil => rfl
  | cons b rest ih =>
    cases b with
    | none => simpa [free_slots, entries] using ih
    | some c => simp [free_slots, entries, ih, free_chain_eq]

/-- On a reachable table `hashtable_free` hands every stored entry to the
callback. -/
theorem hashtable_free_eq {hash : Nat → Nat} {keycmp : Nat → Nat → Bool} {ht : hashtable}
    (g : Good hash keycmp ht) :
    hashtable_free ht true = (entries ht.buckets).map (fun e => (e.k, e.v)) := by
  have hle := good_nb_le g
  rw [max_buckets_eq] at hle
  have hlt : ht.num_buckets < 2 ^ 31 := by omega
  unfold hashtable_free free_buckets
  rw [if_pos hlt, ← g.inv.len, List.take_length, free_slots_eq]

theorem laws_low : KeyLaws low_hash keycmp_low := by
  refine ⟨?_, ?_, ?_, ?_⟩
  · intro a
    simp [keycmp_low]
  · intro a b h
    simp only [keycmp_low, decide_eq_true_eq] at h ⊢
    exact h.symm
  · intro a b c h1 h2
    simp only [keycmp_low, decide_eq_true_eq] at h1 h2 ⊢
    exact h1.trans h2
  · intro a b h
    simp only [keycmp_low, decide_eq_true_eq] at h
    exact h

theorem keyed_once_eq :
    hashtable_put 0 (hashtable_alloc low_hash keycmp_low) 1 10 none = some keyed_once := by
  rfl

/-- C19 (key retention on replacement). On a reachable table that stores an
entry with key `k1`, a call `hashtable_put(k2, v2)` with `k2` equal to `k1`
under `keycmp` returns (with any fuel) and reports a replacement; the entry
found under `k2` afterwards has the key `k1` and the value `v2`; the other
entries are as before, so the stored keys are the same; when `k2` is another
key reference than `k1`, `k2` is not a stored key. A following
`hashtable_remove(k2, kfree)` returns `v2` and passes `k1` to `kfree`, and
`hashtable_free` with a callback passes it `(k1, v2)` and never the key
`k2`. -/
theorem replaced_entry_keeps_key {hash : Nat → Nat} {keycmp : Nat → Nat → Bool}
    (laws : KeyLaws hash keycmp) {ht : hashtable} (hr : Reachable hash keycmp ht)
    (k1 v1 k2 v2 : Nat) (oldvalue : Option Nat)
    (hmem : { k := k1, v := v1 } ∈ entries ht.buckets) (heq : keycmp k2 k1 = true)
    (fuel : Nat) :
    ∃ r, hashtable_put fuel ht k2 v2 oldvalue = some r ∧ r.replaced = true ∧
      (get_entry r.ht k2 false).1 = some { k := k1, v := v2 } ∧
      (∃ others, (entries ht.buckets).Perm ({ k := k1, v := v1 } :: others) ∧
        (entries r.ht.buckets).Perm ({ k := k1, v := v2 } :: others)) ∧
      (stored_keys r.ht).Perm (stored_keys ht) ∧
      (k2 ≠ k1 → k2 ∉ stored_keys r.ht) ∧
      (∀ kfree, ∃ r2, hashtable_remove r.ht k2 kfree = Except.ok r2 ∧ r2.data = v2 ∧
        r2.freed = if kfree then [k1] else []) ∧
      (k1, v2) ∈ hashtable_free r.ht true ∧
      (k2 ≠ k1 → ∀ v, (k2, v) ∉ hashtable_free r.ht true) := by
  have g := reach_good laws hr
  have lw := g.laws laws
  have hl : lookup ht k2 = some { k := k1, v := v1 } :=
    (lookup_some_iff lw g.inv).mpr ⟨hmem, by rw [g.keycmp_eq]; exact heq⟩
  have hrun : hashtable_put fuel ht k2 v2 oldvalue = some _ := put_eq_found hl
  have post := put_post fuel ht k2 v2 oldvalue _ lw g.inv hrun
  have g2 := good_put laws g hrun
  obtain ⟨hrep, _, _, _, _, others, hp1, hp2⟩ := post.found _ hl
  have hl2 := lookup_after_put lw g.inv post
  rw [hl] at hl2
  have hkeys : (stored_keys
      ({ ht := tbl_replace ht k2 v2, replaced := true,
         oldvalue := oldvalue.map (fun _ => ({ k := k1, v := v1 } : kv).v) } : put_result).ht).Perm
      (stored_keys ht) := by
    unfold stored_keys
    exact ((hp2.map kv.k).trans (by simp)).trans (hp1.map kv.k).symm
  have hnot : k2 ≠ k1 → k2 ∉ stored_keys
      ({ ht := tbl_replace ht k2 v2, replaced := true,
         oldvalue := oldvalue.map (fun _ => ({ k := k1, v := v1 } : kv).v) } : put_result).ht := by
    intro hne hin
    have hin2 : k2 ∈ stored_keys ht := hkeys.subset hin
    unfold stored_keys at hin2
    obtain ⟨e, he, hek⟩ := List.mem_map.mp hin2
    have hd := g.inv.distinct
    rw [g.keycmp_eq] at hd
    have hsym : Symmetric (fun a b : kv => keycmp a.k b.k = false) := by
      intro a b hab
      cases hba : keycmp b.k a.k with
      | false => rfl
      | true =>
        rw [laws.symm _ _ hba] at hab
        cases hab
    have hne2 : e ≠ { k := k1, v := v1 } := by
      intro h
      rw [h] at hek
      exact hne hek.symm
    have := List.Pairwise.forall hsym hd he hmem hne2
    rw [hek] at this
    rw [heq] at this
    cases this
  have hfree := hashtable_free_eq g2
  refine ⟨_, hrun, hrep, hl2, ⟨others, hp1, hp2⟩, hkeys, hnot,
    fun kfree => ⟨_, hashtable_remove_found kfree hl2, rfl, rfl⟩, ?_, ?_⟩
  · rw [hfree]
    exact List.mem_map.mpr
      ⟨{ k := k1, v := v2 }, ((lookup_some_iff (g2.laws laws) g2.inv).mp hl2).1, rfl⟩
  · intro hne v hin
    rw [hfree] at hin
    obtain ⟨e, he, hek⟩ := List.mem_map.mp hin
    apply hnot hne
    unfold stored_keys
    exact List.mem_map.mpr ⟨e, he, (Prod.mk.inj hek).1⟩

/-- Witness of C19: a table with the callbacks `low_hash` and `keycmp_low`
stores the key `1`; the put of the equal key `9` with value `20` leaves an
entry with key `1` and value `20`, and `9` is not stored. -/
theorem replaced_entry_keeps_key_witness :
    KeyLaws low_hash keycmp_low ∧ Reachable low_hash keycmp_low keyed_once.ht ∧
    ({ k := 1, v := 10 } : kv) ∈ entries keyed_once.ht.buckets ∧ keycmp_low 9 1 = true ∧
    ∃ r, hashtable_put 0 keyed_once.ht 9 20 none = some r ∧
      (get_entry r.ht 9 false).1 = some { k := 1, v := 20 } ∧ 9 ∉ stored_keys r.ht := by
  have hreach : Reachable low_hash keycmp_low keyed_once.ht :=
    Reachable.put Reachable.alloc keyed_once_eq
  have hmem : ({ k := 1, v := 10 } : kv) ∈ entries keyed_once.ht.buckets := by decide
  obtain ⟨r, h1, _, h3, _, _, h6, _⟩ :=
    replaced_entry_keeps_key laws_low hreach 1 10 9 20 none hmem (by decide) 0
  exact ⟨laws_low, hreach, hmem, by decide, r, h1, h3, h6 (by decide)⟩

/-! ## The conversion to `float` is monotone -/

theorem f32_shift_mono (fuel : Nat) : ∀ a b, a ≤ b → f32_shift fuel a ≤ f32_shift fuel b := by
  induction fuel with
  | zero => intro a b _; simp [f32_shift]
  | succ fuel ih =>
    intro a b hab
    unfold f32_shift
    by_cases ha : a < 2 ^ 24
    · rw [if_pos ha]
      exact Nat.zero_le _
    · have hb : ¬ b < 2 ^ 24 := by omega
      rw [if_neg ha, if_neg hb]
      exact Nat.succ_le_succ (ih _ _ (Nat.div_le_div_right hab))

theorem f32_shift_lt (fuel : Nat) : ∀ n, n < 2 ^ (24 + fuel) →
    n < 2 ^ (24 + f32_shift fuel n) := by
  induction fuel with
  | zero => intro n hn; simpa [f32_shift] using hn
  | succ fuel ih =>
    intro n hn
    unfold f32_shift
    by_cases h : n < 2 ^ 24
    · rw [if_pos h]
      exact h
    · rw [if_neg h]
      have h2 : n / 2 < 2 ^ (24 + fuel) := by
        rw [Nat.div_lt_iff_lt_mul (by norm_num)]
        have : 2 ^ (24 + (fuel + 1)) = 2 ^ (24 + fuel) * 2 := by
          rw [← Nat.add_assoc, Nat.pow_succ]
        omega
      have h3 := ih _ h2
      have : 2 ^ (24 + (f32_shift fuel (n / 2) + 1)) = 2 ^ (24 + f32_shift fuel (n / 2)) * 2 := by
        rw [← Nat.add_assoc, Nat.pow_succ]
      rw [this]
      omega

theorem f32_shift_pos (fuel : Nat) : ∀ n, 0 < f32_shift fuel n →
    2 ^ (23 + f32_shift fuel n) ≤ n := by
  induction fuel with
  | zero => intro n h; simp [f32_shift] at h
  | succ fuel ih =>
    intro n h
    unfold f32_shift at h ⊢
    by_cases hn : n < 2 ^ 24
    · rw [if_pos hn] at h
      omega
    · rw [if_neg hn]
      have hpow : 2 ^ (23 + (f32_shift fuel (n / 2) + 1)) =
          2 ^ (23 + f32_shift fuel (n / 2)) * 2 := by
        rw [← Nat.add_assoc, Nat.pow_succ]
      rw [hpow]
      by_cases hs : 0 < f32_shift fuel (n / 2)
      · have := ih _ hs
        omega
      · have h0 : f32_shift fuel (n / 2) = 0 := by omega
        rw [h0]
        norm_num at hn ⊢
        omega

theorem round_at_mono (e a b : Nat) (hab : a ≤ b) : round_at e a ≤ round_at e b := by
  have hpos : 0 < 2 ^ e := by positivity
  by_cases hb : b < (a / 2 ^ e + 1) * 2 ^ e
  · have hq : b / 2 ^ e = a / 2 ^ e := by
      apply Nat.le_antisymm
      · exact Nat.lt_succ_iff.mp ((Nat.div_lt_iff_lt_mul hpos).mpr hb)
      · exact Nat.div_le_div_right hab
    have ha := Nat.div_add_mod a (2 ^ e)
    have hbm := Nat.div_add_mod b (2 ^ e)
    rw [hq] at hbm
    have hr : a % 2 ^ e ≤ b % 2 ^ e := by
      have : 2 ^ e * (a / 2 ^ e) + a % 2 ^ e ≤ 2 ^ e * (a / 2 ^ e) + b % 2 ^ e := by
        rw [ha, hbm]
        exact hab
      omega
    unfold round_at
    simp only [hq]
    have hle : a / 2 ^ e * 2 ^ e ≤ (a / 2 ^ e + 1) * 2 ^ e :=
      Nat.mul_le_mul_right _ (Nat.le_succ _)
    split_ifs with h1 h2 h2
    · exact le_refl _
    · exfalso
      apply h2
      rcases h1 with h1 | ⟨h1, h3⟩
      · left
        omega
      · by_cases h4 : 2 * (b % 2 ^ e) = 2 ^ e
        · exact Or.inr ⟨h4, h3⟩
        · left
          omega
    · exact hle
    · exact le_refl _
  · have hm := Nat.mod_lt a hpos
    have hd := Nat.div_add_mod a (2 ^ e)
    have hx : (a / 2 ^ e + 1) * 2 ^ e = 2 ^ e * (a / 2 ^ e) + 2 ^ e := by ring
    have h1 : round_at e a ≤ (a / 2 ^ e + 1) * 2 ^ e := round_at_le e a _ (by omega)
    have h2 : (a / 2 ^ e + 1) * 2 ^ e ≤ round_at e b := round_at_ge e b _ (by omega)
    exact le_trans h1 h2

/-- The conversion of an `unsigned int` to `float` is monotone. -/
theorem f32_round_mono (a b : Nat) (hab : a ≤ b) (hb : b < 2 ^ 64) :
    f32_round a ≤ f32_round b := by
  unfold f32_round
  have hs := f32_shift_mono 64 a b hab
  rcases Nat.eq_or_lt_of_le hs with heq | hlt
  · rw [heq]
    exact round_at_mono _ a b hab
  · have ha88 : a < 2 ^ (24 + 64) := by
      have : (2 : Nat) ^ 64 ≤ 2 ^ (24 + 64) := Nat.pow_le_pow_right (by norm_num) (by norm_num)
      omega
    have h1 := f32_shift_lt 64 a ha88
    have h2 := f32_shift_pos 64 b (by omega)
    have h3 : round_at (f32_shift 64 a) a ≤ 2 ^ 24 * 2 ^ f32_shift 64 a :=
      round_at_le _ a _ (by rw [← Nat.pow_add]; exact le_of_lt h1)
    have hsplit : 2 ^ (23 + f32_shift 64 b) =
        2 ^ (23 + f32_shift 64 b - f32_shift 64 b) * 2 ^ f32_shift 64 b := by
      rw [← Nat.pow_add]
      congr 1
      omega
    have h4 : 2 ^ (23 + f32_shift 64 b) ≤ round_at (f32_shift 64 b) b := by
      rw [hsplit]
      exact round_at_ge _ b _ (by rw [← hsplit]; exact h2)
    have h5 : (2 : Nat) ^ 24 * 2 ^ f32_shift 64 a ≤ 2 ^ (23 + f32_shift 64 b) := by
      rw [← Nat.pow_add]
      exact Nat.pow_le_pow_right (by norm_num) (by omega)
    exact le_trans h3 (le_trans h5 h4)

/-- The growth test, once it succeeds, succeeds for every larger occupancy. -/
theorem load_exceeded_mono {m k nb : Nat} (hmk : m ≤ k) (hk : k < 2 ^ 64)
    (h : load_exceeded m nb = true) : load_exceeded k nb = true := by
  unfold load_exceeded at h ⊢
  simp only [decide_eq_true_eq] at h ⊢
  have := f32_round_mono m k hmk hk
  omega

/-! ## The slots that entries occupy -/

theorem slots_taken_eq_card (hash : Nat → Nat) (n : Nat) (l : List kv) :
    slots_taken hash n l = (l.map (fun e => hash e.k % n)).toFinset.card := by
  unfold slots_taken
  rw [List.card_toFinset]

theorem slots_taken_mono (hash : Nat → Nat) (n : Nat) {l l2 : List kv}
    (h : ∀ e ∈ l, ∃ e2 ∈ l2, e2.k = e.k) : slots_taken hash n l ≤ slots_taken hash n l2 := by
  rw [slots_taken_eq_card, slots_taken_eq_card]
  apply Finset.card_le_card
  intro x hx
  simp only [List.mem_toFinset, List.mem_map] at hx ⊢
  obtain ⟨e, he, rfl⟩ := hx
  obtain ⟨e2, he2, hk⟩ := h e he
  exact ⟨e2, he2, by rw [hk]⟩

theorem slots_taken_perm (hash : Nat → Nat) (n : Nat) {l l2 : List kv} (h : l.Perm l2) :
    slots_taken hash n l = slots_taken hash n l2 :=
  Nat.le_antisymm (slots_taken_mono hash n fun e he => ⟨e, h.subset he, rfl⟩)
    (slots_taken_mono hash n fun e he => ⟨e, h.symm.subset he, rfl⟩)

theorem slots_taken_le (hash : Nat → Nat) {n : Nat} (hn : 0 < n) (l : List kv) :
    slots_taken hash n l ≤ n := by
  rw [slots_taken_eq_card]
  have hsub : (l.map (fun e => hash e.k % n)).toFinset ⊆ Finset.range n := by
    intro x hx
    simp only [List.mem_toFinset, List.mem_map] at hx
    obtain ⟨e, _, rfl⟩ := hx
    exact Finset.mem_range.mpr (Nat.mod_lt _ hn)
  have := Finset.card_le_card hsub
  rwa [Finset.card_range] at this

theorem used_slots_eq_filter (bs : List (Option linkedlist)) :
    used_slots bs =
      ((List.range bs.length).filter (fun i => (bs.getD i none).isSome)).length := by
  induction bs with
  | nil => simp [used_slots]
  | cons b rest ih =>
    rw [List.length_cons, List.range_succ_eq_map, List.filter_cons, List.filter_map]
    cases b with
    | none =>
      simp only [used_slots, List.getD_cons_zero, Option.isSome_none, Bool.false_eq_true,
        if_false, List.length_map, ih]
      rfl
    | some c =>
      simp only [used_slots, List.getD_cons_zero, Option.isSome_some, if_true,
        List.length_cons, List.length_map, ih]
      rfl

/-- In a table that meets the invariant `num_used` is the number of slots its
entries occupy at the current bucket count. -/
theorem num_used_eq_slots {ht : hashtable} (inv : Inv ht) :
    ht.num_used = slots_taken ht.hash ht.num_buckets (entries ht.buckets) := by
  rw [inv.used, used_slots_eq_filter]
  unfold slots_taken
  apply List.Perm.length_eq
  apply (List.perm_ext_iff_of_nodup ((List.nodup_range _).filter _) (List.nodup_dedup _)).mpr
  intro i
  simp only [List.mem_filter, List.mem_range, List.mem_dedup, List.mem_map]
  constructor
  · rintro ⟨_, hs⟩
    cases hb : ht.buckets.getD i none with
    | none =>
      rw [hb] at hs
      cases hs
    | some c =>
      obtain ⟨hne, hpl⟩ := inv.place i c hb
      cases c with
      | nil => exact absurd rfl hne
      | cons e rest =>
        exact ⟨e, mem_entries.mpr ⟨i, e :: rest, hb, List.mem_cons_self _ _⟩,
          hpl e (List.mem_cons_self _ _)⟩
  · rintro ⟨e, he, hei⟩
    obtain ⟨j, c, hj, hec⟩ := mem_entries.mp he
    have hp := (inv.place j c hj).2 e hec
    rw [hei] at hp
    subst hp
    refine ⟨?_, by rw [hj]; rfl⟩
    by_contra hge
    rw [List.getD_eq_default _ _ (Nat.le_of_not_lt hge)] at hj
    cases hj

/-! ## The bucket count a rehashing put returns with -/

/-- Every returning `hashtable_put` keeps `GrewFrom`. -/
theorem put_grew (fuel : Nat) (t : hashtable) (key newvalue : Nat) (oldvalue : Option Nat)
    (r : put_result) (n0 : Nat) (laws : KeyLaws t.hash t.keycmp) (inv : Inv t)
    (hq : GrewFrom n0 t) (hrun : hashtable_put fuel t key newvalue oldvalue = some r) :
    GrewFrom n0 r.ht := by
  have post := put_post fuel t key newvalue oldvalue r laws inv hrun
  have hsub : ∀ e ∈ entries t.buckets, ∃ e2 ∈ entries r.ht.buckets, e2.k = e.k := by
    intro e he
    cases hl : lookup t key with
    | some e0 =>
      obtain ⟨_, _, _, _, _, others, hp1, hp2⟩ := post.found e0 hl
      rcases List.mem_cons.mp (hp1.subset he) with h | h
      · exact ⟨_, hp2.symm.subset (List.mem_cons_self _ _), by rw [h]⟩
      · exact ⟨e, hp2.symm.subset (List.mem_cons_of_mem _ h), rfl⟩
    | none =>
      exact ⟨e, (post.fresh hl).2.2.symm.subset (List.mem_cons_of_mem _ he), rfl⟩
  rcases hq with hq | ⟨m, hm, hx⟩
  · by_cases hnb : r.ht.num_buckets = t.num_buckets
    · exact Or.inl (hnb.trans hq)
    · cases hl : lookup t key with
      | some e0 => exact absurd (post.found e0 hl).2.2.1 hnb
      | none =>
        by_cases hg : must_grow t key newvalue
        · right
          refine ⟨(t.num_used + 1) % UINT_RANGE, ?_, by rw [← hq]; exact hg.2⟩
          have hnu : (tbl_insert t key newvalue).num_used = (t.num_used + 1) % UINT_RANGE := by
            unfold tbl_insert
            simp only [hg.1, if_true]
          have hs := num_used_eq_slots (inv_tbl_insert laws inv newvalue hl)
          rw [hnu] at hs
          rw [hs, post.hash_eq]
          have hp := ((post.fresh hl).2.2.trans (tbl_insert_perm inv key newvalue).symm)
          rw [slots_taken_perm _ _ hp, ← hq]
          exact le_refl _
        · rw [put_eq_plain hl hg] at hrun
          cases hrun
          exact absurd rfl hnb
  · exact Or.inr ⟨m, le_trans hm (by
      rw [post.hash_eq]
      exact slots_taken_mono _ _ hsub), hx⟩

/-- A returning put that rehashes leaves exactly the bucket count it asked
for if and only if the growth test fails there for the number of slots that
the entries, the new one included, occupy at that count. -/
theorem grow_exact {hash : Nat → Nat} {keycmp : Nat → Nat → Bool}
    (laws : KeyLaws hash keycmp) {ht : hashtable} (g : Good hash keycmp ht)
    {fuel key newvalue : Nat} {oldvalue : Option Nat} {r : put_result}
    (hrun : hashtable_put fuel ht key newvalue oldvalue = some r)
    (hl : lookup ht key = none) (hg : must_grow ht key newvalue) :
    r.ht.num_buckets = min (2 * ht.num_buckets) MAX_BUCKETS ↔
      load_exceeded
        (slots_taken ht.hash (min (2 * ht.num_buckets) MAX_BUCKETS)
          ({ k := key, v := newvalue } :: entries ht.buckets))
        (min (2 * ht.num_buckets) MAX_BUCKETS) = false := by
  have lw := g.laws laws
  have hnbmax := good_nb_le g
  have htgt := grow_target_eq ht.num_buckets hnbmax
  obtain ⟨j, hj, hnb⟩ := g.pow
  have hgp := grow_target_pow j hj
  rw [← hnb] at hgp
  have hpos : grow_target ht.num_buckets ≠ 0 := by
    rw [hgp]
    positivity
  have hle : grow_target ht.num_buckets ≤ MAX_BUCKETS := by
    rw [htgt]
    exact Nat.min_le_right _ _
  rw [← htgt]
  cases fuel with
  | zero =>
    rw [put_eq_grow_zero hl hg] at hrun
    cases hrun
  | succ fuel =>
    rw [put_eq_grow_succ hl hg] at hrun
    cases hrs : resize fuel (tbl_insert ht key newvalue) (grow_target ht.num_buckets) with
    | none => simp [hrs] at hrun
    | some ht3 =>
      rw [hrs] at hrun
      cases hrun
      have inv1 := inv_tbl_insert lw g.inv newvalue hl
      have hres := resize_post fuel (tbl_insert ht key newvalue) _ ht3 lw inv1
        (grow_target_lt _) hrs
      have hhash : ht3.hash = ht.hash := hres.hash_eq
      have hperm : (entries ht3.buckets).Perm ({ k := key, v := newvalue } :: entries ht.buckets) :=
        hres.perm.trans (tbl_insert_perm g.inv key newvalue)
      have hslots : ∀ n, slots_taken ht3.hash n (entries ht3.buckets) =
          slots_taken ht.hash n ({ k := key, v := newvalue } :: entries ht.buckets) := by
        intro n
        rw [hhash, slots_taken_perm _ _ hperm]
      show ht3.num_buckets = grow_target ht.num_buckets ↔ _
      constructor
      · intro heq
        have hnu := num_used_eq_slots hres.inv
        rw [heq, hslots] at hnu
        have := hres.load ht3.num_used (le_refl _)
        rw [heq, hnu] at this
        exact this
      · intro hok
        unfold resize at hrs
        rw [resize_with_eq _ inv1 hpos] at hrs
        have hkeep := rehash_chain_keep (put_post fuel)
          (fun t => GrewFrom (grow_target ht.num_buckets) t)
          (fun t k v o r2 lw2 iv hq hp => put_grew fuel t k v o r2 _ lw2 iv hq hp)
          _ (fresh_tbl (tbl_insert ht key newvalue) (grow_target ht.num_buckets)) ht3
          lw (inv_fresh_tbl _ (Nat.pos_of_ne_zero hpos) (grow_target_lt _))
          inv1.distinct (by simp [fresh_tbl_entries]) hrs (Or.inl rfl)
        rcases hkeep with h | ⟨m, hm, hx⟩
        · exact h
        · exfalso
          rw [hslots] at hm
          have hk := slots_taken_le ht.hash (Nat.pos_of_ne_zero hpos)
            ({ k := key, v := newvalue } :: entries ht.buckets)
          have hk64 : slots_taken ht.hash (grow_target ht.num_buckets)
              ({ k := key, v := newvalue } :: entries ht.buckets) < 2 ^ 64 := by
            rw [max_buckets_eq] at hle
            have : (2 : Nat) ^ 30 < 2 ^ 64 := by norm_num
            omega
          have := load_exceeded_mono hm hk64 hx
          rw [hok] at this
          cases this

/-- C11, amended. On every reachable table with `n` buckets, when a returning
`hashtable_put` inserts a new key into a previously empty bucket and the
growth test of the code then succeeds (`num_used + 1 > 0.75 * n` in `float`
arithmetic), the table it leaves has a power of two of buckets, at least
`min(2 * n, 2 ^ 30)` and at most `2 ^ 30`, and as many slots. It has exactly
`min(2 * n, 2 ^ 30)` buckets if and only if the growth test fails at that
bucket count for the number of slots that the stored entries and the new one
occupy there, so that the re-insertions do not rehash again; otherwise it has
more. In every other case `num_buckets` and the length of the bucket array
are unchanged. -/
theorem growth_target {hash : Nat → Nat} {keycmp : Nat → Nat → Bool}
    (laws : KeyLaws hash keycmp) {ht : hashtable} (hr : Reachable hash keycmp ht)
    (fuel key newvalue : Nat) (oldvalue : Option Nat) (r : put_result)
    (hrun : hashtable_put fuel ht key newvalue oldvalue = some r) :
    ((hashtable_contains ht key = false ∧
        bucket_at ht (ht.hash key % ht.num_buckets) = none ∧
        load_exceeded (ht.num_used + 1) ht.num_buckets = true) →
      (∃ j, j ≤ 30 ∧ r.ht.num_buckets = 2 ^ j) ∧
      min (2 * ht.num_buckets) MAX_BUCKETS ≤ r.ht.num_buckets ∧
      r.ht.num_buckets ≤ MAX_BUCKETS ∧ r.ht.buckets.length = r.ht.num_buckets ∧
      (r.ht.num_buckets = min (2 * ht.num_buckets) MAX_BUCKETS ↔
        load_exceeded
          (slots_taken ht.hash (min (2 * ht.num_buckets) MAX_BUCKETS)
            ({ k := key, v := newvalue } :: entries ht.buckets))
          (min (2 * ht.num_buckets) MAX_BUCKETS) = false) ∧
      (load_exceeded
          (slots_taken ht.hash (min (2 * ht.num_buckets) MAX_BUCKETS)
            ({ k := key, v := newvalue } :: entries ht.buckets))
          (min (2 * ht.num_buckets) MAX_BUCKETS) = true →
        min (2 * ht.num_buckets) MAX_BUCKETS < r.ht.num_buckets)) ∧
    (¬ (hashtable_contains ht key = false ∧
        bucket_at ht (ht.hash key % ht.num_buckets) = none ∧
        load_exceeded (ht.num_used + 1) ht.num_buckets = true) →
      r.ht.num_buckets = ht.num_buckets ∧ r.ht.buckets.length = ht.buckets.length) := by
  have g := reach_good laws hr
  have g2 := good_put laws g hrun
  have post := put_post fuel ht key newvalue oldvalue r (g.laws laws) g.inv hrun
  constructor
  · rintro ⟨hc, hb, hx⟩
    have hl := lookup_none_of_contains hc
    have hg : must_grow ht key newvalue := (good_must_grow_iff g key newvalue).mpr ⟨hb, hx⟩
    obtain ⟨h1, h2, _⟩ := grow_result laws g hrun hl hg
    have hiff := grow_exact laws g hrun hl hg
    refine ⟨h1, h2, good_nb_le g2, g2.inv.len, hiff, fun hex => ?_⟩
    rcases Nat.eq_or_lt_of_le h2 with heq | hlt
    · rw [hiff.mp heq.symm] at hex
      cases hex
    · exact hlt
  · intro hno
    have hnb : r.ht.num_buckets = ht.num_buckets := by
      cases hl : lookup ht key with
      | some e => exact (post.found e hl).2.2.1
      | none =>
        have hg : ¬ must_grow ht key newvalue := by
          intro hg
          obtain ⟨hb, hx⟩ := (good_must_grow_iff g key newvalue).mp hg
          apply hno
          refine ⟨?_, hb, hx⟩
          rw [hashtable_contains_eq, hl]
          rfl
        rw [put_eq_plain hl hg] at hrun
        cases hrun
        rfl
    exact ⟨hnb, by rw [g2.inv.len, g.inv.len, hnb]⟩

set_option maxRecDepth 100000 in
theorem half_full_slots :
    load_exceeded
      (slots_taken half_full.hash (min (2 * half_full.num_buckets) MAX_BUCKETS)
        ({ k := 48, v := 48 } :: entries half_full.buckets))
      (min (2 * half_full.num_buckets) MAX_BUCKETS) = false := by
  decide!

/-- Witness of C11, amended: on the table of the test program that holds the
keys `0 .. 47` the put of key `48` uses a 49th bucket of 64, the growth test
succeeds, the 49 entries occupy 49 of 128 slots, and the put returns with
`min(2 * 64, 2 ^ 30) = 128` buckets. -/
theorem growth_target_witness :
    KeyLaws identity_hash keycmp_int ∧ Reachable identity_hash keycmp_int half_full ∧
    ∃ r, hashtable_put 1 half_full 48 48 none = some r ∧
      r.ht.num_buckets = 128 ∧ r.ht.buckets.length = 128 := by
  obtain ⟨r, hrun⟩ := Option.isSome_iff_exists.mp half_full_put
  obtain ⟨h1, h2, h3, h4, h5, h6⟩ := half_full_facts
  have h := (growth_target (laws_int identity_hash) half_full_reach 1 48 48 none r hrun).1
    ⟨h4, h5, h6⟩
  obtain ⟨_, _, _, hlen, hiff, _⟩ := h
  have hnb : r.ht.num_buckets = 128 := by
    rw [hiff.mpr half_full_slots, h1]
    decide
  exact ⟨laws_int _, half_full_reach, r, hrun, hnb, by rw [hlen, hnb]⟩

end Hashtable
